import Mathlib

/-!
# mcp-helm: the progressive-disclosure YAML transform

A shallow embedding of `internal/handler/yaml_collapse.go` and of the parts of
the handlers that drive it.

Conventions of the embedding:

* a Go `string` and a Go `[]byte` are both modelled by a Lean `String`
  (`string(data)` and `[]byte(s)` are the identity);
* a Go `int` is modelled by `Int`; a depth is at most the nesting of the document
  plus one, so `depth + 1` is exact, and the one subtraction that can leave the
  64-bit range (in `renderArray`) is wrapped explicitly (`wrapInt64`);
* a `*strings.Builder` that is only written to is modelled by the text that a
  function appends to it: `renderX sb args` becomes `renderX args : String`,
  and a sequence of writes becomes a concatenation;
* the functions of `goccy/go-yaml` and of the Go standard library that the
  source calls but that are not part of the repository are fields of `Lib`.
-/

namespace McpHelm

/-! ## Go library helpers -/

/-- Two's-complement wrap-around of a 64-bit Go `int`. -/
def wrapInt64 (x : Int) : Int := (x + 2 ^ 63) % 2 ^ 64 - 2 ^ 63

/-- Go `strings.HasPrefix` on rune lists. -/
def hasPrefixChars : List Char → List Char → Bool
  | _, [] => true
  | [], _ :: _ => false
  | c :: s, p :: ps => c == p && hasPrefixChars s ps

/-- Go `strings.HasPrefix(s, p)`. -/
def HasPrefix (s p : String) : Bool := hasPrefixChars s.data p.data

/-- Go `strings.HasSuffix(s, suffix)`. -/
def HasSuffix (s suffix : String) : Bool :=
  hasPrefixChars s.data.reverse suffix.data.reverse

/-- Go `strings.TrimPrefix(s, p)`: `s` without the leading `p`, if it has it. -/
def TrimPrefix (s p : String) : String :=
  if HasPrefix s p then String.mk (s.data.drop p.data.length) else s

/-- Go `strings.TrimSuffix(s, suffix)`: `s` without the trailing `suffix`, if it has it. -/
def TrimSuffix (s suffix : String) : String :=
  if HasSuffix s suffix then String.mk (s.data.take (s.data.length - suffix.data.length)) else s

/-- Go `unicode.IsSpace`: the Unicode White_Space runes. -/
def isSpace (c : Char) : Bool :=
  let n := c.toNat
  n == 0x09 || n == 0x0A || n == 0x0B || n == 0x0C || n == 0x0D || n == 0x20 ||
  n == 0x85 || n == 0xA0 || n == 0x1680 || (0x2000 ≤ n && n ≤ 0x200A) ||
  n == 0x2028 || n == 0x2029 || n == 0x202F || n == 0x205F || n == 0x3000

/-- Go `strings.TrimSpace(s)`. -/
def TrimSpace (s : String) : String :=
  String.mk ((s.data.dropWhile isSpace).reverse.dropWhile isSpace).reverse

/-- Go `strings.TrimLeft(s, cutset)`: drops the leading runes that occur in `cutset`. -/
def TrimLeft (s cutset : String) : String :=
  String.mk (s.data.dropWhile (fun c => cutset.data.contains c))

/-- Splits a rune list at every occurrence of `sep`; `cur` is the piece being read, reversed. -/
def splitChars (sep : Char) : List Char → List Char → List String
  | [], cur => [String.mk cur.reverse]
  | c :: rest, cur =>
    if c = sep then String.mk cur.reverse :: splitChars sep rest []
    else splitChars sep rest (c :: cur)

/-- Go `strings.Split(s, "\n")`. -/
def SplitLines (s : String) : List String := splitChars '\n' s.data []

/-- Go `strings.ToLower` on the ASCII letters; other runes are left as they are. The
source compares the result with ASCII keywords only (`needsQuoting`), and the only runes
outside ASCII whose lower case is an ASCII letter are U+212A (lower case `k`) and U+0130
(lower case `i`): no keyword holds a `k` or an `i`, so the comparison has the same
result as with `strings.ToLower`. Where the lower-casing of arbitrary text matters
(`matchesHostList`), `strings.ToLower` is a parameter. -/
def ToLower (s : String) : String := String.mk (s.data.map Char.toLower)

/-- Go `strconv.Itoa` / `strconv.FormatInt(_, 10)` / the verb `%d`. -/
def Itoa (i : Int) : String := toString i

/-! ## The parsed document (`goccy/go-yaml/ast`) -/

/-- An `ast.MapKeyNode`, as far as the source reads it: `String()` and `GetComment()`
(the text of the comment group, when there is one). -/
structure KeyNode where
  text : String
  comment : Option String
deriving DecidableEq

/-- A Go `float64`, carried by its IEEE-754 bit pattern. -/
structure Float64 where
  bits : Nat
deriving DecidableEq

/-- The dynamic type of an `ast.IntegerNode`'s `Value`. -/
inductive IntegerValue where
  | int64 (i : Int)
  | uint64 (n : Nat)
deriving DecidableEq

mutual
/-- An `ast.Node`. Every node carries the text of its comment group (`GetComment()`);
a node kind whose `String()` the source reads carries that text. -/
inductive Node where
  | MappingNode (comment : Option String) (Values : List MappingValueNode)
  | MappingValue (comment : Option String) (Key : KeyNode) (Value : Option Node)
  | SequenceNode (comment : Option String) (Values : List Node)
  | TagNode (comment : Option String) (Value : Option Node)
  | AnchorNode (comment : Option String) (Value : Option Node)
  | AliasNode (comment : Option String) (text : String)
  | NullNode (comment : Option String)
  | BoolNode (comment : Option String) (Value : Bool)
  | IntegerNode (comment : Option String) (Value : IntegerValue)
  | FloatNode (comment : Option String) (Value : Float64)
  | StringNode (comment : Option String) (Value : String)
  | InfinityNode (comment : Option String) (text : String)
  | NanNode (comment : Option String) (text : String)
  | OtherNode (comment : Option String) (text : String)
/-- An `*ast.MappingValueNode` held in the `Values` of a mapping: one `key: value`
pair; `Key` and `Value` may be nil. The same kind of node met as a node of its own is
`Node.MappingValue`; there the source reads the key without a nil test, and the key
is not optional. -/
inductive MappingValueNode where
  | mk (comment : Option String) (Key : Option KeyNode) (Value : Option Node)
end

/-- The `GetComment()` of a node. -/
def Node.GetComment : Node → Option String
  | .MappingNode c _ => c
  | .MappingValue c _ _ => c
  | .SequenceNode c _ => c
  | .TagNode c _ => c
  | .AnchorNode c _ => c
  | .AliasNode c _ => c
  | .NullNode c => c
  | .BoolNode c _ => c
  | .IntegerNode c _ => c
  | .FloatNode c _ => c
  | .StringNode c _ => c
  | .InfinityNode c _ => c
  | .NanNode c _ => c
  | .OtherNode c _ => c

/-- An `*ast.DocumentNode`; the body may be nil. -/
structure Document where
  Body : Option Node

/-- An `*ast.File`. -/
structure File where
  Docs : List Document

/-! ## The ordered tree -/

/-- A scalar of the ordered tree, by its Go dynamic type. `otherNumber` stands for a
value of one of the numeric types that `inferType` lists and `formatScalar` does not
(`int8`, `int16`, `int32`, `uint`, `uint8`, `uint16`, `uint32`, `float32`), `other` for a
value of a type that neither of them lists (the `default` branch of both); each is
carried by its `%v` text. `astToOrdered` builds neither of the two. -/
inductive Scalar where
  | null
  | bool (b : Bool)
  | int (i : Int)
  | int64 (i : Int)
  | uint64 (n : Nat)
  | float64 (f : Float64)
  | str (s : String)
  | otherNumber (text : String)
  | other (text : String)
deriving DecidableEq

mutual
/-- A node of the ordered tree (a Go `interface{}`): an `*orderedMap`, a
`[]interface{}` or a scalar. -/
inductive Value where
  | omap (entries : List orderedEntry)
  | slice (items : List Value)
  | scalar (s : Scalar)
/-- A key-value pair that preserves insertion order. -/
inductive orderedEntry where
  | mk (key : String) (value : Value)
end

/-- The key of an entry. -/
def orderedEntry.key : orderedEntry → String
  | .mk k _ => k

/-- The value of an entry. -/
def orderedEntry.value : orderedEntry → Value
  | .mk _ v => v

/-- Go `value == nil` for a tree node. -/
def Value.isNil : Value → Bool
  | .scalar .null => true
  | _ => false

/-- Controls how YAML is collapsed for progressive disclosure. -/
structure CollapseOptions where
  MaxDepth : Int
  MaxArrayItems : Int
  ShowDefaults : Bool
  ShowComments : Bool
deriving DecidableEq

def defaultMaxDepth : Int := 2
def defaultMaxArrayItems : Int := 3

/-- The default options for collapsing YAML. -/
def DefaultCollapseOptions : CollapseOptions :=
  { MaxDepth := defaultMaxDepth, MaxArrayItems := defaultMaxArrayItems,
    ShowDefaults := true, ShowComments := false }

/-- The library functions the source calls: `parser.ParseBytes(data, parser.ParseComments)`,
`yaml.Unmarshal` into an `interface{}`, `yaml.Marshal`, `strconv.ParseFloat(s, 64)`
(whether its error is nil), `strconv.Quote`, the test `val == float64(int64(val))`,
the conversion `int64(val)` and `strconv.FormatFloat(val, 'g', -1, 64)`.
An error is carried by its message. -/
structure Lib where
  Decoded : Type
  ParseBytes : String → Except String File
  Unmarshal : String → Except String Decoded
  Marshal : Decoded → Except String String
  ParseFloatOk : String → Bool
  Quote : String → String
  Float64IsInt64 : Float64 → Bool
  Float64ToInt64 : Float64 → Int
  FormatFloat : Float64 → String

/-! ## Building the ordered tree -/

/-- Strips surrounding double or single quotes from a YAML key string. The source
tests the first and the last byte and the byte length; a quote is a one-byte rune, so
the test on runes is the same. -/
def unquoteKey (key : String) : String :=
  match key.data with
  | c :: rest@(_ :: _) =>
    if (c = '"' ∧ rest.getLast? = some '"') ∨
        (c = Char.ofNat 39 ∧ rest.getLast? = some (Char.ofNat 39)) then
      String.mk rest.dropLast
    else key
  | _ => key

mutual
/-- The type switch of `astToOrdered`, on a non-nil node. -/
def astToOrderedNode : Node → Value
  | .MappingNode _ vs => .omap (astToOrderedEntries vs)
  | .MappingValue _ k v => .omap [.mk (unquoteKey k.text) (astToOrdered v)]
  | .SequenceNode _ vs => .slice (astToOrderedItems vs)
  | .TagNode _ v => astToOrdered v
  | .AnchorNode _ v => astToOrdered v
  | .AliasNode _ text => .scalar (.str text)
  | .NullNode _ => .scalar .null
  | .BoolNode _ b => .scalar (.bool b)
  | .IntegerNode _ (.int64 i) => .scalar (.int64 i)
  | .IntegerNode _ (.uint64 n) => .scalar (.uint64 n)
  | .FloatNode _ f => .scalar (.float64 f)
  | .StringNode _ s => .scalar (.str s)
  | .InfinityNode _ text => .scalar (.str text)
  | .NanNode _ text => .scalar (.str text)
  | .OtherNode _ text => .scalar (.str text)
/-- Converts an AST node into an ordered tree structure: maps become `*orderedMap`,
sequences become `[]interface{}`, scalars become Go values; a nil node becomes nil. -/
def astToOrdered : Option Node → Value
  | none => .scalar .null
  | some n => astToOrderedNode n
/-- The loop of `astToOrdered` over the `Values` of a mapping node. -/
def astToOrderedEntries : List MappingValueNode → List orderedEntry
  | [] => []
  | .mk _ (some k) v :: rest => .mk (unquoteKey k.text) (astToOrdered v) :: astToOrderedEntries rest
  | .mk _ none _ :: rest => astToOrderedEntries rest
/-- The loop of `astToOrdered` over the `Values` of a sequence node. -/
def astToOrderedItems : List Node → List Value
  | [] => []
  | v :: rest => astToOrderedNode v :: astToOrderedItems rest
end

/-! ## Scalars and summaries -/

/-- The runes that force quoting. -/
def quotingRunes : List Char :=
  [':', '#', '\n', '"', Char.ofNat 39, '[', ']', Char.ofNat 0x7b, Char.ofNat 0x7d,
   '&', '*', '!', '|', '>', '%', '@', Char.ofNat 0x60]

/-- Returns true if a string needs YAML quoting. -/
def needsQuoting (lib : Lib) (s : String) : Bool :=
  if s = "" then true
  else if TrimSpace s ≠ s then true
  else if s.data.any (fun c => quotingRunes.contains c) then true
  else if ["true", "false", "null", "yes", "no", "on", "off", "~"].contains (ToLower s) then true
  else if lib.ParseFloatOk s then true
  else false

/-- Go `strconv.FormatBool`. -/
def FormatBool (b : Bool) : String := if b then "true" else "false"

/-- Formats a scalar value for YAML output. -/
def formatScalar (lib : Lib) : Scalar → String
  | .null => "null"
  | .bool b => FormatBool b
  | .int i => Itoa i
  | .int64 i => Itoa i
  | .uint64 n => Itoa n
  | .float64 f =>
    if lib.Float64IsInt64 f then Itoa (lib.Float64ToInt64 f) else lib.FormatFloat f
  | .str s =>
    if s = "" then "\"\""
    else if needsQuoting lib s then lib.Quote s
    else s
  | .otherNumber text => text
  | .other text => text

/-- Returns the type name for a scalar value. -/
def inferType : Scalar → String
  | .null => "null"
  | .bool _ => "boolean"
  | .int _ => "number"
  | .int64 _ => "number"
  | .uint64 _ => "number"
  | .float64 _ => "number"
  | .str _ => "string"
  | .otherNumber _ => "number"
  | .other _ => "unknown"

/-- Writes a scalar value to the builder. -/
def renderScalar (lib : Lib) (v : Scalar) (showDefaults : Bool) : String :=
  if showDefaults then formatScalar lib v else inferType v

/-- Returns a type summary for an ordered map. -/
def summarizeOrderedMap (entries : List orderedEntry) : String :=
  match entries.length with
  | 0 => "object (empty)"
  | 1 => "object (1 key)"
  | n => "object (" ++ Itoa n ++ " keys)"

/-- Returns a summary for an array. -/
def summarizeArray (arr : List Value) : String :=
  match arr.length with
  | 0 => "array (empty)"
  | 1 => "array (1 item)"
  | n => "array (" ++ Itoa n ++ " items)"

/-- Returns true if the value would be immediately collapsed (summarized) at the
given depth with the given options. -/
def willCollapse (value : Value) (depth : Int) (opts : CollapseOptions) : Bool :=
  if opts.MaxDepth = 0 then false
  else match value with
    | .omap entries => decide (entries.length > 0) && decide (depth ≥ opts.MaxDepth)
    | .slice v => decide (v.length > 0) && decide (depth ≥ opts.MaxDepth)
    | .scalar _ => false

/-! ## Comments -/

/-- A Go `map[string]string`: dotted path to comment text. -/
abbrev CommentMap := String → Option String

/-- The empty (or nil) map. -/
def CommentMap.empty : CommentMap := fun _ => none

/-- The assignment `comments[k] = v`. -/
def CommentMap.set (m : CommentMap) (k v : String) : CommentMap :=
  fun p => if p = k then some v else m p

/-- The path of a child: `key`, or `path + "." + key` when `path` is not empty. -/
def childPath (path key : String) : String :=
  if path ≠ "" then path ++ "." ++ key else key

/-- The loop of `extractFirstCommentLine` over the lines of the raw comment. -/
def firstCommentLineLoop : List String → Bool → String
  | [], _ => ""
  | line :: rest, inSchema =>
    let line := TrimSpace (TrimLeft (TrimSpace line) "#")
    if line = "" then firstCommentLineLoop rest inSchema
    else if HasPrefix line "@schema" then firstCommentLineLoop rest (!inSchema)
    else if inSchema then firstCommentLineLoop rest inSchema
    else TrimPrefix line "-- "

/-- Processes a raw comment string (potentially multi-line) and returns only the
first meaningful line; lines of an `@schema` block are skipped. -/
def extractFirstCommentLine (raw : String) : String :=
  firstCommentLineLoop (SplitLines raw) false

/-- The comment group chosen for a mapping entry: the key's, else the mapping value
node's, else the value node's. -/
def entryCommentNode (keyComment nodeComment : Option String) (value : Option Node) :
    Option String :=
  match keyComment with
  | some c => some c
  | none =>
    match nodeComment with
    | some c => some c
    | none =>
      match value with
      | some v => v.GetComment
      | none => none

/-- The store of `extractCommentsFromNode` for one mapping entry. -/
def storeEntryComment (commentNode : Option String) (newPath : String)
    (comments : CommentMap) : CommentMap :=
  match commentNode with
  | some raw =>
    let text := extractFirstCommentLine raw
    if text ≠ "" then comments.set newPath text else comments
  | none => comments

mutual
/-- The type switch of `extractCommentsFromNode`, on a non-nil node. -/
def extractCommentsFromNodeSwitch : Node → String → CommentMap → CommentMap
  | .MappingNode _ vs, path, comments => extractCommentsFromValues vs path comments
  | .MappingValue c keyNode v, path, comments =>
    let newPath := childPath path (unquoteKey keyNode.text)
    extractCommentsFromNode v newPath
      (storeEntryComment (entryCommentNode keyNode.comment c v) newPath comments)
  | .SequenceNode _ vs, path, comments => extractCommentsFromItems vs 0 path comments
  | .AnchorNode _ v, path, comments => extractCommentsFromNode v path comments
  | .TagNode _ v, path, comments => extractCommentsFromNode v path comments
  | .AliasNode _ _, _, comments => comments
  | .NullNode _, _, comments => comments
  | .BoolNode _ _, _, comments => comments
  | .IntegerNode _ _, _, comments => comments
  | .FloatNode _ _, _, comments => comments
  | .StringNode _ _, _, comments => comments
  | .InfinityNode _ _, _, comments => comments
  | .NanNode _ _, _, comments => comments
  | .OtherNode _ _, _, comments => comments
/-- Recursively extracts comments from AST nodes, keyed by full dotted path. The map
that the source updates in place is passed in and returned. -/
def extractCommentsFromNode : Option Node → String → CommentMap → CommentMap
  | none, _, comments => comments
  | some n, path, comments => extractCommentsFromNodeSwitch n path comments
/-- The loop over the `Values` of a mapping node; each is a mapping value node. -/
def extractCommentsFromValues : List MappingValueNode → String → CommentMap → CommentMap
  | [], _, comments => comments
  | .mk _ none _ :: rest, path, comments => extractCommentsFromValues rest path comments
  | .mk c (some keyNode) v :: rest, path, comments =>
    let newPath := childPath path (unquoteKey keyNode.text)
    extractCommentsFromValues rest path
      (extractCommentsFromNode v newPath
        (storeEntryComment (entryCommentNode keyNode.comment c v) newPath comments))
/-- The loop over the `Values` of a sequence node, `i` being the index. -/
def extractCommentsFromItems : List Node → Nat → String → CommentMap → CommentMap
  | [], _, _, comments => comments
  | v :: rest, i, path, comments =>
    extractCommentsFromItems rest (i + 1) path
      (extractCommentsFromNodeSwitch v (path ++ "[" ++ Itoa i ++ "]") comments)
end

/-- Extracts comments from a parsed YAML file: a map of full dotted paths to their
associated comments. -/
def extractComments (file : File) : CommentMap :=
  match file.Docs with
  | doc :: _ => extractCommentsFromNode doc.Body "" CommentMap.empty
  | [] => CommentMap.empty

/-! ## The renderer -/

/-- The item limit of `renderArray`: `opts.MaxArrayItems`, or `len(arr)` when that is 0. -/
def arrayMaxItems (opts : CollapseOptions) (arr : List Value) : Int :=
  if opts.MaxArrayItems = 0 then (arr.length : Int) else opts.MaxArrayItems

/-- The comment line that `renderMap` writes before an entry, or nothing. -/
def entryCommentLine (opts : CollapseOptions) (comments : CommentMap) (value : Value)
    (path indent : String) (depth : Int) : String :=
  if opts.ShowComments && !willCollapse value (depth + 1) opts then
    match comments path with
    | some comment => indent ++ "# " ++ comment ++ "\n"
    | none => ""
  else ""

mutual
/-- Handles ordered map nodes with depth limiting: the loop over `m.entries`. -/
def renderMap (lib : Lib) (opts : CollapseOptions) (comments : CommentMap) :
    List orderedEntry → String → String → Int → String
  | [], _, _, _ => ""
  | .mk key value :: rest, path, indent, depth =>
    entryCommentLine opts comments value (childPath path key) indent depth ++
    indent ++ key ++ ": " ++
    renderValue lib opts comments value (childPath path key) (indent ++ "  ") (depth + 1) ++
    renderMap lib opts comments rest path indent depth
/-- The loop of `renderArray`: `maxItems` and `len` are the limit and `len(arr)`
computed before the loop, `i` is the index of the first item of the list. -/
def renderArrayLoop (lib : Lib) (opts : CollapseOptions) (comments : CommentMap)
    (maxItems : Int) (len : Nat) : List Value → Nat → String → String → Int → String
  | [], _, _, _, _ => ""
  | item :: rest, i, path, indent, depth =>
    if (i : Int) ≥ maxItems then
      indent ++ "... and " ++ Itoa (wrapInt64 ((len : Int) - maxItems)) ++ " more items\n"
    else
      indent ++ "- " ++
      renderArrayItem lib opts comments item path indent (depth + 1) ++
      renderArrayLoop lib opts comments maxItems len rest (i + 1) path indent depth
/-- Handles a single array item, with special formatting for objects. -/
def renderArrayItem (lib : Lib) (opts : CollapseOptions) (comments : CommentMap) :
    Value → String → String → Int → String
  | .omap entries, path, indent, depth =>
    if entries.length = 0 then "object (empty)\n"
    else if depth ≥ opts.MaxDepth then summarizeOrderedMap entries ++ "\n"
    else renderInlineMap lib opts comments entries path (indent ++ "  ") depth
  | .slice v, path, indent, depth =>
    if v.length = 0 then "array (empty)\n"
    else if depth ≥ opts.MaxDepth then summarizeArray v ++ "\n"
    else "\n" ++
      renderArrayLoop lib opts comments (arrayMaxItems opts v) v.length v 0 path
        (indent ++ "  ") depth
  | .scalar v, _, _, _ => renderScalar lib v opts.ShowDefaults ++ "\n"
/-- Renders a map with the first key on the current line (for array items). The
source reads `m.entries[0]`; its caller has tested that the map is not empty. -/
def renderInlineMap (lib : Lib) (opts : CollapseOptions) (comments : CommentMap) :
    List orderedEntry → String → String → Int → String
  | [], _, _, _ => ""
  | .mk key value :: rest, path, indent, depth =>
    key ++ ": " ++
    renderValue lib opts comments value (childPath path key) indent (depth + 1) ++
    renderInlineRest lib opts comments rest path indent depth
/-- The loop of `renderInlineMap` over `m.entries[1:]`. -/
def renderInlineRest (lib : Lib) (opts : CollapseOptions) (comments : CommentMap) :
    List orderedEntry → String → String → Int → String
  | [], _, _, _ => ""
  | .mk key value :: rest, path, indent, depth =>
    indent ++ key ++ ": " ++
    renderValue lib opts comments value (childPath path key) indent (depth + 1) ++
    renderInlineRest lib opts comments rest path indent depth
/-- Renders a single value with depth checking. -/
def renderValue (lib : Lib) (opts : CollapseOptions) (comments : CommentMap) :
    Value → String → String → Int → String
  | .omap entries, path, indent, depth =>
    if entries.length = 0 then "object (empty)\n"
    else if depth ≥ opts.MaxDepth then summarizeOrderedMap entries ++ "\n"
    else "\n" ++ renderMap lib opts comments entries path indent depth
  | .slice v, path, indent, depth =>
    if v.length = 0 then "array (empty)\n"
    else if depth ≥ opts.MaxDepth then summarizeArray v ++ "\n"
    else "\n" ++
      renderArrayLoop lib opts comments (arrayMaxItems opts v) v.length v 0 path indent depth
  | .scalar v, _, _, _ => renderScalar lib v opts.ShowDefaults ++ "\n"
end

/-- Handles array nodes with depth limiting and item truncation. -/
def renderArray (lib : Lib) (opts : CollapseOptions) (comments : CommentMap)
    (arr : List Value) (path indent : String) (depth : Int) : String :=
  renderArrayLoop lib opts comments (arrayMaxItems opts arr) arr.length arr 0 path indent depth

/-- Renders any YAML node with depth tracking. -/
def renderNode (lib : Lib) (opts : CollapseOptions) (comments : CommentMap)
    (node : Value) (path indent : String) (depth : Int) : String :=
  match node with
  | .omap entries => renderMap lib opts comments entries path indent depth
  | .slice v => renderArray lib opts comments v path indent depth
  | .scalar v => renderScalar lib v opts.ShowDefaults

/-! ## The entry point -/

/-- Removes comments from YAML while preserving structure. -/
def stripComments (lib : Lib) (data : String) : String × Bool × Option String :=
  match lib.Unmarshal data with
  | .error err => ("", false, some ("parsing YAML: " ++ err))
  | .ok root =>
    match lib.Marshal root with
    | .error err => ("", false, some ("marshaling YAML: " ++ err))
    | .ok out => (TrimSuffix out "\n", false, none)

/-- The root of the ordered tree: the body of the first document, nil without one. -/
def documentRoot (file : File) : Value :=
  match file.Docs with
  | doc :: _ => astToOrdered doc.Body
  | [] => .scalar .null

/-- Transforms YAML content with depth limiting for progressive disclosure. The
result is the text, the collapsed flag and the error (`none` for a nil error). -/
def CollapseYAML (lib : Lib) (data : String) (opts : CollapseOptions) :
    String × Bool × Option String :=
  if opts.MaxDepth = 0 then
    if !opts.ShowComments then stripComments lib data
    else (data, false, none)
  else
    match lib.ParseBytes data with
    | .error err => ("", false, some ("parsing YAML: " ++ err))
    | .ok file =>
      let comments := if opts.ShowComments then extractComments file else CommentMap.empty
      let root := documentRoot file
      if root.isNil then ("", true, none)
      else (TrimSuffix (renderNode lib opts comments root "" "" 0) "\n", true, none)

/-! ## Definitions used to state the properties -/

/-- Concatenation of a list of texts, in list order. -/
def concatAll : List String → String
  | [] => ""
  | s :: rest => s ++ concatAll rest

/-- The entries of a mapping with keys and values forgotten; only the count is kept. -/
def blankEntries (es : List orderedEntry) : List orderedEntry :=
  es.map (fun _ => orderedEntry.mk "" (.scalar .null))

/-- The items of a sequence with their content forgotten; only the count is kept. -/
def blankItems (xs : List Value) : List Value :=
  xs.map (fun _ => Value.scalar .null)

mutual
/-- The tree `v` with everything more than `n` levels below it forgotten: a mapping
or sequence reached with `n = 0` keeps the number of its children and nothing else. -/
def eraseBelow : Value → Nat → Value
  | .omap es, 0 => .omap (blankEntries es)
  | .omap es, n + 1 => .omap (eraseBelowEntries es n)
  | .slice xs, 0 => .slice (blankItems xs)
  | .slice xs, n + 1 => .slice (eraseBelowItems xs n)
  | .scalar s, _ => .scalar s
/-- The entries with their keys kept and their values erased below `n` levels. -/
def eraseBelowEntries : List orderedEntry → Nat → List orderedEntry
  | [], _ => []
  | .mk k v :: rest, n => .mk k (eraseBelow v n) :: eraseBelowEntries rest n
/-- The items, each erased below `n` levels. -/
def eraseBelowItems : List Value → Nat → List Value
  | [], _ => []
  | v :: rest, n => eraseBelow v n :: eraseBelowItems rest n
end

/-- The text written for one rendered item of a sequence: the indentation, the
marker `- ` and the item. -/
def itemLine (lib : Lib) (opts : CollapseOptions) (comments : CommentMap)
    (path indent : String) (depth : Int) (item : Value) : String :=
  indent ++ "- " ++ renderArrayItem lib opts comments item path indent (depth + 1)

/-- The items of a sequence that are shown under the limit `k`: all of them when
`k = 0`, the first `k` otherwise. -/
def shownItems (k : Int) (arr : List Value) : List Value :=
  if k = 0 then arr else arr.take k.toNat

/-- The marker line that follows a truncated sequence of `n` items under the limit
`k`, and nothing when the sequence is not truncated. -/
def truncationMarker (indent : String) (k : Int) (n : Nat) : String :=
  if 0 < k ∧ k < (n : Int) then indent ++ "... and " ++ Itoa ((n : Int) - k) ++ " more items\n"
  else ""

/-- The text written for one entry of an expanded mapping: its comment line if any,
then the key line and the value. -/
def entryText (lib : Lib) (opts : CollapseOptions) (comments : CommentMap)
    (path indent : String) (depth : Int) (e : orderedEntry) : String :=
  entryCommentLine opts comments e.value (childPath path e.key) indent depth ++
  indent ++ e.key ++ ": " ++
  renderValue lib opts comments e.value (childPath path e.key) (indent ++ "  ") (depth + 1)

/-- A value is written as a one-line summary at `depth` when it is a non-empty
mapping or sequence and `depth` has reached `MaxDepth`. -/
def isSummarizedAt (opts : CollapseOptions) (value : Value) (depth : Int) : Bool :=
  match value with
  | .omap entries => !entries.isEmpty && decide (opts.MaxDepth ≤ depth)
  | .slice v => !v.isEmpty && decide (opts.MaxDepth ≤ depth)
  | .scalar _ => false

/-- The one-line summary of a mapping or sequence. -/
def summaryOf : Value → String
  | .omap entries => summarizeOrderedMap entries
  | .slice v => summarizeArray v
  | .scalar _ => ""

/-- The key of a mapping value node of the AST. -/
def MappingValueNode.Key : MappingValueNode → Option KeyNode
  | .mk _ k _ => k

/-- The value of a mapping value node of the AST. -/
def MappingValueNode.Value : MappingValueNode → Option Node
  | .mk _ _ v => v

/-! ## Sample documents -/

/-- The ordered tree of `a: {b: {c: value}}`. -/
def nestedTree : Value :=
  .omap [.mk "a" (.omap [.mk "b" (.omap [.mk "c" (.scalar (.str "value"))])])]

/-- The text of the document `a: {b: {c: value}}` in block form. -/
def nestedText : String := "a:\n  b:\n    c: value\n"

/-- The AST of `nestedText`. -/
def nestedBody : Node :=
  .MappingNode none [.mk none (some ⟨"a", none⟩) (some (.MappingNode none
    [.mk none (some ⟨"b", none⟩) (some (.MappingNode none
      [.mk none (some ⟨"c", none⟩) (some (.StringNode none "value"))]))]))]

/-- A document that differs from `nestedText` at the third level only. -/
def nestedText2 : String := "a:\n  b:\n    other: 7\n"

/-- The AST of `nestedText2`. -/
def nestedBody2 : Node :=
  .MappingNode none [.mk none (some ⟨"a", none⟩) (some (.MappingNode none
    [.mk none (some ⟨"b", none⟩) (some (.MappingNode none
      [.mk none (some ⟨"other", none⟩) (some (.IntegerNode none (.uint64 7)))]))]))]

/-- A document of scalars only: `enabled: true`. -/
def flatText : String := "enabled: true\n"

/-- The ordered tree of `flatText`. -/
def flatTree : Value := .omap [.mk "enabled" (.scalar (.bool true))]

/-- The AST of `flatText`. -/
def flatBody : Node :=
  .MappingNode none [.mk none (some ⟨"enabled", none⟩) (some (.BoolNode none true))]

/-- A mapping with a scalar entry and an entry that holds a non-empty mapping. -/
def commentedEntries : List orderedEntry :=
  [.mk "name" (.scalar (.str "x")), .mk "svc" (.omap [.mk "port" (.scalar (.uint64 80))])]

/-- A comment map with a comment for each entry of `commentedEntries`. -/
def commentedPaths : CommentMap :=
  (CommentMap.empty.set "name" "The name").set "svc" "Service settings"

/-- A sequence of five strings. -/
def fiveItems : List Value :=
  [.scalar (.str "one"), .scalar (.str "two"), .scalar (.str "three"),
   .scalar (.str "four"), .scalar (.str "five")]

/-- The malformed input of `TestCollapseYAML_InvalidYAML`. -/
def invalidText : String := "invalid: yaml: content: [[["

/-- A small stand-in for the library, defined on the sample documents: it parses
`nestedText`, `nestedText2`, `flatText` and the empty input and rejects every other
input, `invalidText` among them. -/
def sampleLib : Lib where
  Decoded := String
  ParseBytes := fun data =>
    if data = nestedText then .ok ⟨[⟨some nestedBody⟩]⟩
    else if data = nestedText2 then .ok ⟨[⟨some nestedBody2⟩]⟩
    else if data = flatText then .ok ⟨[⟨some flatBody⟩]⟩
    else if data = "" then .ok ⟨[]⟩
    else .error "syntax error"
  Unmarshal := fun data =>
    if data = nestedText ∨ data = nestedText2 ∨ data = flatText ∨ data = "" then .ok data
    else .error "syntax error"
  Marshal := fun d => .ok d
  ParseFloatOk := fun s => !s.data.isEmpty && s.data.all Char.isDigit
  Quote := fun s => "\"" ++ s ++ "\""
  Float64IsInt64 := fun _ => false
  Float64ToInt64 := fun _ => 0
  FormatFloat := fun _ => "0.5"

/-! ## The get_values handler (`internal/handler/charts.go`) -/

def MaxResponseTokens : Nat := 10000
def bytesPerToken : Nat := 4
def MaxResponseBytes : Nat := MaxResponseTokens * bytesPerToken

/-- Go `len(s)` of a string: its length in bytes. -/
def len (s : String) : Nat := s.utf8ByteSize

/-- The successful result of the get_values tool. -/
structure getValuesOutput where
  Version : String
  Values : String
  Path : String
  Collapsed : Bool
  Schema : String
deriving DecidableEq

/-- The text of the error returned when the output exceeds the limit at the minimum
depth: it names the size, the limit and the depth and suggests the path parameter. -/
def sizeErrorText (size limit : Nat) (depth : Int) : String :=
  "values output too large (" ++ Itoa size ++ " bytes, limit " ++ Itoa limit ++
  ") even at depth=" ++ Itoa depth ++
  "; use the \x27path\x27 parameter to select a subsection (e.g. path=\".ingress\")"

/-- The depth-reduction loop of `getValues`: while the output exceeds the limit and
`opts.MaxDepth > 1`, decrement `MaxDepth` and render again. The state is the options,
the text and the collapsed flag; an error of `CollapseYAML` ends the handler with a
text error. `fuel` bounds the number of iterations; `opts.MaxDepth.toNat` is enough
(`reduceDepthLoop_exit`). -/
def reduceDepthLoop (lib : Lib) (dataToProcess schemaStr : String) :
    Nat → CollapseOptions → String → Bool → Except String (CollapseOptions × String × Bool)
  | 0, opts, result, collapsed => .ok (opts, result, collapsed)
  | fuel + 1, opts, result, collapsed =>
    if len result + len schemaStr > MaxResponseBytes ∧ opts.MaxDepth > 1 then
      match CollapseYAML lib dataToProcess { opts with MaxDepth := opts.MaxDepth - 1 } with
      | (_, _, some err) => .error ("processing values: " ++ err)
      | (result, collapsed, none) =>
        reduceDepthLoop lib dataToProcess schemaStr fuel
          { opts with MaxDepth := opts.MaxDepth - 1 } result collapsed
    else .ok (opts, result, collapsed)

/-- The handler of the get_values tool from the point where the collapse options, the
data to process and the schema text are known (`charts.go`, from the first call of
`CollapseYAML` on): it renders, reduces the depth while the output is too large, and
returns the output or a text error (`.error`, the text of `mcputil.TextError`).
`dataToProcess` is the values text when `path` is empty, and the text that
`extractYAMLPath` returned for the path otherwise; `path` is only copied to the output.
The part of the handler before that point (the validation of the options and the
extraction of the path, with error results of their own) is not embedded: with a path
that is not empty, the results of this function are those of the handler for a
`dataToProcess` that the extraction returned. -/
def getValues (lib : Lib) (version path dataToProcess schemaStr : String)
    (opts : CollapseOptions) : Except String getValuesOutput :=
  match CollapseYAML lib dataToProcess opts with
  | (_, _, some err) => .error ("processing values: " ++ err)
  | (result, collapsed, none) =>
    match reduceDepthLoop lib dataToProcess schemaStr opts.MaxDepth.toNat opts result collapsed with
    | .error msg => .error msg
    | .ok (opts, result, collapsed) =>
      if len result + len schemaStr > MaxResponseBytes then
        .error (sizeErrorText (len result + len schemaStr) MaxResponseBytes opts.MaxDepth)
      else
        .ok { Version := version, Values := result, Path := path, Collapsed := collapsed,
              Schema := schemaStr }

/-! ## Further definitions used to state the properties -/

/-- Equality of two texts ignoring the case of ASCII letters. -/
def equalFold (a b : String) : Bool :=
  a.data.map Char.toLower == b.data.map Char.toLower

/-- A text without its leading sign, if it has one. -/
def dropSign : List Char → List Char
  | '+' :: rest => rest
  | '-' :: rest => rest
  | cs => cs

/-- A decimal number literal: an optional sign, one or more digits, an optional
fraction (a point and one or more digits) and an optional exponent (`e` or `E`, an
optional sign and one or more digits). -/
def isDecimalLiteral (s : String) : Bool :=
  let cs := dropSign s.data
  let afterInt := cs.dropWhile Char.isDigit
  let afterFrac :=
    match afterInt with
    | '.' :: d :: rest => if d.isDigit then rest.dropWhile Char.isDigit else afterInt
    | _ => afterInt
  decide (afterInt.length < cs.length) &&
    (match afterFrac with
      | [] => true
      | e :: rest =>
        (e == 'e' || e == 'E') && !(dropSign rest).isEmpty && (dropSign rest).all Char.isDigit)

/-- A text without a line break. -/
def NoLineBreak (s : String) : Prop := '\n' ∉ s.data

/-- The lines joined by single line breaks, with no line break after the last one. -/
def joinLines : List String → String
  | [] => ""
  | [l] => l
  | l :: rest => l ++ "\n" ++ joinLines rest

/-- A text made of complete lines: non-empty texts without a line break, each one
followed by one line break. -/
def CompleteLines (t : String) : Prop :=
  ∃ ls : List String, (∀ l ∈ ls, l ≠ "" ∧ NoLineBreak l) ∧
    t = concatAll (ls.map (fun l => l ++ "\n"))

/-- A text that ends the current line and goes on with complete lines. -/
def LineRest (t : String) : Prop :=
  ∃ r u : String, NoLineBreak r ∧ CompleteLines u ∧ t = r ++ "\n" ++ u

/-- Every comment of the map is free of line breaks. -/
def CommentsOnOneLine (comments : CommentMap) : Prop :=
  ∀ p c, comments p = some c → NoLineBreak c

mutual
/-- Every key of the tree (and every scalar of a type that `astToOrdered` does not
build) is free of line breaks. -/
def keysOnOneLine : Value → Bool
  | .omap es => entriesOnOneLine es
  | .slice xs => itemsOnOneLine xs
  | .scalar (.otherNumber text) => !text.data.contains '\n'
  | .scalar (.other text) => !text.data.contains '\n'
  | .scalar _ => true
/-- The keys of the entries, and of the trees below them, are free of line breaks. -/
def entriesOnOneLine : List orderedEntry → Bool
  | [] => true
  | .mk k v :: rest => !k.data.contains '\n' && keysOnOneLine v && entriesOnOneLine rest
/-- The keys of the trees below the items are free of line breaks. -/
def itemsOnOneLine : List Value → Bool
  | [] => true
  | v :: rest => keysOnOneLine v && itemsOnOneLine rest
end

/-! ## Further sample documents -/

/-- The ordered tree of a sequence item with an expanded mapping under its second
key: `items: [{name: app, config: {nested: value}}]`. -/
def itemsTree : Value :=
  .omap [.mk "items" (.slice [.omap [.mk "name" (.scalar (.str "app")),
    .mk "config" (.omap [.mk "nested" (.scalar (.str "value"))])]])]

/-- The text of the document of `itemsTree` in block form. -/
def itemsText : String := "items:\n  - name: app\n    config:\n      nested: value\n"

/-- The AST of `itemsText`. -/
def itemsBody : Node :=
  .MappingNode none [.mk none (some ⟨"items", none⟩) (some (.SequenceNode none
    [.MappingNode none [.mk none (some ⟨"name", none⟩) (some (.StringNode none "app")),
      .mk none (some ⟨"config", none⟩) (some (.MappingNode none
        [.mk none (some ⟨"nested", none⟩) (some (.StringNode none "value"))]))]]))]

/-- One rune of `strconv.Quote` for the sample library: the double quote, the
backslash and the line break, tab and carriage return are escaped. -/
def sampleQuoteRune (c : Char) : List Char :=
  if c = '"' then ['\\', '"']
  else if c = '\\' then ['\\', '\\']
  else if c = '\n' then ['\\', 'n']
  else if c = '\t' then ['\\', 't']
  else if c = '\r' then ['\\', 'r']
  else [c]

/-- The body of a quoted text for the sample library. -/
def sampleQuoteBody : List Char → List Char
  | [] => []
  | c :: rest => sampleQuoteRune c ++ sampleQuoteBody rest

/-- The sample library with a `Quote` that escapes line breaks, and a parser that
knows `itemsText` too. -/
def escapingLib : Lib :=
  { sampleLib with
    Quote := fun s => String.mk ('"' :: sampleQuoteBody s.data ++ ['"'])
    ParseBytes := fun data =>
      if data = itemsText then .ok ⟨[⟨some itemsBody⟩]⟩ else sampleLib.ParseBytes data }

/-! ## The chart cache key (`internal/helm/cache.go`) -/

/-- Builds an unambiguous cache key using length-prefixed encoding. -/
def makeChartKey (repoURL chartName version : String) : String :=
  Itoa (len repoURL) ++ ":" ++ repoURL ++
    Itoa (len chartName) ++ ":" ++ chartName ++
    version

/-! ## Host lists (`internal/helm/validation.go`) -/

/-- The loop of `matchesHostList` over the patterns; `host` is the lower-cased host. -/
def matchesHostListLoop (lower : String → String) (host : String) : List String → Bool
  | [] => false
  | pattern :: rest =>
    let pattern := lower (TrimSpace pattern)
    if pattern = "" then matchesHostListLoop lower host rest
    else if pattern = "*" then true
    else if HasPrefix pattern "." then
      if host = TrimPrefix pattern "." ∨ HasSuffix host pattern then true
      else matchesHostListLoop lower host rest
    else if host = pattern ∨ HasSuffix host ("." ++ pattern) then true
    else matchesHostListLoop lower host rest

/-- Checks if a host matches any pattern in the list: an exact match, a wildcard
subdomain (`.example.com`) or the wildcard `*`. `lower` stands for `strings.ToLower`. -/
def matchesHostList (lower : String → String) (host : String) (patterns : List String) :
    Bool :=
  if lower host = "" then false
  else matchesHostListLoop lower (lower host) patterns

/-! ## The renderer with its run-time failure made explicit

The one operation of the renderer that can fail at run time is the index expression
`m.entries[0]` of `renderInlineMap`. In the functions below a failure is the result
`none`, and a call that would be made after it is not made. -/

mutual
/-- The function `renderMap`, with `none` for a failure below it. -/
def renderMapChecked (lib : Lib) (opts : CollapseOptions) (comments : CommentMap) :
    List orderedEntry → String → String → Int → Option String
  | [], _, _, _ => some ""
  | .mk key value :: rest, path, indent, depth =>
    match renderValueChecked lib opts comments value (childPath path key) (indent ++ "  ")
        (depth + 1) with
    | none => none
    | some v =>
      match renderMapChecked lib opts comments rest path indent depth with
      | none => none
      | some r =>
        some (entryCommentLine opts comments value (childPath path key) indent depth ++
          indent ++ key ++ ": " ++ v ++ r)
/-- The loop of `renderArray`, with `none` for a failure below it. -/
def renderArrayLoopChecked (lib : Lib) (opts : CollapseOptions) (comments : CommentMap)
    (maxItems : Int) (len : Nat) : List Value → Nat → String → String → Int → Option String
  | [], _, _, _, _ => some ""
  | item :: rest, i, path, indent, depth =>
    if (i : Int) ≥ maxItems then
      some (indent ++ "... and " ++ Itoa (wrapInt64 ((len : Int) - maxItems)) ++ " more items\n")
    else
      match renderArrayItemChecked lib opts comments item path indent (depth + 1) with
      | none => none
      | some a =>
        match renderArrayLoopChecked lib opts comments maxItems len rest (i + 1) path indent
            depth with
        | none => none
        | some r => some (indent ++ "- " ++ a ++ r)
/-- The function `renderArrayItem`, with `none` for a failure below it. -/
def renderArrayItemChecked (lib : Lib) (opts : CollapseOptions) (comments : CommentMap) :
    Value → String → String → Int → Option String
  | .omap entries, path, indent, depth =>
    if entries.length = 0 then some "object (empty)\n"
    else if depth ≥ opts.MaxDepth then some (summarizeOrderedMap entries ++ "\n")
    else renderInlineMapChecked lib opts comments entries path (indent ++ "  ") depth
  | .slice v, path, indent, depth =>
    if v.length = 0 then some "array (empty)\n"
    else if depth ≥ opts.MaxDepth then some (summarizeArray v ++ "\n")
    else
      match renderArrayLoopChecked lib opts comments (arrayMaxItems opts v) v.length v 0 path
          (indent ++ "  ") depth with
      | none => none
      | some r => some ("\n" ++ r)
  | .scalar v, _, _, _ => some (renderScalar lib v opts.ShowDefaults ++ "\n")
/-- The function `renderInlineMap`; `m.entries[0]` fails on a map without entries. -/
def renderInlineMapChecked (lib : Lib) (opts : CollapseOptions) (comments : CommentMap) :
    List orderedEntry → String → String → Int → Option String
  | [], _, _, _ => none
  | .mk key value :: rest, path, indent, depth =>
    match renderValueChecked lib opts comments value (childPath path key) indent (depth + 1) with
    | none => none
    | some v =>
      match renderInlineRestChecked lib opts comments rest path indent depth with
      | none => none
      | some r => some (key ++ ": " ++ v ++ r)
/-- The loop of `renderInlineMap` over `m.entries[1:]`, with `none` for a failure below it. -/
def renderInlineRestChecked (lib : Lib) (opts : CollapseOptions) (comments : CommentMap) :
    List orderedEntry → String → String → Int → Option String
  | [], _, _, _ => some ""
  | .mk key value :: rest, path, indent, depth =>
    match renderValueChecked lib opts comments value (childPath path key) indent (depth + 1) with
    | none => none
    | some v =>
      match renderInlineRestChecked lib opts comments rest path indent depth with
      | none => none
      | some r => some (indent ++ key ++ ": " ++ v ++ r)
/-- The function `renderValue`, with `none` for a failure below it. -/
def renderValueChecked (lib : Lib) (opts : CollapseOptions) (comments : CommentMap) :
    Value → String → String → Int → Option String
  | .omap entries, path, indent, depth =>
    if entries.length = 0 then some "object (empty)\n"
    else if depth ≥ opts.MaxDepth then some (summarizeOrderedMap entries ++ "\n")
    else
      match renderMapChecked lib opts comments entries path indent depth with
      | none => none
      | some r => some ("\n" ++ r)
  | .slice v, path, indent, depth =>
    if v.length = 0 then some "array (empty)\n"
    else if depth ≥ opts.MaxDepth then some (summarizeArray v ++ "\n")
    else
      match renderArrayLoopChecked lib opts comments (arrayMaxItems opts v) v.length v 0 path
          indent depth with
      | none => none
      | some r => some ("\n" ++ r)
  | .scalar v, _, _, _ => some (renderScalar lib v opts.ShowDefaults ++ "\n")
end

/-- The function `renderArray`, with `none` for a failure below it. -/
def renderArrayChecked (lib : Lib) (opts : CollapseOptions) (comments : CommentMap)
    (arr : List Value) (path indent : String) (depth : Int) : Option String :=
  renderArrayLoopChecked lib opts comments (arrayMaxItems opts arr) arr.length arr 0 path indent
    depth

/-- The function `renderNode`, with `none` for a failure below it. -/
def renderNodeChecked (lib : Lib) (opts : CollapseOptions) (comments : CommentMap)
    (node : Value) (path indent : String) (depth : Int) : Option String :=
  match node with
  | .omap entries => renderMapChecked lib opts comments entries path indent depth
  | .slice v => renderArrayChecked lib opts comments v path indent depth
  | .scalar v => some (renderScalar lib v opts.ShowDefaults)

/-! ## Definitions used to state the properties of comments, keys, hosts and depth -/

/-- A line of a raw comment as `extractFirstCommentLine` reads it: without the
surrounding whitespace and without the leading `#` runes. -/
def cleanCommentLine (line : String) : String :=
  TrimSpace (TrimLeft (TrimSpace line) "#")

/-- An `@schema` marker line, given the cleaned line. -/
def isSchemaMarker (line : String) : Bool := HasPrefix line "@schema"

/-- Whether a line lies inside a schema block, given the cleaned lines before it: every
marker line opens a block or closes the open one; `start` is the state before the first
line. -/
def schemaFlag (start : Bool) (before : List String) : Bool :=
  before.foldl (fun b l => if isSchemaMarker l then !b else b) start

/-- The cleaned line at index `i` is a description line: it is not blank, it is not a
marker line, and it does not lie inside a schema block. -/
def isDescriptionLine (start : Bool) (lines : List String) (i : Nat) : Bool :=
  match lines[i]? with
  | some l => l != "" && !isSchemaMarker l && !schemaFlag start (lines.take i)
  | none => false

/-- The keys of the entries of an ordered mapping, in order. -/
def entryKeys (es : List orderedEntry) : List String := es.map orderedEntry.key

/-- The texts (`Key.String()`) of the non-nil keys of the entries of a mapping node, in
source order. -/
def sourceKeyTexts (vs : List MappingValueNode) : List String :=
  (vs.filterMap MappingValueNode.Key).map KeyNode.text

/-- A pattern of a host list, trimmed and lower-cased, matches the lower-cased host: it
is not empty and it is `*`, or, `q` being the pattern without one leading `.`, the host
is `q` or ends with `.` followed by `q`. -/
def patternMatches (host pattern : String) : Prop :=
  pattern ≠ "" ∧ (pattern = "*" ∨ host = TrimPrefix pattern "." ∨
    ∃ pre : String, host = pre ++ "." ++ TrimPrefix pattern ".")

/-- The rendering of the data at depth `d` fits the limit together with the schema. -/
def fitsAt (lib : Lib) (data schemaStr : String) (opts : CollapseOptions) (d : Int) : Prop :=
  len (CollapseYAML lib data { opts with MaxDepth := d }).1 + len schemaStr ≤ MaxResponseBytes

/-- The successful result of the handler for the rendering at depth `d`. -/
def outputAt (lib : Lib) (version path data schemaStr : String) (opts : CollapseOptions)
    (d : Int) : getValuesOutput :=
  { Version := version
    Values := (CollapseYAML lib data { opts with MaxDepth := d }).1
    Path := path
    Collapsed := (CollapseYAML lib data { opts with MaxDepth := d }).2.1
    Schema := schemaStr }

/-- The value is a non-empty mapping or sequence and `out` is its one-line counted
summary followed by a line break. -/
def isSummaryLine (value : Value) (out : String) : Prop :=
  match value with
  | .omap entries => entries ≠ [] ∧ out = summarizeOrderedMap entries ++ "\n"
  | .slice v => v ≠ [] ∧ out = summarizeArray v ++ "\n"
  | .scalar _ => False

/-- The number of line breaks of a text. -/
def lineBreaks (s : String) : Nat := s.data.count '\n'

/-! ## Sample documents with comments, quoted keys and aliases -/

/-- The entries of a mapping written `"a\\b": 1` and `a\\b: 2`. The first key is
double-quoted: its value is `a\b` (one backslash) and its text (`Key.String()`, the
quoted form) is `"a\\b"`. The second key is plain: its value and its text are `a\\b`
(two backslashes). The two keys have different values and different texts. -/
def escapedTwinValues : List MappingValueNode :=
  [.mk none (some ⟨"\"a\\\\b\"", none⟩) (some (.IntegerNode none (.uint64 1))),
    .mk none (some ⟨"a\\\\b", none⟩) (some (.IntegerNode none (.uint64 2)))]

/-- The AST of the mapping with the entries `escapedTwinValues`. -/
def escapedTwinBody : Node := .MappingNode none escapedTwinValues

/-- The AST of a document in which an alias refers to the anchor that encloses it:
`a: &x` with the child `b: *x`. -/
def selfAliasBody : Node :=
  .MappingNode none [.mk none (some ⟨"a", none⟩) (some (.AnchorNode none (some
    (.MappingNode none [.mk none (some ⟨"b", none⟩) (some (.AliasNode none "*x"))]))))]

/-- A document with a sequence of one mapping, with a comment on the second key of the
item and a comment on a key nested below its third key. -/
def commentedItemsText : String :=
  "items:\n  - name: app\n    # The image\n    image: nginx\n    config:\n" ++
  "      # The nested value\n      nested: value\n"

/-- The AST of `commentedItemsText`; a comment on the line before an entry is attached
to the mapping value node. -/
def commentedItemsBody : Node :=
  .MappingNode none [.mk none (some ⟨"items", none⟩) (some (.SequenceNode none
    [.MappingNode none [.mk none (some ⟨"name", none⟩) (some (.StringNode none "app")),
      .mk (some "# The image") (some ⟨"image", none⟩) (some (.StringNode none "nginx")),
      .mk none (some ⟨"config", none⟩) (some (.MappingNode none
        [.mk (some "# The nested value") (some ⟨"nested", none⟩)
          (some (.StringNode none "value"))]))]]))]

/-- A document with a mapping `a` that has a commented child `b`, next to a top-level
key written `"a.b"`. -/
def dottedKeyText : String := "a:\n  # Inner setting\n  b: 1\n\"a.b\": 2\n"

/-- The AST of `dottedKeyText`. -/
def dottedKeyBody : Node :=
  .MappingNode none [.mk none (some ⟨"a", none⟩) (some (.MappingNode none
      [.mk (some "# Inner setting") (some ⟨"b", none⟩) (some (.IntegerNode none (.uint64 1)))])),
    .mk none (some ⟨"\"a.b\"", none⟩) (some (.IntegerNode none (.uint64 2)))]

/-- A document with one mapping of one short entry. -/
def shortText : String := "x:\n  a: 1\n"

/-- The AST of `shortText`. -/
def shortBody : Node :=
  .MappingNode none [.mk none (some ⟨"x", none⟩) (some (.MappingNode none
    [.mk none (some ⟨"a", none⟩) (some (.IntegerNode none (.uint64 1)))]))]

/-- The sample library with a parser that knows `commentedItemsText`, `dottedKeyText` and
`shortText` too. -/
def commentLib : Lib :=
  { escapingLib with
    ParseBytes := fun data =>
      if data = commentedItemsText then .ok ⟨[⟨some commentedItemsBody⟩]⟩
      else if data = dottedKeyText then .ok ⟨[⟨some dottedKeyBody⟩]⟩
      else if data = shortText then .ok ⟨[⟨some shortBody⟩]⟩
      else escapingLib.ParseBytes data }

/-- A document whose only key is written as an explicit key with a block scalar that
holds a blank line: the key `? |` with the lines `a`, an empty line and `b`, and the
value `v`. -/
def blockKeyText : String := "? |\n  a\n\n  b\n: v\n"

/-- The AST of `blockKeyText`; the text of the key (`Key.String()`) is the key as it is
written, on four lines. -/
def blockKeyBody : Node :=
  .MappingNode none [.mk none (some ⟨"? |\n  a\n\n  b", none⟩) (some (.StringNode none "v"))]

/-- The sample library with a parser that knows `blockKeyText` too. -/
def blockKeyLib : Lib :=
  { escapingLib with
    ParseBytes := fun data =>
      if data = blockKeyText then .ok ⟨[⟨some blockKeyBody⟩]⟩
      else escapingLib.ParseBytes data }

/-- A text that ends with a line break which follows a rune other than a line break. -/
def EndsLine (t : String) : Prop :=
  ∃ (r : List Char) (c : Char), c ≠ '\n' ∧ t.data = r ++ [c, '\n']

mutual
/-- Every scalar of the tree is of a type that `astToOrdered` builds. -/
def scalarsFromAst : Value → Bool
  | .omap es => entriesFromAst es
  | .slice xs => itemsFromAst xs
  | .scalar (.otherNumber _) => false
  | .scalar (.other _) => false
  | .scalar _ => true
/-- Every scalar below the entries is of a type that `astToOrdered` builds. -/
def entriesFromAst : List orderedEntry → Bool
  | [] => true
  | .mk _ v :: rest => scalarsFromAst v && entriesFromAst rest
/-- Every scalar below the items is of a type that `astToOrdered` builds. -/
def itemsFromAst : List Value → Bool
  | [] => true
  | v :: rest => scalarsFromAst v && itemsFromAst rest
end

/-! ## Lemmas -/

theorem wrapInt64_of_range (x : Int) (h1 : -2 ^ 63 ≤ x) (h2 : x < 2 ^ 63) : wrapInt64 x = x := by
  unfold wrapInt64
  omega

theorem needsQuoting_value (lib : Lib) (h : lib.ParseFloatOk "value" = false) :
    needsQuoting lib "value" = false := by
  unfold needsQuoting
  rw [h]
  decide

/-- The loop of `renderArray` from index `i`: the item lines of the items below the
limit, then the marker line if an item is left. -/
theorem renderArrayLoop_eq (lib : Lib) (opts : CollapseOptions) (comments : CommentMap)
    (maxItems : Int) (len : Nat) (path indent : String) (depth : Int) :
    ∀ (rest : List Value) (i : Nat),
      renderArrayLoop lib opts comments maxItems len rest i path indent depth =
        concatAll ((rest.take (maxItems.toNat - i)).map (itemLine lib opts comments path indent depth)) ++
        (if maxItems.toNat - i < rest.length then
          indent ++ "... and " ++ Itoa (wrapInt64 ((len : Int) - maxItems)) ++ " more items\n"
         else "") := by
  intro rest
  induction rest with
  | nil => intro i; simp [renderArrayLoop, concatAll]
  | cons item rest ih =>
    intro i
    rw [renderArrayLoop]
    by_cases h : (i : Int) ≥ maxItems
    · have h0 : maxItems.toNat - i = 0 := by omega
      simp [h, h0, concatAll]
    · have h1 : maxItems.toNat - i = (maxItems.toNat - (i + 1)) + 1 := by omega
      rw [if_neg h, ih (i + 1), h1]
      simp [concatAll, itemLine, String.append_assoc]

theorem renderMap_eq_concat (lib : Lib) (opts : CollapseOptions) (comments : CommentMap)
    (path indent : String) (depth : Int) (es : List orderedEntry) :
    renderMap lib opts comments es path indent depth =
      concatAll (es.map (entryText lib opts comments path indent depth)) := by
  induction es with
  | nil => simp [renderMap, concatAll]
  | cons e rest ih =>
    cases e with
    | mk key value =>
      rw [renderMap, ih]
      simp [concatAll, entryText, orderedEntry.key, orderedEntry.value]

theorem renderInlineRest_eq_concat (lib : Lib) (opts : CollapseOptions) (comments : CommentMap)
    (path indent : String) (depth : Int) (es : List orderedEntry) :
    renderInlineRest lib opts comments es path indent depth =
      concatAll (es.map (fun e => indent ++ e.key ++ ": " ++
        renderValue lib opts comments e.value (childPath path e.key) indent (depth + 1))) := by
  induction es with
  | nil => simp [renderInlineRest, concatAll]
  | cons e rest ih =>
    cases e with
    | mk key value =>
      rw [renderInlineRest, ih]
      simp [concatAll, orderedEntry.key, orderedEntry.value]

theorem astToOrderedEntries_eq (vs : List MappingValueNode) :
    astToOrderedEntries vs =
      vs.filterMap (fun v => v.Key.map (fun k =>
        orderedEntry.mk (unquoteKey k.text) (astToOrdered v.Value))) := by
  induction vs with
  | nil => simp [astToOrderedEntries]
  | cons v rest ih =>
    cases v with
    | mk c k val =>
      cases k with
      | none => simp [astToOrderedEntries, ih, MappingValueNode.Key]
      | some k => simp [astToOrderedEntries, ih, MappingValueNode.Key, MappingValueNode.Value]

theorem astToOrderedItems_eq (vs : List Node) :
    astToOrderedItems vs = vs.map astToOrderedNode := by
  induction vs with
  | nil => simp [astToOrderedItems]
  | cons v rest ih => simp [astToOrderedItems, ih]

theorem length_blankEntries (es : List orderedEntry) : (blankEntries es).length = es.length := by
  simp [blankEntries]

theorem length_blankItems (xs : List Value) : (blankItems xs).length = xs.length := by
  simp [blankItems]

theorem length_eraseBelowEntries (es : List orderedEntry) (n : Nat) :
    (eraseBelowEntries es n).length = es.length := by
  induction es with
  | nil => simp [eraseBelowEntries]
  | cons e rest ih => cases e; simp [eraseBelowEntries, ih]

theorem length_eraseBelowItems (xs : List Value) (n : Nat) :
    (eraseBelowItems xs n).length = xs.length := by
  induction xs with
  | nil => simp [eraseBelowItems]
  | cons e rest ih => simp [eraseBelowItems, ih]

theorem summarizeOrderedMap_congr (es es2 : List orderedEntry) (h : es.length = es2.length) :
    summarizeOrderedMap es = summarizeOrderedMap es2 := by
  unfold summarizeOrderedMap
  rw [h]

theorem summarizeArray_congr (xs xs2 : List Value) (h : xs.length = xs2.length) :
    summarizeArray xs = summarizeArray xs2 := by
  unfold summarizeArray
  rw [h]

theorem arrayMaxItems_congr (opts : CollapseOptions) (xs xs2 : List Value)
    (h : xs.length = xs2.length) : arrayMaxItems opts xs = arrayMaxItems opts xs2 := by
  unfold arrayMaxItems
  rw [h]

theorem willCollapse_eraseBelow (opts : CollapseOptions) (v : Value) (n : Nat) (d : Int) :
    willCollapse (eraseBelow v n) d opts = willCollapse v d opts := by
  cases v with
  | omap es =>
    cases n <;> simp [eraseBelow, willCollapse, length_blankEntries, length_eraseBelowEntries]
  | slice xs =>
    cases n <;> simp [eraseBelow, willCollapse, length_blankItems, length_eraseBelowItems]
  | scalar s => simp [eraseBelow]

theorem entryCommentLine_eraseBelow (opts : CollapseOptions) (comments : CommentMap)
    (v : Value) (n : Nat) (path indent : String) (d : Int) :
    entryCommentLine opts comments (eraseBelow v n) path indent d =
      entryCommentLine opts comments v path indent d := by
  unfold entryCommentLine
  rw [willCollapse_eraseBelow]

mutual
/-- Rendering a value that sits `n` levels above `MaxDepth` does not read anything more
than `n` levels below it. -/
theorem render_eraseBelow (lib : Lib) (opts : CollapseOptions) (comments : CommentMap) :
    ∀ (v : Value) (n : Nat) (d : Int) (path indent : String), d + n = opts.MaxDepth →
      renderValue lib opts comments (eraseBelow v n) path indent d =
        renderValue lib opts comments v path indent d ∧
      renderArrayItem lib opts comments (eraseBelow v n) path indent d =
        renderArrayItem lib opts comments v path indent d
  | .scalar s, n, d, path, indent, _ => by simp [eraseBelow]
  | .omap es, 0, d, path, indent, h => by
    have hd : d ≥ opts.MaxDepth := by omega
    simp only [eraseBelow, renderValue, renderArrayItem, length_blankEntries, if_pos hd,
      summarizeOrderedMap_congr (blankEntries es) es (length_blankEntries es), and_self]
  | .slice xs, 0, d, path, indent, h => by
    have hd : d ≥ opts.MaxDepth := by omega
    simp only [eraseBelow, renderValue, renderArrayItem, length_blankItems, if_pos hd,
      summarizeArray_congr (blankItems xs) xs (length_blankItems xs), and_self]
  | .omap es, n + 1, d, path, indent, h => by
    have ih1 := renderEntries_eraseBelow lib opts comments es n d path indent (by omega)
    have ih2 := renderEntries_eraseBelow lib opts comments es n d path (indent ++ "  ") (by omega)
    have hd : ¬ d ≥ opts.MaxDepth := by omega
    simp only [eraseBelow, renderValue, renderArrayItem, length_eraseBelowEntries, ih1.1,
      ih2.2.1, if_neg hd, and_self]
  | .slice xs, n + 1, d, path, indent, h => by
    have hm := arrayMaxItems_congr opts (eraseBelowItems xs n) xs (length_eraseBelowItems xs n)
    have hd : ¬ d ≥ opts.MaxDepth := by omega
    simp only [eraseBelow, renderValue, renderArrayItem, length_eraseBelowItems, hm,
      renderItems_eraseBelow lib opts comments xs n d (by omega), if_neg hd, and_self]
theorem renderEntries_eraseBelow (lib : Lib) (opts : CollapseOptions) (comments : CommentMap) :
    ∀ (es : List orderedEntry) (n : Nat) (d : Int) (path indent : String),
      d + 1 + n = opts.MaxDepth →
      renderMap lib opts comments (eraseBelowEntries es n) path indent d =
        renderMap lib opts comments es path indent d ∧
      renderInlineMap lib opts comments (eraseBelowEntries es n) path indent d =
        renderInlineMap lib opts comments es path indent d ∧
      renderInlineRest lib opts comments (eraseBelowEntries es n) path indent d =
        renderInlineRest lib opts comments es path indent d
  | [], n, d, path, indent, _ => by simp [eraseBelowEntries]
  | .mk k v :: rest, n, d, path, indent, h => by
    have ihv := render_eraseBelow lib opts comments v n (d + 1)
    have ihr := renderEntries_eraseBelow lib opts comments rest n d path indent h
    simp [eraseBelowEntries, renderMap, renderInlineMap, renderInlineRest,
      entryCommentLine_eraseBelow, (ihv _ _ h).1, ihr.1, ihr.2.2]
theorem renderItems_eraseBelow (lib : Lib) (opts : CollapseOptions) (comments : CommentMap) :
    ∀ (xs : List Value) (n : Nat) (d : Int), d + 1 + n = opts.MaxDepth →
      ∀ (maxItems : Int) (len i : Nat) (path indent : String),
      renderArrayLoop lib opts comments maxItems len (eraseBelowItems xs n) i path indent d =
        renderArrayLoop lib opts comments maxItems len xs i path indent d
  | [], n, d, _ => by simp [eraseBelowItems]
  | v :: rest, n, d, h => by
    intro maxItems len i path indent
    have ihv := render_eraseBelow lib opts comments v n (d + 1)
    have ihr := renderItems_eraseBelow lib opts comments rest n d h
    simp [eraseBelowItems, renderArrayLoop, (ihv _ _ h).2, ihr]
end

theorem isNil_eraseBelow (v : Value) (n : Nat) : (eraseBelow v n).isNil = v.isNil := by
  cases v with
  | omap es => cases n <;> simp [eraseBelow, Value.isNil]
  | slice xs => cases n <;> simp [eraseBelow, Value.isNil]
  | scalar s => simp [eraseBelow]

theorem renderNode_eraseBelow (lib : Lib) (opts : CollapseOptions) (comments : CommentMap)
    (root : Value) (n : Nat) (path indent : String) (h : (1 : Int) + n = opts.MaxDepth) :
    renderNode lib opts comments (eraseBelow root (n + 1)) path indent 0 =
      renderNode lib opts comments root path indent 0 := by
  cases root with
  | omap es =>
    simp only [eraseBelow, renderNode]
    exact (renderEntries_eraseBelow lib opts comments es n 0 path indent (by omega)).1
  | slice xs =>
    simp only [eraseBelow, renderNode, renderArray, length_eraseBelowItems,
      arrayMaxItems_congr opts (eraseBelowItems xs n) xs (length_eraseBelowItems xs n)]
    exact renderItems_eraseBelow lib opts comments xs n 0 (by omega) _ _ _ _ _
  | scalar s => simp [eraseBelow]

theorem collapse_of_parse (lib : Lib) (data : String) (opts : CollapseOptions) (file : File)
    (hdepth : opts.MaxDepth ≠ 0) (hparse : lib.ParseBytes data = .ok file) :
    CollapseYAML lib data opts =
      if (documentRoot file).isNil then ("", true, none)
      else (TrimSuffix (renderNode lib opts
        (if opts.ShowComments then extractComments file else CommentMap.empty)
        (documentRoot file) "" "" 0) "\n", true, none) := by
  simp [CollapseYAML, hdepth, hparse]

theorem willCollapse_eq_isSummarizedAt (opts : CollapseOptions) (value : Value) (depth : Int)
    (hdepth : opts.MaxDepth ≠ 0) :
    willCollapse value depth opts = isSummarizedAt opts value depth := by
  cases value with
  | omap es => cases es <;> simp [willCollapse, isSummarizedAt, hdepth]
  | slice xs => cases xs <;> simp [willCollapse, isSummarizedAt, hdepth]
  | scalar s => simp [willCollapse, isSummarizedAt, hdepth]


/-! ## The claims -/

/-- C1 (the code evaluated on the example): for the document `a: {b: {c: value}}`, with
values shown and comments off, `CollapseYAML` returns `a: object (1 key)` at
`MaxDepth = 1`; at `MaxDepth = 2` it returns `a: `, a line break and `  b: object (1 key)`;
at `MaxDepth = 3` it returns `a: `, a line break, `  b: `, a line break and
`    c: value`; each time the collapsed flag is true and there is no error. The key line
of an expanded mapping is the key, the colon and one blank before the line break, so the
texts at depth 2 and 3 are not the ones in which `a:` and `b:` are followed directly by
the line break. -/
theorem nested_example_outputs (lib : Lib) (data : String) (file : File) (items : Int)
    (hparse : lib.ParseBytes data = .ok file)
    (hroot : documentRoot file = nestedTree)
    (hfloat : lib.ParseFloatOk "value" = false) :
    CollapseYAML lib data ⟨1, items, true, false⟩ = ("a: object (1 key)", true, none) ∧
    CollapseYAML lib data ⟨2, items, true, false⟩ = ("a: \n  b: object (1 key)", true, none) ∧
    CollapseYAML lib data ⟨3, items, true, false⟩ = ("a: \n  b: \n    c: value", true, none) ∧
    (CollapseYAML lib data ⟨2, items, true, false⟩).1 ≠ "a:\n  b: object (1 key)" ∧
    (CollapseYAML lib data ⟨3, items, true, false⟩).1 ≠ "a:\n  b:\n    c: value" := by
  have hq := needsQuoting_value lib hfloat
  have h1 : CollapseYAML lib data ⟨1, items, true, false⟩ = ("a: object (1 key)", true, none) := by
    simp only [CollapseYAML, hparse, hroot]
    simp [nestedTree, Value.isNil, renderNode, renderMap, renderValue, summarizeOrderedMap,
      entryCommentLine, childPath]
    decide
  have h2 : CollapseYAML lib data ⟨2, items, true, false⟩ =
      ("a: \n  b: object (1 key)", true, none) := by
    simp only [CollapseYAML, hparse, hroot]
    simp [nestedTree, Value.isNil, renderNode, renderMap, renderValue, summarizeOrderedMap,
      entryCommentLine, childPath]
    decide
  have h3 : CollapseYAML lib data ⟨3, items, true, false⟩ =
      ("a: \n  b: \n    c: value", true, none) := by
    simp only [CollapseYAML, hparse, hroot]
    simp [nestedTree, Value.isNil, renderNode, renderMap, renderValue,
      entryCommentLine, childPath, renderScalar, formatScalar, hq]
    decide
  refine ⟨h1, h2, h3, ?_, ?_⟩
  · rw [h2]; decide
  · rw [h3]; decide

/-- The example of C1 on the sample library, whose parser maps `nestedText` to the AST
of the document. -/
theorem nested_example_outputs_witness :
    CollapseYAML sampleLib nestedText ⟨1, 3, true, false⟩ = ("a: object (1 key)", true, none) ∧
    CollapseYAML sampleLib nestedText ⟨2, 3, true, false⟩ =
      ("a: \n  b: object (1 key)", true, none) ∧
    CollapseYAML sampleLib nestedText ⟨3, 3, true, false⟩ =
      ("a: \n  b: \n    c: value", true, none) ∧
    (CollapseYAML sampleLib nestedText ⟨2, 3, true, false⟩).1 ≠ "a:\n  b: object (1 key)" ∧
    (CollapseYAML sampleLib nestedText ⟨3, 3, true, false⟩).1 ≠ "a:\n  b:\n    c: value" :=
  nested_example_outputs sampleLib nestedText ⟨[⟨some nestedBody⟩]⟩ 3 rfl rfl rfl

/-- C2: with `MaxDepth = k >= 1`, `renderValue` at a depth `d >= MaxDepth` writes for a
non-empty mapping or sequence its one-line summary and the line break and nothing else,
and the summary depends on the number of children only; at a depth `d < MaxDepth` it
writes the line break and the expanded content (`renderMap`, `renderArray`). The values
of the top-level entries are rendered at depth 1, and the output of `CollapseYAML` does not
depend on anything more than `k` levels below the root: two documents whose trees agree
once everything below level `k` is forgotten (the child counts of the containers at level
`k` being kept) give the same result. -/
theorem depth_limit_hides_deeper_levels (lib : Lib) (opts : CollapseOptions)
    (comments : CommentMap) (k : Nat) (hk : 1 ≤ k) (hmax : opts.MaxDepth = k) :
    (∀ (es : List orderedEntry) (path indent : String) (d : Int), es ≠ [] → opts.MaxDepth ≤ d →
      renderValue lib opts comments (.omap es) path indent d = summarizeOrderedMap es ++ "\n") ∧
    (∀ (xs : List Value) (path indent : String) (d : Int), xs ≠ [] → opts.MaxDepth ≤ d →
      renderValue lib opts comments (.slice xs) path indent d = summarizeArray xs ++ "\n") ∧
    (∀ es es2 : List orderedEntry, es.length = es2.length →
      summarizeOrderedMap es = summarizeOrderedMap es2) ∧
    (∀ xs xs2 : List Value, xs.length = xs2.length → summarizeArray xs = summarizeArray xs2) ∧
    (∀ (es : List orderedEntry) (path indent : String) (d : Int), es ≠ [] → d < opts.MaxDepth →
      renderValue lib opts comments (.omap es) path indent d =
        "\n" ++ renderMap lib opts comments es path indent d) ∧
    (∀ (xs : List Value) (path indent : String) (d : Int), xs ≠ [] → d < opts.MaxDepth →
      renderValue lib opts comments (.slice xs) path indent d =
        "\n" ++ renderArray lib opts comments xs path indent d) ∧
    (∀ (root : Value) (path indent : String),
      renderNode lib opts comments (eraseBelow root k) path indent 0 =
        renderNode lib opts comments root path indent 0) ∧
    (∀ (data1 data2 : String) (file1 file2 : File),
      lib.ParseBytes data1 = .ok file1 → lib.ParseBytes data2 = .ok file2 →
      (opts.ShowComments = true → extractComments file1 = extractComments file2) →
      eraseBelow (documentRoot file1) k = eraseBelow (documentRoot file2) k →
      CollapseYAML lib data1 opts = CollapseYAML lib data2 opts) := by
  obtain ⟨n, rfl⟩ : ∃ n, k = n + 1 := ⟨k - 1, by omega⟩
  have hn : (1 : Int) + n = opts.MaxDepth := by rw [hmax]; push_cast; omega
  refine ⟨?_, ?_, summarizeOrderedMap_congr, summarizeArray_congr, ?_, ?_, ?_, ?_⟩
  · intro es path indent d hne hd
    have hlen : es.length ≠ 0 := by simpa using hne
    simp only [renderValue, if_neg hlen, if_pos (show d ≥ opts.MaxDepth from hd)]
  · intro xs path indent d hne hd
    have hlen : xs.length ≠ 0 := by simpa using hne
    simp only [renderValue, if_neg hlen, if_pos (show d ≥ opts.MaxDepth from hd)]
  · intro es path indent d hne hd
    have hlen : es.length ≠ 0 := by simpa using hne
    have hd2 : ¬ d ≥ opts.MaxDepth := by omega
    simp only [renderValue, if_neg hlen, if_neg hd2]
  · intro xs path indent d hne hd
    have hlen : xs.length ≠ 0 := by simpa using hne
    have hd2 : ¬ d ≥ opts.MaxDepth := by omega
    simp only [renderValue, renderArray, if_neg hlen, if_neg hd2]
  · intro root path indent
    exact renderNode_eraseBelow lib opts comments root n path indent hn
  · intro data1 data2 file1 file2 hp1 hp2 hc herase
    have hdepth : opts.MaxDepth ≠ 0 := by omega
    have hcm : (if opts.ShowComments then extractComments file1 else CommentMap.empty) =
        (if opts.ShowComments then extractComments file2 else CommentMap.empty) := by
      cases hs : opts.ShowComments
      · simp
      · simp [hc hs]
    rw [collapse_of_parse lib data1 opts file1 hdepth hp1,
      collapse_of_parse lib data2 opts file2 hdepth hp2, hcm,
      ← isNil_eraseBelow (documentRoot file1) (n + 1),
      ← renderNode_eraseBelow lib opts _ (documentRoot file1) n "" "" hn,
      ← isNil_eraseBelow (documentRoot file2) (n + 1),
      ← renderNode_eraseBelow lib opts _ (documentRoot file2) n "" "" hn, herase]

/-- Two documents that differ at the third level only have the same rendering at
`MaxDepth = 2`. -/
theorem depth_limit_hides_deeper_levels_witness :
    CollapseYAML sampleLib nestedText ⟨2, 3, true, false⟩ =
      CollapseYAML sampleLib nestedText2 ⟨2, 3, true, false⟩ :=
  (depth_limit_hides_deeper_levels sampleLib ⟨2, 3, true, false⟩ CommentMap.empty 2
    (by decide) rfl).2.2.2.2.2.2.2 nestedText nestedText2 ⟨[⟨some nestedBody⟩]⟩
    ⟨[⟨some nestedBody2⟩]⟩ rfl rfl (by intro h; cases h) rfl

/-- C3: at every depth and for every option value, an empty mapping is rendered as
`object (empty)` and an empty sequence as `array (empty)`, both as the value of a mapping
entry (`renderValue`, called by `renderMap` and `renderInlineMap`) and as a sequence item
(`renderArrayItem`, called by `renderArray`); the text written is never the counted
summary `object (0 keys)` or `array (0 items)`, and the summaries of the empty containers
are the `empty` ones. -/
theorem empty_containers_render_empty (lib : Lib) (opts : CollapseOptions)
    (comments : CommentMap) (path indent : String) (depth : Int) :
    renderValue lib opts comments (.omap []) path indent depth = "object (empty)\n" ∧
    renderValue lib opts comments (.slice []) path indent depth = "array (empty)\n" ∧
    renderArrayItem lib opts comments (.omap []) path indent depth = "object (empty)\n" ∧
    renderArrayItem lib opts comments (.slice []) path indent depth = "array (empty)\n" ∧
    (∀ key : String, renderMap lib opts comments [.mk key (.omap [])] path indent depth =
      entryCommentLine opts comments (.omap []) (childPath path key) indent depth ++
        indent ++ key ++ ": " ++ "object (empty)\n") ∧
    (∀ key : String, renderMap lib opts comments [.mk key (.slice [])] path indent depth =
      entryCommentLine opts comments (.slice []) (childPath path key) indent depth ++
        indent ++ key ++ ": " ++ "array (empty)\n") ∧
    itemLine lib opts comments path indent depth (.omap []) = indent ++ "- " ++ "object (empty)\n" ∧
    itemLine lib opts comments path indent depth (.slice []) = indent ++ "- " ++ "array (empty)\n" ∧
    renderValue lib opts comments (.omap []) path indent depth ≠ "object (0 keys)\n" ∧
    renderValue lib opts comments (.slice []) path indent depth ≠ "array (0 items)\n" ∧
    renderArrayItem lib opts comments (.omap []) path indent depth ≠ "object (0 keys)\n" ∧
    renderArrayItem lib opts comments (.slice []) path indent depth ≠ "array (0 items)\n" ∧
    summarizeOrderedMap [] = "object (empty)" ∧ summarizeArray [] = "array (empty)" := by
  have h1 : renderValue lib opts comments (.omap []) path indent depth = "object (empty)\n" := by
    simp [renderValue]
  have h2 : renderValue lib opts comments (.slice []) path indent depth = "array (empty)\n" := by
    simp [renderValue]
  have h3 : renderArrayItem lib opts comments (.omap []) path indent depth =
      "object (empty)\n" := by
    simp [renderArrayItem]
  have h4 : renderArrayItem lib opts comments (.slice []) path indent depth =
      "array (empty)\n" := by
    simp [renderArrayItem]
  refine ⟨h1, h2, h3, h4, ?_, ?_, ?_, ?_, ?_, ?_, ?_, ?_, ?_, ?_⟩
  · intro key
    simp [renderMap, renderValue]
  · intro key
    simp [renderMap, renderValue]
  · simp [itemLine, renderArrayItem]
  · simp [itemLine, renderArrayItem]
  · rw [h1]; decide
  · rw [h2]; decide
  · rw [h3]; decide
  · rw [h4]; decide
  · simp [summarizeOrderedMap]
  · simp [summarizeArray]

/-- C4: for a sequence of `N` items and `MaxArrayItems = k >= 0`, `renderArray` writes
the item lines of the shown items in order (all `N` items when `k = 0`, the first
`min N k` otherwise) followed by the truncation marker; the marker is the line
`... and (N-k) more items` when `0 < k < N` and is empty otherwise; nothing is written
for an item after the `k`-th. -/
theorem renderArray_truncation (lib : Lib) (opts : CollapseOptions) (comments : CommentMap)
    (arr : List Value) (path indent : String) (depth : Int)
    (hk : 0 ≤ opts.MaxArrayItems) (hlen : (arr.length : Int) < 2 ^ 63) :
    renderArray lib opts comments arr path indent depth =
      concatAll ((shownItems opts.MaxArrayItems arr).map
        (itemLine lib opts comments path indent depth)) ++
      truncationMarker indent opts.MaxArrayItems arr.length ∧
    (shownItems opts.MaxArrayItems arr).length =
      (if opts.MaxArrayItems = 0 then arr.length else min arr.length opts.MaxArrayItems.toNat) ∧
    (truncationMarker indent opts.MaxArrayItems arr.length ≠ "" ↔
      0 < opts.MaxArrayItems ∧ opts.MaxArrayItems < arr.length) := by
  refine ⟨?_, ?_, ?_⟩
  · unfold renderArray
    rw [renderArrayLoop_eq lib opts comments _ _ path indent depth]
    unfold arrayMaxItems shownItems truncationMarker
    by_cases h0 : opts.MaxArrayItems = 0
    · simp [h0]
    · simp only [h0, if_false, Nat.sub_zero]
      by_cases hlt : opts.MaxArrayItems < (arr.length : Int)
      · have h1 : opts.MaxArrayItems.toNat < arr.length := by omega
        have h2 : 0 < opts.MaxArrayItems := by omega
        rw [if_pos h1, if_pos ⟨h2, hlt⟩, wrapInt64_of_range _ (by omega) (by omega)]
      · have h1 : ¬ opts.MaxArrayItems.toNat < arr.length := by omega
        rw [if_neg h1, if_neg (fun h => hlt h.2)]
  · unfold shownItems
    split <;> simp [List.length_take, Nat.min_comm]
  · unfold truncationMarker
    split
    · rename_i h
      simp only [h, and_self, iff_true]
      intro hempty
      have hl := congrArg String.length hempty
      simp only [String.length_append] at hl
      have h12 : " more items\n".length = 12 := by decide
      have h0 : "".length = 0 := by decide
      omega
    · rename_i h
      simp [h]

/-- Five items under the limit 2: two item lines and the marker for the other three. -/
theorem renderArray_truncation_witness :
    renderArray sampleLib ⟨2, 2, true, false⟩ CommentMap.empty fiveItems "" "  " 1 =
      "  - one\n  - two\n  ... and 3 more items\n" :=
  (renderArray_truncation sampleLib ⟨2, 2, true, false⟩ CommentMap.empty fiveItems "" "  " 1
    (by decide) (by decide)).1.trans (by decide)

/-- C5: source order is preserved. `astToOrdered` turns a mapping node into the entries
of its keyed values in the order of the node (keys unquoted) and a sequence node into its
converted items in index order; `renderMap` writes the texts of the entries in list
order, `renderInlineMap` writes the first entry and then the later ones in list order, and
`renderArray` writes the item lines of an initial segment of the sequence in index order,
followed by nothing but the truncation marker. -/
theorem order_preserved (lib : Lib) (opts : CollapseOptions) (comments : CommentMap)
    (path indent : String) (depth : Int) :
    (∀ (c : Option String) (vs : List MappingValueNode),
      astToOrderedNode (.MappingNode c vs) = .omap (vs.filterMap (fun v => v.Key.map (fun k =>
        orderedEntry.mk (unquoteKey k.text) (astToOrdered v.Value))))) ∧
    (∀ (c : Option String) (vs : List Node),
      astToOrderedNode (.SequenceNode c vs) = .slice (vs.map astToOrderedNode)) ∧
    (∀ es : List orderedEntry,
      renderMap lib opts comments es path indent depth =
        concatAll (es.map (entryText lib opts comments path indent depth))) ∧
    (∀ (e : orderedEntry) (es : List orderedEntry),
      renderInlineMap lib opts comments (e :: es) path indent depth =
        e.key ++ ": " ++
          renderValue lib opts comments e.value (childPath path e.key) indent (depth + 1) ++
        concatAll (es.map (fun e => indent ++ e.key ++ ": " ++
          renderValue lib opts comments e.value (childPath path e.key) indent (depth + 1)))) ∧
    (∀ arr : List Value, ∃ (m : Nat) (marker : String),
      renderArray lib opts comments arr path indent depth =
        concatAll ((arr.take m).map (itemLine lib opts comments path indent depth)) ++ marker ∧
      (marker = "" ∨ marker = indent ++ "... and " ++
        Itoa (wrapInt64 ((arr.length : Int) - arrayMaxItems opts arr)) ++ " more items\n")) := by
  refine ⟨?_, ?_, ?_, ?_, ?_⟩
  · intro c vs
    rw [astToOrderedNode, astToOrderedEntries_eq]
  · intro c vs
    rw [astToOrderedNode, astToOrderedItems_eq]
  · exact renderMap_eq_concat lib opts comments path indent depth
  · intro e es
    cases e with
    | mk key value =>
      rw [renderInlineMap, renderInlineRest_eq_concat]
      simp [orderedEntry.key, orderedEntry.value]
  · intro arr
    have heq : renderArray lib opts comments arr path indent depth = _ :=
      renderArrayLoop_eq lib opts comments _ _ path indent depth arr 0
    rw [Nat.sub_zero] at heq
    refine ⟨(arrayMaxItems opts arr).toNat, _, heq, ?_⟩
    by_cases h : (arrayMaxItems opts arr).toNat < arr.length
    · exact Or.inr (if_pos h)
    · exact Or.inl (if_neg h)

/-- C6: with `MaxDepth = 0` and `ShowComments = true`, `CollapseYAML` returns the input
text unchanged, the collapsed flag false and no error, whatever the other options and
the library functions are. -/
theorem unlimited_with_comments_identity (lib : Lib) (data : String) (opts : CollapseOptions)
    (hdepth : opts.MaxDepth = 0) (hcomments : opts.ShowComments = true) :
    CollapseYAML lib data opts = (data, false, none) := by
  simp [CollapseYAML, hdepth, hcomments]

/-- An input that is no YAML document is returned unchanged as well. -/
theorem unlimited_with_comments_identity_witness :
    CollapseYAML sampleLib invalidText ⟨0, 3, false, true⟩ = (invalidText, false, none) :=
  unlimited_with_comments_identity sampleLib invalidText ⟨0, 3, false, true⟩ rfl rfl

/-- C7, counterexample: the malformed input of `TestCollapseYAML_InvalidYAML`, which the
parser and the decoder reject, is returned unchanged and with no error by `CollapseYAML`
at `MaxDepth = 0` with `ShowComments = true`; so it is not the case that an error is
returned exactly when the input is not parseable. -/
theorem unparseable_input_accepted :
    sampleLib.ParseBytes invalidText = .error "syntax error" ∧
    sampleLib.Unmarshal invalidText = .error "syntax error" ∧
    CollapseYAML sampleLib invalidText ⟨0, 3, true, true⟩ = (invalidText, false, none) ∧
    ¬ (∀ (lib : Lib) (data : String) (opts : CollapseOptions),
      (CollapseYAML lib data opts).2.2 ≠ none ↔ ∃ e, lib.ParseBytes data = .error e) := by
  refine ⟨rfl, rfl, rfl, ?_⟩
  intro h
  have h1 := (h sampleLib invalidText ⟨0, 3, true, true⟩).2 ⟨"syntax error", rfl⟩
  exact h1 rfl

/-- C7 (amended): `CollapseYAML` returns an error in exactly these cases: with
`MaxDepth != 0`, when `parser.ParseBytes` rejects the input; with `MaxDepth = 0` and
`ShowComments` off, when `yaml.Unmarshal` rejects the input or `yaml.Marshal` fails on the
decoded value. With `MaxDepth = 0` and `ShowComments` on no error is returned. Whenever an
error is returned the text is empty and the collapsed flag is false. -/
theorem error_conditions (lib : Lib) (data : String) (opts : CollapseOptions) :
    (opts.MaxDepth ≠ 0 →
      ((CollapseYAML lib data opts).2.2 ≠ none ↔ ∃ e, lib.ParseBytes data = .error e)) ∧
    (opts.MaxDepth = 0 → opts.ShowComments = true → (CollapseYAML lib data opts).2.2 = none) ∧
    (opts.MaxDepth = 0 → opts.ShowComments = false →
      ((CollapseYAML lib data opts).2.2 ≠ none ↔
        (∃ e, lib.Unmarshal data = .error e) ∨
        (∃ root e, lib.Unmarshal data = .ok root ∧ lib.Marshal root = .error e))) ∧
    ((CollapseYAML lib data opts).2.2 ≠ none →
      (CollapseYAML lib data opts).1 = "" ∧ (CollapseYAML lib data opts).2.1 = false) := by
  refine ⟨?_, ?_, ?_, ?_⟩
  · intro hd
    cases hp : lib.ParseBytes data with
    | error e => simp [CollapseYAML, hd, hp]
    | ok file =>
      rw [collapse_of_parse lib data opts file hd hp]
      split <;> simp
  · intro hd hs
    simp [CollapseYAML, hd, hs]
  · intro hd hs
    cases hu : lib.Unmarshal data with
    | error e => simp [CollapseYAML, hd, hs, stripComments, hu]
    | ok root =>
      cases hm : lib.Marshal root with
      | error e => simp [CollapseYAML, hd, hs, stripComments, hu, hm]
      | ok out => simp [CollapseYAML, hd, hs, stripComments, hu, hm]
  · by_cases hd : opts.MaxDepth = 0
    · cases hs : opts.ShowComments
      · cases hu : lib.Unmarshal data with
        | error e => simp [CollapseYAML, hd, hs, stripComments, hu]
        | ok root =>
          cases hm : lib.Marshal root with
          | error e => simp [CollapseYAML, hd, hs, stripComments, hu, hm]
          | ok out => simp [CollapseYAML, hd, hs, stripComments, hu, hm]
      · simp [CollapseYAML, hd, hs]
    · cases hp : lib.ParseBytes data with
      | error e => simp [CollapseYAML, hd, hp]
      | ok file =>
        rw [collapse_of_parse lib data opts file hd hp]
        split <;> simp

/-- C8, counterexample: for the empty input, which has no document and so no root, and
`MaxDepth = 2`, `CollapseYAML` returns the empty text and no error with the collapsed
flag true, not false. -/
theorem empty_document_flag_is_true :
    CollapseYAML sampleLib "" ⟨2, 3, true, false⟩ = ("", true, none) ∧
    (documentRoot ⟨[]⟩).isNil = true ∧
    CollapseYAML sampleLib "" ⟨2, 3, true, false⟩ ≠ ("", false, none) := by
  refine ⟨rfl, rfl, by decide⟩

/-- C8 (amended): with `MaxDepth != 0`, when the parsed input has no renderable root (no
document, a nil body or a null body), `CollapseYAML` returns the empty text and no
error, and the collapsed flag it returns is true. -/
theorem empty_document_result (lib : Lib) (data : String) (opts : CollapseOptions) (file : File)
    (hdepth : opts.MaxDepth ≠ 0) (hparse : lib.ParseBytes data = .ok file)
    (hroot : (documentRoot file).isNil = true) :
    CollapseYAML lib data opts = ("", true, none) := by
  rw [collapse_of_parse lib data opts file hdepth hparse, if_pos hroot]

/-- The empty input, parsed to a file without documents, at `MaxDepth = 1`. -/
theorem empty_document_result_witness :
    CollapseYAML sampleLib "" ⟨1, 3, true, false⟩ = ("", true, none) :=
  empty_document_result sampleLib "" ⟨1, 3, true, false⟩ ⟨[]⟩ (by decide) rfl rfl

/-- The collapsed flag on the depth-limited path: with `MaxDepth != 0`, the collapsed
flag of every successfully parsed input is true; in particular for the document
`enabled: true`, with values shown and comments off, the result is the text
`enabled: true`, in which nothing is summarized or truncated, with the flag true. -/
theorem flag_set_without_any_summary (lib : Lib) (data : String) (opts : CollapseOptions)
    (file : File) (hdepth : opts.MaxDepth ≠ 0) (hparse : lib.ParseBytes data = .ok file) :
    (CollapseYAML lib data opts).2.1 = true ∧
    (documentRoot file = flatTree → opts.ShowDefaults = true → opts.ShowComments = false →
      CollapseYAML lib data opts = ("enabled: true", true, none)) := by
  constructor
  · rw [collapse_of_parse lib data opts file hdepth hparse]
    split <;> rfl
  · intro hroot hs hc
    rw [collapse_of_parse lib data opts file hdepth hparse, hroot]
    simp [flatTree, Value.isNil, renderNode, renderMap, renderValue, entryCommentLine, childPath,
      renderScalar, formatScalar, FormatBool, hs, hc]
    decide

/-- The document `enabled: true` at `MaxDepth = 1`. -/
theorem flag_set_without_any_summary_witness :
    (CollapseYAML sampleLib flatText ⟨1, 3, true, false⟩).2.1 = true ∧
    CollapseYAML sampleLib flatText ⟨1, 3, true, false⟩ = ("enabled: true", true, none) :=
  have h := flag_set_without_any_summary sampleLib flatText ⟨1, 3, true, false⟩
    ⟨[⟨some flatBody⟩]⟩ (by decide) rfl
  ⟨h.1, h.2 rfl rfl rfl⟩

/-- C9, counterexample: the document `enabled: true` at `MaxDepth = 2` is returned as
the text `enabled: true`: its only value is a scalar, so no mapping or sequence is
summarized and no sequence is truncated, and the collapsed flag is true. -/
theorem scalar_document_flag_is_true :
    CollapseYAML sampleLib flatText ⟨2, 3, true, false⟩ = ("enabled: true", true, none) ∧
    documentRoot ⟨[⟨some flatBody⟩]⟩ = flatTree ∧
    isSummarizedAt ⟨2, 3, true, false⟩ (.scalar (.bool true)) 1 = false := by
  refine ⟨by decide, rfl, rfl⟩

/-- C9 (amended): the collapsed flag of `CollapseYAML` tells whether the depth-limited
path was taken and returned a text: for every input and every options value, the flag is
true exactly when `MaxDepth` is not 0 and no error is returned, whether or not a mapping
or sequence was summarized or a sequence truncated. -/
theorem collapsed_flag_iff_depth_limited (lib : Lib) (data : String) (opts : CollapseOptions) :
    (CollapseYAML lib data opts).2.1 = true ↔
      opts.MaxDepth ≠ 0 ∧ (CollapseYAML lib data opts).2.2 = none := by
  by_cases hd : opts.MaxDepth = 0
  · have hflag : (CollapseYAML lib data opts).2.1 = false := by
      unfold CollapseYAML
      rw [if_pos hd]
      split
      · unfold stripComments
        split
        · rfl
        · split <;> rfl
      · rfl
    rw [hflag]
    simp [hd]
  · cases hp : lib.ParseBytes data with
    | error e => simp [CollapseYAML, hd, hp]
    | ok file =>
      rw [collapse_of_parse lib data opts file hd hp]
      split <;> simp [hd]

/-- C10: with `ShowComments` on (and `MaxDepth != 0`, as in every call that
`CollapseYAML` makes), `renderMap` writes for an entry, immediately before its key line and
at the entry's indentation, the line `# comment` exactly when the comment map has a
comment for the entry's path and the value is not summarized at `depth + 1`, that is, is
not a non-empty mapping or sequence with `depth + 1 >= MaxDepth`; a value that is
summarized at `depth + 1` is written as its one-line summary. -/
theorem comment_line_before_entry (lib : Lib) (opts : CollapseOptions) (comments : CommentMap)
    (key : String) (value : Value) (rest : List orderedEntry) (path indent : String)
    (depth : Int) (hshow : opts.ShowComments = true) (hdepth : opts.MaxDepth ≠ 0) :
    renderMap lib opts comments (.mk key value :: rest) path indent depth =
      (match comments (childPath path key) with
        | some comment =>
          if isSummarizedAt opts value (depth + 1) then ""
          else indent ++ "# " ++ comment ++ "\n"
        | none => "") ++
      indent ++ key ++ ": " ++
      renderValue lib opts comments value (childPath path key) (indent ++ "  ") (depth + 1) ++
      renderMap lib opts comments rest path indent depth ∧
    (isSummarizedAt opts value (depth + 1) = true →
      renderValue lib opts comments value (childPath path key) (indent ++ "  ") (depth + 1) =
        summaryOf value ++ "\n") := by
  constructor
  · rw [renderMap, entryCommentLine, willCollapse_eq_isSummarizedAt opts value _ hdepth, hshow]
    cases hs : isSummarizedAt opts value (depth + 1) <;> cases comments (childPath path key) <;>
      simp
  · intro hs
    cases value with
    | omap es =>
      cases es with
      | nil => simp [isSummarizedAt] at hs
      | cons e es =>
        have hd : depth + 1 ≥ opts.MaxDepth := by simpa [isSummarizedAt] using hs
        simp [renderValue, summaryOf, hd]
    | slice xs =>
      cases xs with
      | nil => simp [isSummarizedAt] at hs
      | cons e es =>
        have hd : depth + 1 ≥ opts.MaxDepth := by simpa [isSummarizedAt] using hs
        simp [renderValue, summaryOf, hd]
    | scalar s => simp [isSummarizedAt] at hs

/-- A scalar entry gets its comment line; an entry that collapses gets none. -/
theorem comment_line_before_entry_witness :
    renderMap sampleLib ⟨1, 3, true, true⟩ commentedPaths commentedEntries "" "" 0 =
      "# The name\nname: x\nsvc: object (1 key)\n" :=
  (comment_line_before_entry sampleLib ⟨1, 3, true, true⟩ commentedPaths "name"
    (.scalar (.str "x")) [.mk "svc" (.omap [.mk "port" (.scalar (.uint64 80))])] "" "" 0
    rfl (by decide)).1.trans (by decide)

/-! ## Lemmas for the scalar, layout and budget claims -/

theorem needsQuoting_alias (lib : Lib) (name : String) :
    needsQuoting lib ("*" ++ name) = true := by
  have hd : ("*" ++ name).data = '*' :: name.data := by simp [String.data_append]
  have hne : ("*" ++ name) ≠ "" := by
    intro h
    have := congrArg String.data h
    rw [hd] at this
    cases this
  unfold needsQuoting
  rw [if_neg hne]
  split
  · rfl
  · have hany : ("*" ++ name).data.any (fun c => quotingRunes.contains c) = true := by
      rw [hd]
      simp [quotingRunes]
    rw [if_pos hany]

theorem Itoa_natCast (n : Nat) : Itoa (n : Int) = Nat.repr n := rfl

mutual
/-- The text written for a value or an item ends with a line break. -/
theorem render_ends_with_line_break (lib : Lib) (opts : CollapseOptions)
    (comments : CommentMap) :
    ∀ (v : Value) (path indent : String) (d : Int),
      (∃ r, renderValue lib opts comments v path indent d = r ++ "\n") ∧
      (∃ r, renderArrayItem lib opts comments v path indent d = r ++ "\n")
  | .scalar s, path, indent, d => by
    simp only [renderValue, renderArrayItem]
    exact ⟨⟨_, rfl⟩, ⟨_, rfl⟩⟩
  | .omap es, path, indent, d => by
    have ih := renderEntries_end_with_line_break lib opts comments es
    simp only [renderValue, renderArrayItem]
    constructor
    · split
      · exact ⟨"object (empty)", by decide⟩
      · split
        · exact ⟨_, rfl⟩
        · rcases (ih path indent d).1 with h | ⟨r, h⟩
          · exact ⟨"", by rw [h]; rfl⟩
          · exact ⟨"\n" ++ r, by rw [h, String.append_assoc]⟩
    · split
      · exact ⟨"object (empty)", by decide⟩
      · rename_i hlen
        split
        · exact ⟨_, rfl⟩
        · exact (ih path (indent ++ "  ") d).2.2 (by intro h; rw [h] at hlen; exact hlen rfl)
  | .slice xs, path, indent, d => by
    have ih := renderItems_end_with_line_break lib opts comments xs
    simp only [renderValue, renderArrayItem]
    constructor
    · split
      · exact ⟨"array (empty)", by decide⟩
      · split
        · exact ⟨_, rfl⟩
        · rcases ih (arrayMaxItems opts xs) xs.length 0 path indent d with h | ⟨r, h⟩
          · exact ⟨"", by rw [h]; rfl⟩
          · exact ⟨"\n" ++ r, by rw [h, String.append_assoc]⟩
    · split
      · exact ⟨"array (empty)", by decide⟩
      · split
        · exact ⟨_, rfl⟩
        · rcases ih (arrayMaxItems opts xs) xs.length 0 path (indent ++ "  ") d with h | ⟨r, h⟩
          · exact ⟨"", by rw [h]; rfl⟩
          · exact ⟨"\n" ++ r, by rw [h, String.append_assoc]⟩
/-- The text written for the entries of a mapping is empty or ends with a line break. -/
theorem renderEntries_end_with_line_break (lib : Lib) (opts : CollapseOptions)
    (comments : CommentMap) :
    ∀ (es : List orderedEntry) (path indent : String) (d : Int),
      (renderMap lib opts comments es path indent d = "" ∨
        ∃ r, renderMap lib opts comments es path indent d = r ++ "\n") ∧
      (renderInlineRest lib opts comments es path indent d = "" ∨
        ∃ r, renderInlineRest lib opts comments es path indent d = r ++ "\n") ∧
      (es ≠ [] → ∃ r, renderInlineMap lib opts comments es path indent d = r ++ "\n")
  | [], path, indent, d => by
    simp [renderMap, renderInlineRest]
  | .mk k v :: rest, path, indent, d => by
    have ihr := renderEntries_end_with_line_break lib opts comments rest path indent d
    have ihv := render_ends_with_line_break lib opts comments v
    simp only [renderMap, renderInlineRest, renderInlineMap]
    refine ⟨Or.inr ?_, Or.inr ?_, fun _ => ?_⟩
    · obtain ⟨r, hr⟩ := (ihv (childPath path k) (indent ++ "  ") (d + 1)).1
      rcases ihr.1 with h | ⟨r2, h⟩
      · exact ⟨_, by rw [h, hr, String.append_empty, ← String.append_assoc]⟩
      · exact ⟨_, by rw [h, ← String.append_assoc]⟩
    · obtain ⟨r, hr⟩ := (ihv (childPath path k) indent (d + 1)).1
      rcases ihr.2.1 with h | ⟨r2, h⟩
      · exact ⟨_, by rw [h, hr, String.append_empty, ← String.append_assoc]⟩
      · exact ⟨_, by rw [h, ← String.append_assoc]⟩
    · obtain ⟨r, hr⟩ := (ihv (childPath path k) indent (d + 1)).1
      rcases ihr.2.1 with h | ⟨r2, h⟩
      · exact ⟨_, by rw [h, hr, String.append_empty, ← String.append_assoc]⟩
      · exact ⟨_, by rw [h, ← String.append_assoc]⟩
/-- The text written for the items of a sequence is empty or ends with a line break. -/
theorem renderItems_end_with_line_break (lib : Lib) (opts : CollapseOptions)
    (comments : CommentMap) :
    ∀ (xs : List Value) (maxItems : Int) (len i : Nat) (path indent : String) (d : Int),
      renderArrayLoop lib opts comments maxItems len xs i path indent d = "" ∨
        ∃ r, renderArrayLoop lib opts comments maxItems len xs i path indent d = r ++ "\n"
  | [], maxItems, len, i, path, indent, d => by
    simp [renderArrayLoop]
  | v :: rest, maxItems, len, i, path, indent, d => by
    have ihr := renderItems_end_with_line_break lib opts comments rest maxItems len (i + 1)
      path indent d
    have ihv := render_ends_with_line_break lib opts comments v
    simp only [renderArrayLoop]
    right
    split
    · exact ⟨indent ++ "... and " ++ Itoa (wrapInt64 ((len : Int) - maxItems)) ++ " more items",
        by simp [String.append_assoc]⟩
    · obtain ⟨r, hr⟩ := (ihv path indent (d + 1)).2
      rcases ihr with h | ⟨r2, h⟩
      · exact ⟨_, by rw [h, hr, String.append_empty, ← String.append_assoc]⟩
      · exact ⟨_, by rw [h, ← String.append_assoc]⟩
end

theorem needsQuoting_plain (lib : Lib) (s : String) (hs : s = "app" ∨ s = "value")
    (h : lib.ParseFloatOk s = false) : needsQuoting lib s = false := by
  unfold needsQuoting
  rw [h]
  rcases hs with hs | hs <;> subst hs <;> decide

/-- The depth-reduction loop, started on the result of a call of `CollapseYAML` and with
enough fuel, ends with an error of a later call or with the result of the call at the depth
it stopped at; there the exit condition of the loop holds. -/
theorem reduceDepthLoop_exit (lib : Lib) (data schemaStr : String) :
    ∀ (fuel : Nat) (opts : CollapseOptions) (result : String) (collapsed : Bool),
      (opts.MaxDepth - 1).toNat ≤ fuel →
      CollapseYAML lib data opts = (result, collapsed, none) →
      (∃ (d : Int) (e : String), d ≤ opts.MaxDepth ∧ 1 ≤ d ∧
        (CollapseYAML lib data { opts with MaxDepth := d }).2.2 = some e ∧
        reduceDepthLoop lib data schemaStr fuel opts result collapsed =
          .error ("processing values: " ++ e)) ∨
      (∃ (d : Int) (r : String) (c : Bool), d ≤ opts.MaxDepth ∧ (d = opts.MaxDepth ∨ 1 ≤ d) ∧
        CollapseYAML lib data { opts with MaxDepth := d } = (r, c, none) ∧
        ¬ (len r + len schemaStr > MaxResponseBytes ∧ d > 1) ∧
        reduceDepthLoop lib data schemaStr fuel opts result collapsed =
          .ok ({ opts with MaxDepth := d }, r, c)) := by
  intro fuel
  induction fuel with
  | zero =>
    intro opts result collapsed hfuel hc
    right
    refine ⟨opts.MaxDepth, result, collapsed, le_refl _, Or.inl rfl, hc, ?_, rfl⟩
    intro h
    omega
  | succ fuel ih =>
    intro opts result collapsed hfuel hc
    by_cases hcond : len result + len schemaStr > MaxResponseBytes ∧ opts.MaxDepth > 1
    · rw [reduceDepthLoop, if_pos hcond]
      rcases hcall : CollapseYAML lib data { opts with MaxDepth := opts.MaxDepth - 1 } with
        ⟨r, c, err⟩
      cases err with
      | some e =>
        left
        refine ⟨opts.MaxDepth - 1, e, by omega, by omega, by rw [hcall], rfl⟩
      | none =>
        have hnext := ih { opts with MaxDepth := opts.MaxDepth - 1 } r c
          (by show (opts.MaxDepth - 1 - 1).toNat ≤ fuel; omega) hcall
        rcases hnext with ⟨d, e, hd1, hd2, he, hres⟩ | ⟨d, r2, c2, hd1, hd2, hcall2, hexit, hres⟩
        · left
          exact ⟨d, e, by have : d ≤ opts.MaxDepth - 1 := hd1; omega, hd2, he, hres⟩
        · right
          refine ⟨d, r2, c2, by have : d ≤ opts.MaxDepth - 1 := hd1; omega, ?_, hcall2, hexit,
            hres⟩
          right
          rcases hd2 with h | h
          · have : d = opts.MaxDepth - 1 := h
            omega
          · exact h
    · rw [reduceDepthLoop, if_neg hcond]
      right
      refine ⟨opts.MaxDepth, result, collapsed, le_refl _, Or.inl rfl, hc, ?_, rfl⟩
      exact hcond

theorem sizeErrorText_data (size limit : Nat) (depth : Int) :
    ∃ rest, (sizeErrorText size limit depth).data = 'v' :: rest := by
  unfold sizeErrorText
  simp only [String.append_assoc, String.data_append]
  exact ⟨_, rfl⟩

theorem dropWhile_eq_self_iff (p : Char → Bool) (l : List Char) :
    l.dropWhile p = l ↔ ∀ c, l.head? = some c → p c = false := by
  cases l with
  | nil => simp
  | cons a t =>
    by_cases ha : p a = true
    · simp only [List.dropWhile_cons, ha, if_true, List.head?_cons, Option.some.injEq]
      constructor
      · intro h
        have hlen := congrArg List.length h
        have hle := (List.dropWhile_sublist p (l := t)).length_le
        simp at hlen
        omega
      · intro h
        have := h a rfl
        simp [ha] at this
    · simp only [Bool.not_eq_true] at ha
      simp [List.dropWhile_cons, ha]

theorem trim_eq_self_iff (p : Char → Bool) (l : List Char) :
    ((l.dropWhile p).reverse.dropWhile p).reverse = l ↔
      ∀ c, (l.head? = some c ∨ l.getLast? = some c) → p c = false := by
  by_cases hhead : ∀ c, l.head? = some c → p c = false
  · rw [(dropWhile_eq_self_iff p l).2 hhead]
    constructor
    · intro h c hc
      rcases hc with hc | hc
      · exact hhead c hc
      · have h2 : l.reverse.dropWhile p = l.reverse := by
          have := congrArg List.reverse h
          simpa using this
        exact (dropWhile_eq_self_iff p l.reverse).1 h2 c (by rw [List.head?_reverse]; exact hc)
    · intro h
      have h2 : l.reverse.dropWhile p = l.reverse :=
        (dropWhile_eq_self_iff p l.reverse).2
          (fun c hc => h c (Or.inr (by rw [List.head?_reverse] at hc; exact hc)))
      rw [h2, List.reverse_reverse]
  · constructor
    · intro h
      exfalso
      apply hhead
      apply (dropWhile_eq_self_iff p l).1
      have hlen := congrArg List.length h
      have h1 := (List.dropWhile_sublist p (l := (l.dropWhile p).reverse)).length_le
      have h2 := (List.dropWhile_sublist p (l := l)).length_le
      simp only [List.length_reverse] at hlen h1
      exact (List.dropWhile_sublist p).eq_of_length_le (by omega)
    · intro h
      exact absurd (fun c hc => h c (Or.inl hc)) hhead

theorem TrimSpace_ne_iff (s : String) :
    TrimSpace s ≠ s ↔
      ∃ c, (s.data.head? = some c ∨ s.data.getLast? = some c) ∧ isSpace c = true := by
  have h1 : TrimSpace s = s ↔
      ((s.data.dropWhile isSpace).reverse.dropWhile isSpace).reverse = s.data := by
    unfold TrimSpace
    constructor
    · intro h
      exact congrArg String.data h
    · intro h
      exact String.ext h
  rw [Ne, h1, trim_eq_self_iff]
  constructor
  · intro h
    by_contra hne
    apply h
    intro c hc
    by_contra hsp
    exact hne ⟨c, hc, by simpa using hsp⟩
  · rintro ⟨c, hc, hsp⟩ h
    rw [h c hc] at hsp
    cases hsp

theorem ToLower_eq_iff_equalFold (s k : String) (hk : k.data.map Char.toLower = k.data) :
    ToLower s = k ↔ equalFold s k = true := by
  unfold ToLower equalFold
  rw [hk]
  constructor
  · intro h
    have := congrArg String.data h
    simpa using this
  · intro h
    exact String.ext (by simpa using h)

theorem keyword_iff_equalFold (s : String) :
    ["true", "false", "null", "yes", "no", "on", "off", "~"].contains (ToLower s) = true ↔
      ∃ k ∈ ["true", "false", "null", "yes", "no", "on", "off", "~"], equalFold s k = true := by
  simp only [List.contains_cons, List.contains_nil, Bool.or_false, Bool.or_eq_true, beq_iff_eq,
    List.mem_cons, List.mem_singleton, List.not_mem_nil, or_false, exists_eq_or_imp,
    exists_eq_left]
  rw [ToLower_eq_iff_equalFold s "true" (by decide), ToLower_eq_iff_equalFold s "false" (by decide),
    ToLower_eq_iff_equalFold s "null" (by decide), ToLower_eq_iff_equalFold s "yes" (by decide),
    ToLower_eq_iff_equalFold s "no" (by decide), ToLower_eq_iff_equalFold s "on" (by decide),
    ToLower_eq_iff_equalFold s "off" (by decide), ToLower_eq_iff_equalFold s "~" (by decide)]

theorem concatAll_append (l1 l2 : List String) :
    concatAll (l1 ++ l2) = concatAll l1 ++ concatAll l2 := by
  induction l1 with
  | nil => simp [concatAll]
  | cons s rest ih => simp [concatAll, ih, String.append_assoc]

theorem noLineBreak_append (a b : String) :
    NoLineBreak (a ++ b) ↔ NoLineBreak a ∧ NoLineBreak b := by
  simp [NoLineBreak, String.data_append, not_or]

theorem append_ne_empty_right (a b : String) (hb : b ≠ "") : a ++ b ≠ "" := by
  intro h
  apply hb
  have hd := congrArg String.data h
  simp only [String.data_append] at hd
  have hb2 : b.data = [] := (List.append_eq_nil.1 hd).2
  exact String.ext hb2

theorem append_ne_empty_left (a b : String) (ha : a ≠ "") : a ++ b ≠ "" := by
  intro h
  apply ha
  have hd := congrArg String.data h
  simp only [String.data_append] at hd
  have ha2 : a.data = [] := (List.append_eq_nil.1 hd).1
  exact String.ext ha2

theorem completeLines_empty : CompleteLines "" :=
  ⟨[], by simp, by simp [concatAll]⟩

theorem completeLines_append (a b : String) (ha : CompleteLines a) (hb : CompleteLines b) :
    CompleteLines (a ++ b) := by
  obtain ⟨la, hla, rfl⟩ := ha
  obtain ⟨lb, hlb, rfl⟩ := hb
  refine ⟨la ++ lb, ?_, by rw [List.map_append, concatAll_append]⟩
  intro l hl
  rcases List.mem_append.1 hl with h | h
  · exact hla l h
  · exact hlb l h

theorem completeLines_line (l : String) (hne : l ≠ "") (hl : NoLineBreak l) :
    CompleteLines (l ++ "\n") :=
  ⟨[l], by simpa using ⟨hne, hl⟩, by simp [concatAll]⟩

theorem lineRest_line (r : String) (hr : NoLineBreak r) : LineRest (r ++ "\n") :=
  ⟨r, "", hr, completeLines_empty, by simp⟩

theorem lineRest_prefix (p t : String) (hp : NoLineBreak p) (ht : LineRest t) :
    LineRest (p ++ t) := by
  obtain ⟨r, u, hr, hu, rfl⟩ := ht
  exact ⟨p ++ r, u, (noLineBreak_append p r).2 ⟨hp, hr⟩, hu, by simp only [String.append_assoc]⟩

theorem lineRest_append (t u : String) (ht : LineRest t) (hu : CompleteLines u) :
    LineRest (t ++ u) := by
  obtain ⟨r, v, hr, hv, rfl⟩ := ht
  exact ⟨r, v ++ u, hr, completeLines_append v u hv hu, by simp only [String.append_assoc]⟩

theorem completeLines_of_prefix (p t : String) (hp : NoLineBreak p) (hne : p ≠ "")
    (ht : LineRest t) : CompleteLines (p ++ t) := by
  obtain ⟨r, u, hr, hu, rfl⟩ := ht
  have h1 : CompleteLines ((p ++ r) ++ "\n") :=
    completeLines_line (p ++ r) (append_ne_empty_left p r hne)
      ((noLineBreak_append p r).2 ⟨hp, hr⟩)
  have h2 := completeLines_append _ _ h1 hu
  simpa only [String.append_assoc] using h2

theorem lineRest_of_newline_lines (u : String) (hu : CompleteLines u) : LineRest ("\n" ++ u) :=
  ⟨"", u, by simp [NoLineBreak], hu, by simp⟩

theorem digitChar_ne_newline (n : Nat) : Nat.digitChar n ≠ '\n' := by
  by_cases h : n < 16
  · have hall : ∀ k < 16, Nat.digitChar k ≠ '\n' := by decide
    exact hall n h
  · have hstar : Nat.digitChar n = '*' := by
      unfold Nat.digitChar
      repeat (rw [if_neg (by omega)])
    rw [hstar]
    decide

theorem toDigitsCore_noNewline (fuel : Nat) :
    ∀ (n : Nat) (ds : List Char), '\n' ∉ ds → '\n' ∉ Nat.toDigitsCore 10 fuel n ds := by
  induction fuel with
  | zero => intro n ds h; simpa [Nat.toDigitsCore] using h
  | succ fuel ih =>
    intro n ds h
    have hcons : '\n' ∉ Nat.digitChar (n % 10) :: ds := by
      simp only [List.mem_cons, not_or]
      exact ⟨fun hc => digitChar_ne_newline _ hc.symm, h⟩
    simp only [Nat.toDigitsCore]
    split
    · exact hcons
    · exact ih _ _ hcons

theorem noLineBreak_natRepr (n : Nat) : NoLineBreak (Nat.repr n) := by
  unfold NoLineBreak Nat.repr Nat.toDigits
  exact toDigitsCore_noNewline _ _ _ (by simp)

theorem noLineBreak_Itoa (i : Int) : NoLineBreak (Itoa i) := by
  cases i with
  | ofNat n => exact noLineBreak_natRepr n
  | negSucc n =>
    show NoLineBreak ("-" ++ Nat.repr (n + 1))
    exact (noLineBreak_append _ _).2 ⟨by unfold NoLineBreak; decide, noLineBreak_natRepr _⟩

theorem noLineBreak_of_not_needsQuoting (lib : Lib) (s : String)
    (h : needsQuoting lib s = false) : NoLineBreak s := by
  intro hmem
  have hany : s.data.any (fun c => quotingRunes.contains c) = true := by
    rw [List.any_eq_true]
    exact ⟨'\n', hmem, by decide⟩
  unfold needsQuoting at h
  rw [if_pos hany] at h
  split at h
  · cases h
  · split at h <;> cases h

theorem noLineBreak_renderScalar (lib : Lib) (v : Scalar) (showDefaults : Bool)
    (hquote : ∀ s, NoLineBreak (lib.Quote s)) (hfloat : ∀ f, NoLineBreak (lib.FormatFloat f))
    (hv : keysOnOneLine (.scalar v) = true) :
    NoLineBreak (renderScalar lib v showDefaults) := by
  unfold renderScalar
  cases showDefaults
  · simp only [Bool.false_eq_true, if_false]
    cases v <;> simp only [inferType] <;> unfold NoLineBreak <;> decide
  · simp only [if_true]
    cases v with
    | null => simp only [formatScalar]; unfold NoLineBreak; decide
    | bool b => cases b <;> simp only [formatScalar, FormatBool] <;> unfold NoLineBreak <;> decide
    | int i => exact noLineBreak_Itoa i
    | int64 i => exact noLineBreak_Itoa i
    | uint64 n => exact noLineBreak_Itoa n
    | float64 f =>
      simp only [formatScalar]
      split
      · exact noLineBreak_Itoa _
      · exact hfloat f
    | str s =>
      simp only [formatScalar]
      split
      · unfold NoLineBreak; decide
      · split
        · exact hquote s
        · rename_i hq
          exact noLineBreak_of_not_needsQuoting lib s (by simpa using hq)
    | otherNumber text =>
      simp only [formatScalar]
      simpa [keysOnOneLine, NoLineBreak] using hv
    | other text =>
      simp only [formatScalar]
      simpa [keysOnOneLine, NoLineBreak] using hv

theorem noLineBreak_summarizeOrderedMap (es : List orderedEntry) :
    NoLineBreak (summarizeOrderedMap es) := by
  unfold summarizeOrderedMap
  split
  · unfold NoLineBreak; decide
  · unfold NoLineBreak; decide
  · exact (noLineBreak_append _ _).2 ⟨(noLineBreak_append _ _).2
      ⟨by unfold NoLineBreak; decide, noLineBreak_Itoa _⟩, by unfold NoLineBreak; decide⟩

theorem noLineBreak_summarizeArray (xs : List Value) : NoLineBreak (summarizeArray xs) := by
  unfold summarizeArray
  split
  · unfold NoLineBreak; decide
  · unfold NoLineBreak; decide
  · exact (noLineBreak_append _ _).2 ⟨(noLineBreak_append _ _).2
      ⟨by unfold NoLineBreak; decide, noLineBreak_Itoa _⟩, by unfold NoLineBreak; decide⟩

theorem completeLines_entryCommentLine (opts : CollapseOptions) (comments : CommentMap)
    (value : Value) (path indent : String) (depth : Int)
    (hcm : CommentsOnOneLine comments) (hind : NoLineBreak indent) :
    CompleteLines (entryCommentLine opts comments value path indent depth) := by
  unfold entryCommentLine
  split
  · cases hc : comments path with
    | none => exact completeLines_empty
    | some c =>
      simp only
      have hline : NoLineBreak (indent ++ "# " ++ c) :=
        (noLineBreak_append _ _).2 ⟨(noLineBreak_append _ _).2
          ⟨hind, by unfold NoLineBreak; decide⟩, hcm path c hc⟩
      have hne : indent ++ "# " ++ c ≠ "" :=
        append_ne_empty_left _ _ (append_ne_empty_right _ _ (by decide))
      exact completeLines_line _ hne hline
  · exact completeLines_empty

theorem noLineBreak_keyPrefix (indent key tail : String) (hind : NoLineBreak indent)
    (hkey : NoLineBreak key) (htail : NoLineBreak tail) :
    NoLineBreak (indent ++ key ++ tail) :=
  (noLineBreak_append _ _).2 ⟨(noLineBreak_append _ _).2 ⟨hind, hkey⟩, htail⟩

theorem noLineBreak_indent (indent : String) (hind : NoLineBreak indent) :
    NoLineBreak (indent ++ "  ") :=
  (noLineBreak_append _ _).2 ⟨hind, by unfold NoLineBreak; decide⟩

mutual
/-- The layout of a value and of a sequence item: the rest of the current line, then
complete lines. -/
theorem layout_value (lib : Lib) (opts : CollapseOptions) (comments : CommentMap)
    (hquote : ∀ s, NoLineBreak (lib.Quote s)) (hfloat : ∀ f, NoLineBreak (lib.FormatFloat f))
    (hcm : CommentsOnOneLine comments) :
    ∀ (v : Value) (path indent : String) (d : Int), keysOnOneLine v = true →
      NoLineBreak indent →
      LineRest (renderValue lib opts comments v path indent d) ∧
      LineRest (renderArrayItem lib opts comments v path indent d)
  | .scalar s, path, indent, d, hv, hind => by
    simp only [renderValue, renderArrayItem]
    exact ⟨lineRest_line _ (noLineBreak_renderScalar lib s _ hquote hfloat hv),
      lineRest_line _ (noLineBreak_renderScalar lib s _ hquote hfloat hv)⟩
  | .omap es, path, indent, d, hv, hind => by
    have hes : entriesOnOneLine es = true := by simpa [keysOnOneLine] using hv
    have ih := layout_entries lib opts comments hquote hfloat hcm es path
    simp only [renderValue, renderArrayItem]
    constructor
    · split
      · exact lineRest_line "object (empty)" (by unfold NoLineBreak; decide)
      · split
        · exact lineRest_line _ (noLineBreak_summarizeOrderedMap es)
        · exact lineRest_of_newline_lines _ (ih indent d hes hind).1
    · split
      · exact lineRest_line "object (empty)" (by unfold NoLineBreak; decide)
      · rename_i hlen
        split
        · exact lineRest_line _ (noLineBreak_summarizeOrderedMap es)
        · exact (ih (indent ++ "  ") d hes (noLineBreak_indent indent hind)).2.2
            (by intro h; rw [h] at hlen; exact hlen rfl)
  | .slice xs, path, indent, d, hv, hind => by
    have hxs : itemsOnOneLine xs = true := by simpa [keysOnOneLine] using hv
    have ih := layout_items lib opts comments hquote hfloat hcm xs (arrayMaxItems opts xs)
      xs.length 0 path
    simp only [renderValue, renderArrayItem]
    constructor
    · split
      · exact lineRest_line "array (empty)" (by unfold NoLineBreak; decide)
      · split
        · exact lineRest_line _ (noLineBreak_summarizeArray xs)
        · exact lineRest_of_newline_lines _ (ih indent d hxs hind)
    · split
      · exact lineRest_line "array (empty)" (by unfold NoLineBreak; decide)
      · split
        · exact lineRest_line _ (noLineBreak_summarizeArray xs)
        · exact lineRest_of_newline_lines _
            (ih (indent ++ "  ") d hxs (noLineBreak_indent indent hind))
/-- The layout of the entries of a mapping: complete lines. -/
theorem layout_entries (lib : Lib) (opts : CollapseOptions) (comments : CommentMap)
    (hquote : ∀ s, NoLineBreak (lib.Quote s)) (hfloat : ∀ f, NoLineBreak (lib.FormatFloat f))
    (hcm : CommentsOnOneLine comments) :
    ∀ (es : List orderedEntry) (path indent : String) (d : Int), entriesOnOneLine es = true →
      NoLineBreak indent →
      CompleteLines (renderMap lib opts comments es path indent d) ∧
      CompleteLines (renderInlineRest lib opts comments es path indent d) ∧
      (es ≠ [] → LineRest (renderInlineMap lib opts comments es path indent d))
  | [], path, indent, d, _, _ => by
    simp only [renderMap, renderInlineRest]
    exact ⟨completeLines_empty, completeLines_empty, fun h => absurd rfl h⟩
  | .mk k v :: rest, path, indent, d, hes, hind => by
    have hparts : (!k.data.contains '\n') = true ∧ keysOnOneLine v = true ∧
        entriesOnOneLine rest = true := by
      simpa [entriesOnOneLine, and_assoc] using hes
    have hk : NoLineBreak k := by
      have := hparts.1
      simpa [NoLineBreak] using this
    have ihr := layout_entries lib opts comments hquote hfloat hcm rest path indent d hparts.2.2
      hind
    have ihv := layout_value lib opts comments hquote hfloat hcm v
    have hcolon : NoLineBreak ": " := by unfold NoLineBreak; decide
    simp only [renderMap, renderInlineRest, renderInlineMap]
    refine ⟨?_, ?_, fun _ => ?_⟩
    · have hv := (ihv (childPath path k) (indent ++ "  ") (d + 1) hparts.2.1
        (noLineBreak_indent indent hind)).1
      have hline := completeLines_of_prefix (indent ++ k ++ ": ") _
        (noLineBreak_keyPrefix indent k ": " hind hk hcolon)
        (append_ne_empty_right _ _ (by decide)) hv
      have hall := completeLines_append _ _
        (completeLines_append _ _
          (completeLines_entryCommentLine opts comments v (childPath path k) indent d hcm hind)
          hline) ihr.1
      simpa only [String.append_assoc] using hall
    · have hv := (ihv (childPath path k) indent (d + 1) hparts.2.1 hind).1
      have hline := completeLines_of_prefix (indent ++ k ++ ": ") _
        (noLineBreak_keyPrefix indent k ": " hind hk hcolon)
        (append_ne_empty_right _ _ (by decide)) hv
      have hall := completeLines_append _ _ hline ihr.2.1
      simpa only [String.append_assoc] using hall
    · have hv := (ihv (childPath path k) indent (d + 1) hparts.2.1 hind).1
      have hline := lineRest_prefix (k ++ ": ") _ ((noLineBreak_append _ _).2 ⟨hk, hcolon⟩) hv
      have hall := lineRest_append _ _ hline ihr.2.1
      simpa only [String.append_assoc] using hall
/-- The layout of the items of a sequence: complete lines. -/
theorem layout_items (lib : Lib) (opts : CollapseOptions) (comments : CommentMap)
    (hquote : ∀ s, NoLineBreak (lib.Quote s)) (hfloat : ∀ f, NoLineBreak (lib.FormatFloat f))
    (hcm : CommentsOnOneLine comments) :
    ∀ (xs : List Value) (maxItems : Int) (len i : Nat) (path indent : String) (d : Int),
      itemsOnOneLine xs = true → NoLineBreak indent →
      CompleteLines (renderArrayLoop lib opts comments maxItems len xs i path indent d)
  | [], maxItems, len, i, path, indent, d, _, _ => by
    simp only [renderArrayLoop]
    exact completeLines_empty
  | v :: rest, maxItems, len, i, path, indent, d, hxs, hind => by
    have hparts : keysOnOneLine v = true ∧ itemsOnOneLine rest = true := by
      simpa [itemsOnOneLine] using hxs
    have ihr := layout_items lib opts comments hquote hfloat hcm rest maxItems len (i + 1) path
      indent d hparts.2 hind
    have ihv := layout_value lib opts comments hquote hfloat hcm v
    simp only [renderArrayLoop]
    split
    · have hline : NoLineBreak (indent ++ "... and " ++
          Itoa (wrapInt64 ((len : Int) - maxItems)) ++ " more items") :=
        (noLineBreak_append _ _).2 ⟨(noLineBreak_append _ _).2
          ⟨(noLineBreak_append _ _).2 ⟨hind, by unfold NoLineBreak; decide⟩,
            noLineBreak_Itoa _⟩, by unfold NoLineBreak; decide⟩
      have h := completeLines_line _ (append_ne_empty_right _ " more items" (by decide)) hline
      have heq : indent ++ "... and " ++ Itoa (wrapInt64 ((len : Int) - maxItems)) ++
          " more items" ++ "\n" =
          indent ++ "... and " ++ Itoa (wrapInt64 ((len : Int) - maxItems)) ++
          " more items\n" := by
        simp only [String.append_assoc]
        rfl
      rw [heq] at h
      exact h
    · have hv := (ihv path indent (d + 1) hparts.1 hind).2
      have hline := completeLines_of_prefix (indent ++ "- ") _
        ((noLineBreak_append _ _).2 ⟨hind, by unfold NoLineBreak; decide⟩)
        (append_ne_empty_right _ _ (by decide)) hv
      have hall := completeLines_append _ _ hline ihr
      simpa only [String.append_assoc] using hall
end

theorem splitChars_noLineBreak :
    ∀ (l cur : List Char), '\n' ∉ cur → ∀ s ∈ splitChars '\n' l cur, NoLineBreak s := by
  intro l
  induction l with
  | nil =>
    intro cur hcur s hs
    simp only [splitChars, List.mem_singleton] at hs
    subst hs
    simpa [NoLineBreak] using hcur
  | cons c rest ih =>
    intro cur hcur s hs
    simp only [splitChars] at hs
    split at hs
    · rcases List.mem_cons.1 hs with h | h
      · subst h
        simpa [NoLineBreak] using hcur
      · exact ih [] (by simp) s h
    · rename_i hc
      refine ih (c :: cur) ?_ s hs
      simp only [List.mem_cons, not_or]
      exact ⟨fun h => hc h.symm, hcur⟩

theorem noLineBreak_of_sublist (s t : String) (h : s.data.Sublist t.data)
    (ht : NoLineBreak t) : NoLineBreak s :=
  fun hmem => ht (h.subset hmem)

theorem noLineBreak_TrimSpace (s : String) (h : NoLineBreak s) : NoLineBreak (TrimSpace s) := by
  intro hmem
  apply h
  unfold TrimSpace at hmem
  simp only [List.mem_reverse] at hmem
  have h1 := (List.dropWhile_sublist isSpace).subset hmem
  simp only [List.mem_reverse] at h1
  exact (List.dropWhile_sublist isSpace).subset h1

theorem noLineBreak_TrimLeft (s cutset : String) (h : NoLineBreak s) :
    NoLineBreak (TrimLeft s cutset) := by
  intro hmem
  apply h
  unfold TrimLeft at hmem
  exact (List.dropWhile_sublist _).subset hmem

theorem noLineBreak_TrimPrefix (s p : String) (h : NoLineBreak s) :
    NoLineBreak (TrimPrefix s p) := by
  unfold TrimPrefix
  split
  · intro hmem
    apply h
    exact (List.drop_sublist _ _).subset hmem
  · exact h

theorem noLineBreak_firstCommentLineLoop :
    ∀ (lines : List String) (inSchema : Bool), (∀ l ∈ lines, NoLineBreak l) →
      NoLineBreak (firstCommentLineLoop lines inSchema) := by
  intro lines
  induction lines with
  | nil =>
    intro inSchema _
    simp only [firstCommentLineLoop]
    unfold NoLineBreak
    decide
  | cons line rest ih =>
    intro inSchema hall
    have hrest : ∀ l ∈ rest, NoLineBreak l := fun l hl => hall l (List.mem_cons_of_mem _ hl)
    have hline : NoLineBreak (TrimSpace (TrimLeft (TrimSpace line) "#")) :=
      noLineBreak_TrimSpace _ (noLineBreak_TrimLeft _ _
        (noLineBreak_TrimSpace _ (hall line (List.mem_cons_self _ _))))
    simp only [firstCommentLineLoop]
    split
    · exact ih _ hrest
    · split
      · exact ih _ hrest
      · split
        · exact ih _ hrest
        · exact noLineBreak_TrimPrefix _ _ hline

theorem noLineBreak_extractFirstCommentLine (raw : String) :
    NoLineBreak (extractFirstCommentLine raw) :=
  noLineBreak_firstCommentLineLoop _ _ (splitChars_noLineBreak _ [] (by simp))

theorem commentsOnOneLine_empty : CommentsOnOneLine CommentMap.empty := by
  intro p c h
  simp [CommentMap.empty] at h

theorem commentsOnOneLine_store (commentNode : Option String) (newPath : String)
    (comments : CommentMap) (h : CommentsOnOneLine comments) :
    CommentsOnOneLine (storeEntryComment commentNode newPath comments) := by
  unfold storeEntryComment
  cases commentNode with
  | none => exact h
  | some raw =>
    simp only
    split
    · intro p c hpc
      unfold CommentMap.set at hpc
      split at hpc
      · have hc : extractFirstCommentLine raw = c := Option.some.inj hpc
        rw [← hc]
        exact noLineBreak_extractFirstCommentLine raw
      · exact h p c hpc
    · exact h

mutual
/-- Every comment that `extractCommentsFromNode` stores is one line. -/
theorem commentsOnOneLine_switch :
    ∀ (n : Node) (path : String) (comments : CommentMap), CommentsOnOneLine comments →
      CommentsOnOneLine (extractCommentsFromNodeSwitch n path comments)
  | .MappingNode _ vs, path, comments, h => by
    simp only [extractCommentsFromNodeSwitch]
    exact commentsOnOneLine_values vs path comments h
  | .MappingValue c keyNode v, path, comments, h => by
    simp only [extractCommentsFromNodeSwitch]
    exact commentsOnOneLine_node v _ _ (commentsOnOneLine_store _ _ _ h)
  | .SequenceNode _ vs, path, comments, h => by
    simp only [extractCommentsFromNodeSwitch]
    exact commentsOnOneLine_items vs 0 path comments h
  | .AnchorNode _ v, path, comments, h => by
    simp only [extractCommentsFromNodeSwitch]
    exact commentsOnOneLine_node v _ _ h
  | .TagNode _ v, path, comments, h => by
    simp only [extractCommentsFromNodeSwitch]
    exact commentsOnOneLine_node v _ _ h
  | .AliasNode _ _, _, comments, h => by simpa only [extractCommentsFromNodeSwitch] using h
  | .NullNode _, _, comments, h => by simpa only [extractCommentsFromNodeSwitch] using h
  | .BoolNode _ _, _, comments, h => by simpa only [extractCommentsFromNodeSwitch] using h
  | .IntegerNode _ _, _, comments, h => by simpa only [extractCommentsFromNodeSwitch] using h
  | .FloatNode _ _, _, comments, h => by simpa only [extractCommentsFromNodeSwitch] using h
  | .StringNode _ _, _, comments, h => by simpa only [extractCommentsFromNodeSwitch] using h
  | .InfinityNode _ _, _, comments, h => by simpa only [extractCommentsFromNodeSwitch] using h
  | .NanNode _ _, _, comments, h => by simpa only [extractCommentsFromNodeSwitch] using h
  | .OtherNode _ _, _, comments, h => by simpa only [extractCommentsFromNodeSwitch] using h
theorem commentsOnOneLine_node :
    ∀ (n : Option Node) (path : String) (comments : CommentMap), CommentsOnOneLine comments →
      CommentsOnOneLine (extractCommentsFromNode n path comments)
  | none, _, comments, h => by simpa only [extractCommentsFromNode] using h
  | some n, path, comments, h => by
    simp only [extractCommentsFromNode]
    exact commentsOnOneLine_switch n path comments h
theorem commentsOnOneLine_values :
    ∀ (vs : List MappingValueNode) (path : String) (comments : CommentMap),
      CommentsOnOneLine comments →
      CommentsOnOneLine (extractCommentsFromValues vs path comments)
  | [], _, comments, h => by simpa only [extractCommentsFromValues] using h
  | .mk _ none _ :: rest, path, comments, h => by
    simp only [extractCommentsFromValues]
    exact commentsOnOneLine_values rest path comments h
  | .mk c (some keyNode) v :: rest, path, comments, h => by
    simp only [extractCommentsFromValues]
    exact commentsOnOneLine_values rest path _
      (commentsOnOneLine_node v _ _ (commentsOnOneLine_store _ _ _ h))
theorem commentsOnOneLine_items :
    ∀ (vs : List Node) (i : Nat) (path : String) (comments : CommentMap),
      CommentsOnOneLine comments →
      CommentsOnOneLine (extractCommentsFromItems vs i path comments)
  | [], _, _, comments, h => by simpa only [extractCommentsFromItems] using h
  | v :: rest, i, path, comments, h => by
    simp only [extractCommentsFromItems]
    exact commentsOnOneLine_items rest (i + 1) path _
      (commentsOnOneLine_switch v _ _ h)
end

theorem commentsOnOneLine_extractComments (file : File) :
    CommentsOnOneLine (extractComments file) := by
  unfold extractComments
  split
  · exact commentsOnOneLine_node _ _ _ commentsOnOneLine_empty
  · exact commentsOnOneLine_empty

theorem TrimSuffix_append_newline (a : String) : TrimSuffix (a ++ "\n") "\n" = a := by
  unfold TrimSuffix HasSuffix
  have hd : (a ++ "\n").data = a.data ++ ['\n'] := by simp [String.data_append]
  have hn : ("\n" : String).data = ['\n'] := rfl
  rw [hd, hn]
  simp [hasPrefixChars]

theorem TrimSuffix_noLineBreak (r : String) (hr : NoLineBreak r) : TrimSuffix r "\n" = r := by
  unfold TrimSuffix HasSuffix
  have hn : ("\n" : String).data = ['\n'] := rfl
  rw [hn]
  cases hrev : r.data.reverse with
  | nil => simp [hasPrefixChars]
  | cons c t =>
    have hc : c ∈ r.data := by
      have : c ∈ r.data.reverse := by rw [hrev]; exact List.mem_cons_self _ _
      simpa using this
    have hne : c ≠ '\n' := fun h => hr (h ▸ hc)
    simp [hasPrefixChars, hne]

theorem concatAll_lines (l : String) (rest : List String) :
    concatAll ((l :: rest).map (fun l => l ++ "\n")) = joinLines (l :: rest) ++ "\n" := by
  induction rest generalizing l with
  | nil => simp [concatAll, joinLines]
  | cons l2 rest ih =>
    rw [List.map_cons, concatAll, ih l2]
    simp only [joinLines, String.append_assoc]

theorem TrimSuffix_completeLines (t : String) (ht : CompleteLines t) :
    ∃ ls : List String, (∀ l ∈ ls, l ≠ "" ∧ NoLineBreak l) ∧ TrimSuffix t "\n" = joinLines ls := by
  obtain ⟨ls, hls, rfl⟩ := ht
  refine ⟨ls, hls, ?_⟩
  cases ls with
  | nil => decide
  | cons l rest => rw [concatAll_lines, TrimSuffix_append_newline]

theorem joinLines_last (ls : List String) (hls : ∀ l ∈ ls, l ≠ "" ∧ NoLineBreak l) :
    (joinLines ls).data.getLast? ≠ some '\n' := by
  induction ls with
  | nil => simp [joinLines]
  | cons l rest ih =>
    have hl := hls l (List.mem_cons_self _ _)
    cases rest with
    | nil =>
      simp only [joinLines]
      intro h
      exact hl.2 (List.mem_of_getLast?_eq_some h)
    | cons l2 rest2 =>
      have ih2 := ih (fun x hx => hls x (List.mem_cons_of_mem _ hx))
      have hl2 := hls l2 (List.mem_cons_of_mem _ (List.mem_cons_self _ _))
      have hne : (joinLines (l2 :: rest2)).data ≠ [] := by
        cases rest2 with
        | nil =>
          simp only [joinLines]
          intro h
          exact hl2.1 (String.ext h)
        | cons l3 rest3 =>
          simp only [joinLines, String.data_append]
          intro h
          have := (List.append_eq_nil.1 h).1
          have := (List.append_eq_nil.1 this).1
          exact hl2.1 (String.ext this)
      simp only [joinLines, String.data_append]
      rw [List.getLast?_append_of_ne_nil _ hne]
      exact ih2

theorem HasSuffix_newline_iff (t : String) :
    HasSuffix t "\n" = true ↔ t.data.getLast? = some '\n' := by
  unfold HasSuffix
  have hn : ("\n" : String).data = ['\n'] := rfl
  rw [hn, List.getLast?_eq_head?_reverse]
  cases t.data.reverse with
  | nil => simp [hasPrefixChars]
  | cons c r => simp [hasPrefixChars]

theorem sampleQuoteBody_noNewline (l : List Char) : '\n' ∉ sampleQuoteBody l := by
  induction l with
  | nil => simp [sampleQuoteBody]
  | cons c rest ih =>
    simp only [sampleQuoteBody, List.mem_append, not_or]
    refine ⟨?_, ih⟩
    unfold sampleQuoteRune
    split_ifs with h1 h2 h3 h4 h5
    · decide
    · decide
    · decide
    · decide
    · decide
    · simp only [List.mem_singleton]
      exact fun h => h3 h.symm

theorem escapingLib_quote_noLineBreak (s : String) : NoLineBreak (escapingLib.Quote s) := by
  show '\n' ∉ '"' :: sampleQuoteBody s.data ++ ['"']
  simp only [List.cons_append, List.mem_cons, List.mem_append, List.mem_singleton, not_or,
    List.not_mem_nil, or_false]
  exact ⟨by decide, sampleQuoteBody_noNewline _, by decide⟩

/-! ## The claims on scalars, layout and the byte budget -/

/-- C11, counterexample: for the alias `*base` of `TestCollapseYAML_AnchorAlias`, with
values shown, the text written for the value is the token in double quotes, `"*base"`, and
not the bare reference token `*base`. -/
theorem alias_token_not_bare :
    renderValue sampleLib ⟨3, 3, true, true⟩ CommentMap.empty
      (astToOrderedNode (.AliasNode none "*base")) "service.<<" "    " 2 = "\"*base\"\n" ∧
    renderValue sampleLib ⟨3, 3, true, true⟩ CommentMap.empty
      (astToOrderedNode (.AliasNode none "*base")) "service.<<" "    " 2 ≠ "*base\n" := by
  constructor <;> decide

/-- C11 (amended): an alias node whose text is the reference token `*name` is kept by
the tree builder as the string `*name` (the target of the anchor is not substituted), and
with values shown the text written for it, as a mapping value, as a sequence item or at
the root and at every depth, is that token as quoted by `strconv.Quote`, because `*` is one
of the characters that force quoting; a quoted text, which begins with a double quote, is
not the bare token. -/
theorem alias_token_is_quoted (lib : Lib) (opts : CollapseOptions) (comments : CommentMap)
    (c : Option String) (name path indent : String) (depth : Int)
    (hshow : opts.ShowDefaults = true) :
    astToOrderedNode (.AliasNode c ("*" ++ name)) = .scalar (.str ("*" ++ name)) ∧
    renderValue lib opts comments (astToOrderedNode (.AliasNode c ("*" ++ name)))
      path indent depth = lib.Quote ("*" ++ name) ++ "\n" ∧
    renderArrayItem lib opts comments (astToOrderedNode (.AliasNode c ("*" ++ name)))
      path indent depth = lib.Quote ("*" ++ name) ++ "\n" ∧
    renderNode lib opts comments (astToOrderedNode (.AliasNode c ("*" ++ name)))
      path indent depth = lib.Quote ("*" ++ name) ∧
    ((∃ body, lib.Quote ("*" ++ name) = "\"" ++ body ++ "\"") →
      lib.Quote ("*" ++ name) ≠ "*" ++ name) := by
  have hd : ("*" ++ name).data = '*' :: name.data := by simp [String.data_append]
  have hne : ("*" ++ name) ≠ "" := by
    intro h
    have := congrArg String.data h
    rw [hd] at this
    cases this
  have hf : formatScalar lib (.str ("*" ++ name)) = lib.Quote ("*" ++ name) := by
    simp only [formatScalar, if_neg hne, needsQuoting_alias lib name, if_true]
  refine ⟨by simp [astToOrderedNode], ?_, ?_, ?_, ?_⟩
  · simp [astToOrderedNode, renderValue, renderScalar, hshow, hf]
  · simp [astToOrderedNode, renderArrayItem, renderScalar, hshow, hf]
  · simp [astToOrderedNode, renderNode, renderScalar, hshow, hf]
  · rintro ⟨body, hb⟩ heq
    rw [hb] at heq
    have := congrArg String.data heq
    simp [String.data_append] at this

/-- The alias of `TestCollapseYAML_AnchorAlias` under the key `<<`. -/
theorem alias_token_is_quoted_witness :
    renderValue sampleLib ⟨3, 3, true, true⟩ CommentMap.empty
      (astToOrderedNode (.AliasNode none ("*" ++ "base"))) "service.<<" "    " 2 =
      "\"*base\"\n" :=
  (alias_token_is_quoted sampleLib ⟨3, 3, true, true⟩ CommentMap.empty none "base"
    "service.<<" "    " 2 rfl).2.1.trans (by decide)

/-- C12: for an infinity or not-a-number node whose source token is `.inf`, `-.inf` or
`.nan` (a token that `strconv.ParseFloat` does not accept), with values shown the text
written for the value, as a mapping value, as a sequence item or at the root, is exactly
that token, unquoted; it is none of the host spellings `+Inf`, `-Inf`, `Inf`, `NaN`. -/
theorem nonfinite_tokens_verbatim (lib : Lib) (opts : CollapseOptions) (comments : CommentMap)
    (c : Option String) (tok path indent : String) (depth : Int)
    (hshow : opts.ShowDefaults = true)
    (htok : tok = ".inf" ∨ tok = "-.inf" ∨ tok = ".nan")
    (hfloat : lib.ParseFloatOk tok = false) :
    renderValue lib opts comments (astToOrderedNode (.InfinityNode c tok)) path indent depth =
      tok ++ "\n" ∧
    renderValue lib opts comments (astToOrderedNode (.NanNode c tok)) path indent depth =
      tok ++ "\n" ∧
    renderArrayItem lib opts comments (astToOrderedNode (.InfinityNode c tok)) path indent depth =
      tok ++ "\n" ∧
    renderArrayItem lib opts comments (astToOrderedNode (.NanNode c tok)) path indent depth =
      tok ++ "\n" ∧
    renderNode lib opts comments (astToOrderedNode (.InfinityNode c tok)) path indent depth =
      tok ∧
    renderNode lib opts comments (astToOrderedNode (.NanNode c tok)) path indent depth = tok ∧
    tok ≠ "+Inf" ∧ tok ≠ "-Inf" ∧ tok ≠ "Inf" ∧ tok ≠ "NaN" := by
  have hq : needsQuoting lib tok = false := by
    unfold needsQuoting
    rw [hfloat]
    rcases htok with h | h | h <;> subst h <;> decide
  have hne : tok ≠ "" := by
    rcases htok with h | h | h <;> subst h <;> decide
  have hf : formatScalar lib (.str tok) = tok := by
    simp [formatScalar, hne, hq]
  refine ⟨?_, ?_, ?_, ?_, ?_, ?_, ?_, ?_, ?_, ?_⟩
  · simp [astToOrderedNode, renderValue, renderScalar, hshow, hf]
  · simp [astToOrderedNode, renderValue, renderScalar, hshow, hf]
  · simp [astToOrderedNode, renderArrayItem, renderScalar, hshow, hf]
  · simp [astToOrderedNode, renderArrayItem, renderScalar, hshow, hf]
  · simp [astToOrderedNode, renderNode, renderScalar, hshow, hf]
  · simp [astToOrderedNode, renderNode, renderScalar, hshow, hf]
  all_goals rcases htok with h | h | h <;> subst h <;> decide

/-- The value `-.inf` of `TestCollapseYAML_Infinity`. -/
theorem nonfinite_tokens_verbatim_witness :
    renderValue sampleLib ⟨1, 3, true, true⟩ CommentMap.empty
      (astToOrderedNode (.InfinityNode none "-.inf")) "neg" "  " 1 = "-.inf" ++ "\n" :=
  (nonfinite_tokens_verbatim sampleLib ⟨1, 3, true, true⟩ CommentMap.empty none "-.inf"
    "neg" "  " 1 rfl (Or.inr (Or.inl rfl)) rfl).1

/-- C13: `needsQuoting s` is true exactly when `s` is empty, or its first or last rune
is white space, or it holds one of the runes `:` `#` line break `"` `'` `[` `]` `{` `}`
`&` `*` `!` `|` `>` `%` `@` backtick, or it equals one of `true`, `false`, `null`, `yes`,
`no`, `on`, `off`, `~` ignoring case, or `strconv.ParseFloat` accepts it. `formatScalar`
returns `s` itself when `needsQuoting s` is false; when it is true it returns the quoted
form (`strconv.Quote s`, and two double quotes for the empty string), which is enclosed in
double quotes and differs from `s`. The hypothesis states of `strconv.Quote` that its
result is enclosed in double quotes and is not shorter inside them than its argument. -/
theorem needsQuoting_iff (lib : Lib) (s : String)
    (hquote : ∀ t, ∃ body, lib.Quote t = "\"" ++ body ++ "\"" ∧ t.length ≤ body.length) :
    (needsQuoting lib s = true ↔
      s = "" ∨
      (∃ c, (s.data.head? = some c ∨ s.data.getLast? = some c) ∧ isSpace c = true) ∨
      (∃ c ∈ s.data, c ∈ [':', '#', '\n', '"', Char.ofNat 39, '[', ']', Char.ofNat 0x7b,
        Char.ofNat 0x7d, '&', '*', '!', '|', '>', '%', '@', Char.ofNat 0x60]) ∨
      (∃ k ∈ ["true", "false", "null", "yes", "no", "on", "off", "~"], equalFold s k = true) ∨
      lib.ParseFloatOk s = true) ∧
    (needsQuoting lib s = false → formatScalar lib (.str s) = s) ∧
    (needsQuoting lib s = true →
      formatScalar lib (.str s) = (if s = "" then "\"\"" else lib.Quote s) ∧
      formatScalar lib (.str s) ≠ s ∧
      ∃ body, formatScalar lib (.str s) = "\"" ++ body ++ "\"") := by
  refine ⟨?_, ?_, ?_⟩
  · unfold needsQuoting
    by_cases h1 : s = ""
    · simp [h1]
    · rw [if_neg h1]
      by_cases h2 : TrimSpace s ≠ s
      · rw [if_pos h2]
        simp [(TrimSpace_ne_iff s).1 h2]
      · rw [if_neg h2]
        have h2' := mt (TrimSpace_ne_iff s).2 h2
        by_cases h3 : s.data.any (fun c => quotingRunes.contains c) = true
        · rw [if_pos h3]
          have h3' : ∃ c ∈ s.data, c ∈ quotingRunes := by
            simpa [List.any_eq_true] using h3
          simp only [true_iff]
          exact Or.inr (Or.inr (Or.inl h3'))
        · rw [if_neg h3]
          have h3' : ¬ ∃ c ∈ s.data, c ∈ quotingRunes := by
            simpa [List.any_eq_true] using h3
          by_cases h4 : ["true", "false", "null", "yes", "no", "on", "off", "~"].contains
              (ToLower s) = true
          · rw [if_pos h4]
            simp only [true_iff]
            exact Or.inr (Or.inr (Or.inr (Or.inl ((keyword_iff_equalFold s).1 h4))))
          · rw [if_neg h4]
            have h4' := mt (keyword_iff_equalFold s).2 h4
            by_cases h5 : lib.ParseFloatOk s = true
            · rw [if_pos h5]
              simp [h5]
            · rw [if_neg h5]
              simp only [Bool.false_eq_true, false_iff, not_or]
              exact ⟨h1, h2', h3', h4', h5⟩
  · intro h
    have hne : s ≠ "" := by
      intro h0
      rw [h0] at h
      simp [needsQuoting] at h
    simp [formatScalar, hne, h]
  · intro h
    by_cases h1 : s = ""
    · subst h1
      refine ⟨by simp [formatScalar], by simp [formatScalar], "", by simp [formatScalar]⟩
    · have hf : formatScalar lib (.str s) = lib.Quote s := by
        simp [formatScalar, h1, h]
      obtain ⟨body, hb, hlen⟩ := hquote s
      refine ⟨by rw [hf, if_neg h1], ?_, body, by rw [hf, hb]⟩
      rw [hf, hb]
      intro heq
      have := congrArg String.length heq
      simp only [String.length_append] at this
      have h1 : "\"".length = 1 := by decide
      omega

/-- The string `has:colon` of `TestFormatScalar` is quoted. -/
theorem needsQuoting_iff_witness :
    needsQuoting sampleLib "has:colon" = true ∧
    formatScalar sampleLib (.str "has:colon") = "\"has:colon\"" :=
  have h := needsQuoting_iff sampleLib "has:colon"
    (fun t => ⟨t, rfl, Nat.le_refl _⟩)
  have hq : needsQuoting sampleLib "has:colon" = true :=
    h.1.2 (Or.inr (Or.inr (Or.inl ⟨':', by decide, by decide⟩)))
  ⟨hq, (h.2.2 hq).1.trans (by decide)⟩

/-- C14 (the code evaluated on an out-of-range literal): `1e999` is a decimal number
literal, `strconv.ParseFloat` returns the range error for it (the hypothesis), so
`needsQuoting` is false and `formatScalar` returns the string `1e999` itself, without
quotes. -/
theorem out_of_range_literal_not_quoted (lib : Lib) (hfloat : lib.ParseFloatOk "1e999" = false) :
    isDecimalLiteral "1e999" = true ∧
    needsQuoting lib "1e999" = false ∧
    formatScalar lib (.str "1e999") = "1e999" := by
  have hq : needsQuoting lib "1e999" = false := by
    unfold needsQuoting
    rw [hfloat]
    decide
  refine ⟨by decide, hq, ?_⟩
  simp [formatScalar, hq]

/-- The literal `1e999` on the sample library, whose `ParseFloat` rejects it. -/
theorem out_of_range_literal_not_quoted_witness :
    isDecimalLiteral "1e999" = true ∧
    needsQuoting sampleLib "1e999" = false ∧
    formatScalar sampleLib (.str "1e999") = "1e999" :=
  out_of_range_literal_not_quoted sampleLib rfl

/-- C16: `summarizeOrderedMap` returns `object (empty)` for no entry, `object (1 key)`
for one entry and `object (n keys)`, with `n` in decimal, for `n >= 2` entries;
`summarizeArray` returns `array (empty)`, `array (1 item)` and `array (n items)` in the
same three cases; both depend on the number of direct children only. -/
theorem summaries_by_count (entries : List orderedEntry) (arr : List Value) :
    (entries.length = 0 → summarizeOrderedMap entries = "object (empty)") ∧
    (entries.length = 1 → summarizeOrderedMap entries = "object (1 key)") ∧
    (2 ≤ entries.length →
      summarizeOrderedMap entries = "object (" ++ Nat.repr entries.length ++ " keys)") ∧
    (arr.length = 0 → summarizeArray arr = "array (empty)") ∧
    (arr.length = 1 → summarizeArray arr = "array (1 item)") ∧
    (2 ≤ arr.length → summarizeArray arr = "array (" ++ Nat.repr arr.length ++ " items)") ∧
    (∀ entries2 : List orderedEntry, entries.length = entries2.length →
      summarizeOrderedMap entries = summarizeOrderedMap entries2) ∧
    (∀ arr2 : List Value, arr.length = arr2.length →
      summarizeArray arr = summarizeArray arr2) := by
  refine ⟨?_, ?_, ?_, ?_, ?_, ?_, summarizeOrderedMap_congr entries, summarizeArray_congr arr⟩
  · intro h; simp [summarizeOrderedMap, h]
  · intro h; simp [summarizeOrderedMap, h]
  · intro h
    unfold summarizeOrderedMap
    split
    · omega
    · omega
    · rw [Itoa_natCast]
  · intro h; simp [summarizeArray, h]
  · intro h; simp [summarizeArray, h]
  · intro h
    unfold summarizeArray
    split
    · omega
    · omega
    · rw [Itoa_natCast]

/-- C17, counterexample: the document `blockKeyText`, whose only key is a block scalar
that holds a blank line, is returned at `MaxDepth = 1` with the key as it is written:
the second of the four lines of the returned text is empty. -/
theorem block_key_gives_empty_line :
    CollapseYAML blockKeyLib blockKeyText ⟨1, 3, true, false⟩ =
      ("? |\n  a\n\n  b: v", true, none) ∧
    SplitLines (CollapseYAML blockKeyLib blockKeyText ⟨1, 3, true, false⟩).1 =
      ["? |", "  a", "", "  b: v"] ∧
    "" ∈ SplitLines (CollapseYAML blockKeyLib blockKeyText ⟨1, 3, true, false⟩).1 ∧
    keysOnOneLine (documentRoot ⟨[⟨some blockKeyBody⟩]⟩) = false := by
  refine ⟨by decide, by decide, by decide, by decide⟩

/-- The lines of the output for keys on one line: with `MaxDepth >= 1`, for a parsed
document whose keys are free of line breaks (and a library whose `strconv.Quote` and
`strconv.FormatFloat` return no line break), the text returned by `CollapseYAML` is a
list of lines joined by single line breaks, each line non-empty and free of line
breaks; so it holds no empty line, and it does not end with a line break. -/
theorem output_is_joined_lines (lib : Lib) (data : String) (opts : CollapseOptions)
    (file : File) (hdepth : 1 ≤ opts.MaxDepth) (hparse : lib.ParseBytes data = .ok file)
    (hkeys : keysOnOneLine (documentRoot file) = true)
    (hquote : ∀ s, NoLineBreak (lib.Quote s))
    (hfloat : ∀ f, NoLineBreak (lib.FormatFloat f)) :
    ∃ ls : List String, (∀ l ∈ ls, l ≠ "" ∧ NoLineBreak l) ∧
      (CollapseYAML lib data opts).1 = joinLines ls ∧
      HasSuffix (CollapseYAML lib data opts).1 "\n" = false := by
  have hcm : CommentsOnOneLine
      (if opts.ShowComments then extractComments file else CommentMap.empty) := by
    split
    · exact commentsOnOneLine_extractComments file
    · exact commentsOnOneLine_empty
  have hempty : NoLineBreak "" := by unfold NoLineBreak; decide
  have hmain : ∃ ls : List String, (∀ l ∈ ls, l ≠ "" ∧ NoLineBreak l) ∧
      (CollapseYAML lib data opts).1 = joinLines ls := by
    rw [collapse_of_parse lib data opts file (by omega) hparse]
    split
    · exact ⟨[], by simp, rfl⟩
    · cases hroot : documentRoot file with
      | omap es =>
        rw [hroot] at hkeys
        have hes : entriesOnOneLine es = true := by simpa [keysOnOneLine] using hkeys
        exact TrimSuffix_completeLines _
          (layout_entries lib opts _ hquote hfloat hcm es "" "" 0 hes hempty).1
      | slice xs =>
        rw [hroot] at hkeys
        have hxs : itemsOnOneLine xs = true := by simpa [keysOnOneLine] using hkeys
        exact TrimSuffix_completeLines _
          (layout_items lib opts _ hquote hfloat hcm xs _ _ 0 "" "" 0 hxs hempty)
      | scalar s =>
        rw [hroot] at hkeys
        have hr := noLineBreak_renderScalar lib s opts.ShowDefaults hquote hfloat hkeys
        simp only [renderNode]
        rw [TrimSuffix_noLineBreak _ hr]
        by_cases hne : renderScalar lib s opts.ShowDefaults = ""
        · exact ⟨[], by simp, by rw [hne]; rfl⟩
        · exact ⟨[renderScalar lib s opts.ShowDefaults], by simpa using ⟨hne, hr⟩, rfl⟩
  obtain ⟨ls, hls, heq⟩ := hmain
  refine ⟨ls, hls, heq, ?_⟩
  have hlast := joinLines_last ls hls
  rw [← heq] at hlast
  cases hsuf : HasSuffix (CollapseYAML lib data opts).1 "\n" with
  | false => rfl
  | true => exact absurd ((HasSuffix_newline_iff _).1 hsuf) hlast

/-- The document of `itemsText`, with comments on. -/
theorem output_is_joined_lines_witness :
    ∃ ls : List String, (∀ l ∈ ls, l ≠ "" ∧ NoLineBreak l) ∧
      (CollapseYAML escapingLib itemsText ⟨4, 3, true, true⟩).1 = joinLines ls ∧
      HasSuffix (CollapseYAML escapingLib itemsText ⟨4, 3, true, true⟩).1 "\n" = false :=
  output_is_joined_lines escapingLib itemsText ⟨4, 3, true, true⟩ ⟨[⟨some itemsBody⟩]⟩
    (by decide) rfl rfl escapingLib_quote_noLineBreak
    (fun _ => by show NoLineBreak "0.5"; unfold NoLineBreak; decide)

mutual
/-- The ordered tree of a node holds only scalars of the types that `astToOrdered`
builds. -/
theorem scalarsFromAst_node : ∀ n : Node, scalarsFromAst (astToOrderedNode n) = true
  | .MappingNode _ vs => by
    simp only [astToOrderedNode, scalarsFromAst]
    exact scalarsFromAst_entries vs
  | .MappingValue _ k v => by
    simp only [astToOrderedNode, scalarsFromAst, entriesFromAst, Bool.and_true]
    exact scalarsFromAst_option v
  | .SequenceNode _ vs => by
    simp only [astToOrderedNode, scalarsFromAst]
    exact scalarsFromAst_items vs
  | .TagNode _ v => by
    simp only [astToOrderedNode]
    exact scalarsFromAst_option v
  | .AnchorNode _ v => by
    simp only [astToOrderedNode]
    exact scalarsFromAst_option v
  | .AliasNode _ _ => by simp [astToOrderedNode, scalarsFromAst]
  | .NullNode _ => by simp [astToOrderedNode, scalarsFromAst]
  | .BoolNode _ _ => by simp [astToOrderedNode, scalarsFromAst]
  | .IntegerNode _ (.int64 _) => by simp [astToOrderedNode, scalarsFromAst]
  | .IntegerNode _ (.uint64 _) => by simp [astToOrderedNode, scalarsFromAst]
  | .FloatNode _ _ => by simp [astToOrderedNode, scalarsFromAst]
  | .StringNode _ _ => by simp [astToOrderedNode, scalarsFromAst]
  | .InfinityNode _ _ => by simp [astToOrderedNode, scalarsFromAst]
  | .NanNode _ _ => by simp [astToOrderedNode, scalarsFromAst]
  | .OtherNode _ _ => by simp [astToOrderedNode, scalarsFromAst]
/-- The same for a node that may be nil. -/
theorem scalarsFromAst_option : ∀ n : Option Node, scalarsFromAst (astToOrdered n) = true
  | none => by simp [astToOrdered, scalarsFromAst]
  | some n => by
    simp only [astToOrdered]
    exact scalarsFromAst_node n
/-- The same for the entries of a mapping node. -/
theorem scalarsFromAst_entries :
    ∀ vs : List MappingValueNode, entriesFromAst (astToOrderedEntries vs) = true
  | [] => by simp [astToOrderedEntries, entriesFromAst]
  | .mk _ (some k) v :: rest => by
    simp only [astToOrderedEntries, entriesFromAst, Bool.and_eq_true]
    exact ⟨scalarsFromAst_option v, scalarsFromAst_entries rest⟩
  | .mk _ none _ :: rest => by
    simp only [astToOrderedEntries]
    exact scalarsFromAst_entries rest
/-- The same for the items of a sequence node. -/
theorem scalarsFromAst_items : ∀ vs : List Node, itemsFromAst (astToOrderedItems vs) = true
  | [] => by simp [astToOrderedItems, itemsFromAst]
  | v :: rest => by
    simp only [astToOrderedItems, itemsFromAst, Bool.and_eq_true]
    exact ⟨scalarsFromAst_node v, scalarsFromAst_items rest⟩
end

theorem scalarsFromAst_documentRoot (file : File) : scalarsFromAst (documentRoot file) = true := by
  unfold documentRoot
  split
  · exact scalarsFromAst_option _
  · simp [scalarsFromAst]

theorem endsLine_append (a b : String) (hb : EndsLine b) : EndsLine (a ++ b) := by
  obtain ⟨r, c, hc, hdata⟩ := hb
  exact ⟨a.data ++ r, c, hc, by rw [String.data_append, hdata, List.append_assoc]⟩

theorem endsLine_of_line (t : String) (h : NoLineBreak t) :
    (t ++ "\n").data = ['\n'] ∨ EndsLine (t ++ "\n") := by
  have hn : ("\n" : String).data = ['\n'] := rfl
  rcases List.eq_nil_or_concat t.data with hnil | ⟨r, c, hrc⟩
  · left
    rw [String.data_append, hnil, hn]
    rfl
  · right
    refine ⟨r, c, ?_, ?_⟩
    · intro hcn
      apply h
      show '\n' ∈ t.data
      rw [hrc, ← hcn]
      simp
    · rw [String.data_append, hrc, hn]
      simp

theorem endsLine_after_blank (p out : String) (hp : ∃ r : List Char, p.data = r ++ [' '])
    (h : out.data = ['\n'] ∨ EndsLine out) : EndsLine (p ++ out) := by
  rcases h with h | h
  · obtain ⟨r, hr⟩ := hp
    exact ⟨r, ' ', by decide, by rw [String.data_append, hr, h]; simp⟩
  · exact endsLine_append p out h

theorem endsLine_scalar (lib : Lib) (v : Scalar) (showDefaults : Bool)
    (hquote : ∀ s, NoLineBreak (lib.Quote s)) (hfloat : ∀ f, NoLineBreak (lib.FormatFloat f))
    (hv : scalarsFromAst (.scalar v) = true) :
    NoLineBreak (renderScalar lib v showDefaults) := by
  apply noLineBreak_renderScalar lib v showDefaults hquote hfloat
  cases v <;> simp [keysOnOneLine, scalarsFromAst] at hv ⊢

theorem colon_blank : ∃ r : List Char, (": " : String).data = r ++ [' '] := ⟨[':'], rfl⟩

theorem dash_blank : ∃ r : List Char, ("- " : String).data = r ++ [' '] := ⟨['-'], rfl⟩

mutual
/-- The text of a value or of a sequence item is a line break alone or ends a line that
is not empty. -/
theorem endsLine_value (lib : Lib) (opts : CollapseOptions) (comments : CommentMap)
    (hquote : ∀ s, NoLineBreak (lib.Quote s)) (hfloat : ∀ f, NoLineBreak (lib.FormatFloat f)) :
    ∀ (v : Value) (path indent : String) (d : Int), scalarsFromAst v = true →
      ((renderValue lib opts comments v path indent d).data = ['\n'] ∨
        EndsLine (renderValue lib opts comments v path indent d)) ∧
      ((renderArrayItem lib opts comments v path indent d).data = ['\n'] ∨
        EndsLine (renderArrayItem lib opts comments v path indent d))
  | .scalar s, path, indent, d, hv => by
    simp only [renderValue, renderArrayItem]
    have := endsLine_of_line _ (endsLine_scalar lib s opts.ShowDefaults hquote hfloat hv)
    exact ⟨this, this⟩
  | .omap es, path, indent, d, hv => by
    have ih := endsLine_entries lib opts comments hquote hfloat es
    have hes : entriesFromAst es = true := by simpa [scalarsFromAst] using hv
    have hempty := endsLine_of_line "object (empty)" (by unfold NoLineBreak; decide)
    have hsum := endsLine_of_line _ (noLineBreak_summarizeOrderedMap es)
    simp only [renderValue, renderArrayItem]
    constructor
    · split
      · exact hempty
      · rename_i hlen
        split
        · exact hsum
        · right
          exact endsLine_append _ _ ((ih path indent d hes
            (by intro h; rw [h] at hlen; exact hlen rfl)).1)
    · split
      · exact hempty
      · rename_i hlen
        split
        · exact hsum
        · right
          exact (ih path (indent ++ "  ") d hes
            (by intro h; rw [h] at hlen; exact hlen rfl)).2.2
  | .slice xs, path, indent, d, hv => by
    have ih := endsLine_items lib opts comments hquote hfloat xs
    have hxs : itemsFromAst xs = true := by simpa [scalarsFromAst] using hv
    have hempty := endsLine_of_line "array (empty)" (by unfold NoLineBreak; decide)
    have hsum := endsLine_of_line _ (noLineBreak_summarizeArray xs)
    simp only [renderValue, renderArrayItem]
    constructor
    · split
      · exact hempty
      · rename_i hlen
        split
        · exact hsum
        · right
          exact endsLine_append _ _ (ih _ _ _ _ _ _ hxs
            (by intro h; rw [h] at hlen; exact hlen rfl))
    · split
      · exact hempty
      · rename_i hlen
        split
        · exact hsum
        · right
          exact endsLine_append _ _ (ih _ _ _ _ _ _ hxs
            (by intro h; rw [h] at hlen; exact hlen rfl))
/-- The text of the entries of a mapping that is not empty ends a line that is not
empty. -/
theorem endsLine_entries (lib : Lib) (opts : CollapseOptions) (comments : CommentMap)
    (hquote : ∀ s, NoLineBreak (lib.Quote s)) (hfloat : ∀ f, NoLineBreak (lib.FormatFloat f)) :
    ∀ (es : List orderedEntry) (path indent : String) (d : Int), entriesFromAst es = true →
      es ≠ [] →
      EndsLine (renderMap lib opts comments es path indent d) ∧
      EndsLine (renderInlineRest lib opts comments es path indent d) ∧
      EndsLine (renderInlineMap lib opts comments es path indent d)
  | [], path, indent, d, _, hne => absurd rfl hne
  | .mk k v :: rest, path, indent, d, hes, _ => by
    have hv : scalarsFromAst v = true ∧ entriesFromAst rest = true := by
      simpa [entriesFromAst] using hes
    have ihv := endsLine_value lib opts comments hquote hfloat v
    have ihr := endsLine_entries lib opts comments hquote hfloat rest path indent d hv.2
    simp only [renderMap, renderInlineRest, renderInlineMap]
    by_cases hrest : rest = []
    · subst hrest
      simp only [renderMap, renderInlineRest, String.append_empty]
      refine ⟨?_, ?_, ?_⟩
      · simp only [String.append_assoc]
        exact endsLine_append _ _ (endsLine_append _ _ (endsLine_append _ _
          (endsLine_after_blank _ _ colon_blank (ihv _ _ _ hv.1).1)))
      · simp only [String.append_assoc]
        exact endsLine_append _ _ (endsLine_append _ _
          (endsLine_after_blank _ _ colon_blank (ihv _ _ _ hv.1).1))
      · simp only [String.append_assoc]
        exact endsLine_append _ _ (endsLine_after_blank _ _ colon_blank (ihv _ _ _ hv.1).1)
    · have h := ihr hrest
      exact ⟨endsLine_append _ _ h.1, endsLine_append _ _ h.2.1, endsLine_append _ _ h.2.1⟩
/-- The text of the items of a sequence that is not empty ends a line that is not
empty. -/
theorem endsLine_items (lib : Lib) (opts : CollapseOptions) (comments : CommentMap)
    (hquote : ∀ s, NoLineBreak (lib.Quote s)) (hfloat : ∀ f, NoLineBreak (lib.FormatFloat f)) :
    ∀ (xs : List Value) (maxItems : Int) (len i : Nat) (path indent : String) (d : Int),
      itemsFromAst xs = true → xs ≠ [] →
      EndsLine (renderArrayLoop lib opts comments maxItems len xs i path indent d)
  | [], maxItems, len, i, path, indent, d, _, hne => absurd rfl hne
  | v :: rest, maxItems, len, i, path, indent, d, hxs, _ => by
    have hv : scalarsFromAst v = true ∧ itemsFromAst rest = true := by
      simpa [itemsFromAst] using hxs
    have ihv := endsLine_value lib opts comments hquote hfloat v
    have ihr := endsLine_items lib opts comments hquote hfloat rest maxItems len (i + 1) path
      indent d hv.2
    simp only [renderArrayLoop]
    split
    · refine ⟨(indent ++ "... and " ++ Itoa (wrapInt64 ((len : Int) - maxItems))).data ++
        " more item".data, 's', by decide, ?_⟩
      simp only [String.data_append]
      simp
    · by_cases hrest : rest = []
      · subst hrest
        simp only [renderArrayLoop, String.append_empty, String.append_assoc]
        exact endsLine_append _ _ (endsLine_after_blank _ _ dash_blank (ihv _ _ _ hv.1).2)
      · exact endsLine_append _ _ (ihr hrest)
end

theorem hasSuffix_trim_endsLine (t : String) (h : EndsLine t) :
    HasSuffix (TrimSuffix t "\n") "\n" = false := by
  obtain ⟨r, c, hc, hdata⟩ := h
  have ht : t = String.mk (r ++ [c]) ++ "\n" := by
    apply String.ext
    rw [String.data_append, hdata]
    simp
  rw [ht, TrimSuffix_append_newline]
  cases hs : HasSuffix (String.mk (r ++ [c])) "\n" with
  | false => rfl
  | true =>
    have := (HasSuffix_newline_iff _).1 hs
    simp at this
    exact absurd this hc

theorem hasSuffix_noLineBreak (t : String) (h : NoLineBreak t) : HasSuffix t "\n" = false := by
  cases hs : HasSuffix t "\n" with
  | false => rfl
  | true =>
    have hl := (HasSuffix_newline_iff _).1 hs
    exact absurd (List.mem_of_getLast?_eq_some hl) h

/-- The text returned for a parsed document does not end with a line break. -/
theorem output_has_no_final_line_break (lib : Lib) (data : String) (opts : CollapseOptions)
    (file : File) (hdepth : 1 ≤ opts.MaxDepth) (hparse : lib.ParseBytes data = .ok file)
    (hquote : ∀ s, NoLineBreak (lib.Quote s))
    (hfloat : ∀ f, NoLineBreak (lib.FormatFloat f)) :
    HasSuffix (CollapseYAML lib data opts).1 "\n" = false := by
  rw [collapse_of_parse lib data opts file (by omega) hparse]
  have hroot := scalarsFromAst_documentRoot file
  split
  · decide
  · generalize (if opts.ShowComments then extractComments file else CommentMap.empty) =
      comments
    cases hr : documentRoot file with
    | scalar s =>
      rw [hr] at hroot
      have hn := endsLine_scalar lib s opts.ShowDefaults hquote hfloat hroot
      simp only [renderNode]
      rw [TrimSuffix_noLineBreak _ hn]
      exact hasSuffix_noLineBreak _ hn
    | omap es =>
      rw [hr] at hroot
      simp only [renderNode]
      by_cases hes : es = []
      · subst hes
        simp only [renderMap]
        decide
      · exact hasSuffix_trim_endsLine _ ((endsLine_entries lib opts comments hquote hfloat es
          "" "" 0 (by simpa [scalarsFromAst] using hroot) hes).1)
    | slice xs =>
      rw [hr] at hroot
      simp only [renderNode, renderArray]
      by_cases hxs : xs = []
      · subst hxs
        simp only [renderArrayLoop]
        decide
      · exact hasSuffix_trim_endsLine _ (endsLine_items lib opts comments hquote hfloat xs
          _ _ _ _ _ _ (by simpa [scalarsFromAst] using hroot) hxs)

/-- C17 (amended): with `MaxDepth >= 1`, for every parsed document (and a library whose
`strconv.Quote` and `strconv.FormatFloat` return no line break), the text returned by
`CollapseYAML` does not end with a line break; and when the keys of the document are free
of line breaks, the text is a list of lines joined by single line breaks, each line
non-empty and free of line breaks, so it holds no empty line. -/
theorem collapse_output_lines (lib : Lib) (data : String) (opts : CollapseOptions)
    (file : File) (hdepth : 1 ≤ opts.MaxDepth) (hparse : lib.ParseBytes data = .ok file)
    (hquote : ∀ s, NoLineBreak (lib.Quote s))
    (hfloat : ∀ f, NoLineBreak (lib.FormatFloat f)) :
    HasSuffix (CollapseYAML lib data opts).1 "\n" = false ∧
    (keysOnOneLine (documentRoot file) = true →
      ∃ ls : List String, (∀ l ∈ ls, l ≠ "" ∧ NoLineBreak l) ∧
        (CollapseYAML lib data opts).1 = joinLines ls) := by
  refine ⟨output_has_no_final_line_break lib data opts file hdepth hparse hquote hfloat, ?_⟩
  intro hkeys
  obtain ⟨ls, h1, h2, _⟩ :=
    output_is_joined_lines lib data opts file hdepth hparse hkeys hquote hfloat
  exact ⟨ls, h1, h2⟩

/-- C17, witness: the document of `itemsText`, with comments on, and the document of
`blockKeyText`, whose key holds line breaks. -/
theorem collapse_output_lines_witness :
    (HasSuffix (CollapseYAML escapingLib itemsText ⟨4, 3, true, true⟩).1 "\n" = false ∧
      ∃ ls : List String, (∀ l ∈ ls, l ≠ "" ∧ NoLineBreak l) ∧
        (CollapseYAML escapingLib itemsText ⟨4, 3, true, true⟩).1 = joinLines ls) ∧
    HasSuffix (CollapseYAML blockKeyLib blockKeyText ⟨1, 3, true, false⟩).1 "\n" = false :=
  have h := collapse_output_lines escapingLib itemsText ⟨4, 3, true, true⟩
    ⟨[⟨some itemsBody⟩]⟩ (by decide) rfl escapingLib_quote_noLineBreak
    (fun _ => by show NoLineBreak "0.5"; unfold NoLineBreak; decide)
  ⟨⟨h.1, h.2 rfl⟩,
   (collapse_output_lines blockKeyLib blockKeyText ⟨1, 3, true, false⟩
    ⟨[⟨some blockKeyBody⟩]⟩ (by decide) rfl escapingLib_quote_noLineBreak
    (fun _ => by show NoLineBreak "0.5"; unfold NoLineBreak; decide)).1⟩

/-- C18: an item of a sequence that is a non-empty mapping at a depth below `MaxDepth`
(the item is at depth `depth + 1`) is written as the indentation, `- `, the first key
with its value on the same line, and then each later key, with its value, after the
indentation and two more blanks, that is, aligned with the first key; every value ends
with a line break, so each later key starts a line. At a depth that has reached
`MaxDepth` the item is written as `- ` and the one-line summary of the mapping. -/
theorem inline_mapping_item (lib : Lib) (opts : CollapseOptions) (comments : CommentMap)
    (e : orderedEntry) (es : List orderedEntry) (path indent : String) (depth : Int) :
    (depth + 1 < opts.MaxDepth →
      itemLine lib opts comments path indent depth (.omap (e :: es)) =
        indent ++ "- " ++ (e.key ++ ": " ++
          renderValue lib opts comments e.value (childPath path e.key) (indent ++ "  ")
            (depth + 1 + 1)) ++
        concatAll (es.map (fun x => indent ++ "  " ++ x.key ++ ": " ++
          renderValue lib opts comments x.value (childPath path x.key) (indent ++ "  ")
            (depth + 1 + 1)))) ∧
    (opts.MaxDepth ≤ depth + 1 →
      itemLine lib opts comments path indent depth (.omap (e :: es)) =
        indent ++ "- " ++ (summarizeOrderedMap (e :: es) ++ "\n")) ∧
    (∀ (v : Value) (p i : String) (d : Int),
      ∃ r, renderValue lib opts comments v p i d = r ++ "\n") := by
  refine ⟨?_, ?_, fun v p i d => (render_ends_with_line_break lib opts comments v p i d).1⟩
  · intro hd
    have hd2 : ¬ depth + 1 ≥ opts.MaxDepth := by omega
    cases e with
    | mk key value =>
      simp only [itemLine, renderArrayItem, List.length_cons, Nat.add_one_ne_zero, if_false,
        if_neg hd2, renderInlineMap, renderInlineRest_eq_concat, orderedEntry.key,
        orderedEntry.value]
      simp [String.append_assoc]
  · intro hd
    have hd2 : depth + 1 ≥ opts.MaxDepth := hd
    simp only [itemLine, renderArrayItem, List.length_cons, Nat.add_one_ne_zero, if_false,
      if_pos hd2]

/-- C19 (the code evaluated on a mapping under a sequence item): for the document
`items: [{name: app, config: {nested: value}}]` at `MaxDepth = 4` the text returned has
`nested: value` at the same indentation, four blanks, as its parent key `config`. In
general, for a key of a sequence item's mapping (`renderInlineMap`) whose value is an
expanded mapping, the lines of the children start with the indentation of the parent key
itself, whereas `renderMap` writes the children of an expanded mapping with two blanks
more than the parent key. -/
theorem inline_entry_children_not_indented (lib : Lib) (data : String) (file : File)
    (items : Int) (comments : CommentMap) (hitems : 0 ≤ items)
    (hparse : lib.ParseBytes data = .ok file)
    (hroot : documentRoot file = itemsTree)
    (happ : lib.ParseFloatOk "app" = false) (hvalue : lib.ParseFloatOk "value" = false) :
    CollapseYAML lib data ⟨4, items, true, false⟩ =
      ("items: \n  - name: app\n    config: \n    nested: value", true, none) ∧
    (∀ (opts : CollapseOptions) (key ckey : String) (cvalue : Value) (cs rest : List orderedEntry)
      (path indent : String) (depth : Int), depth + 1 < opts.MaxDepth →
      renderInlineRest lib opts comments (.mk key (.omap (.mk ckey cvalue :: cs)) :: rest)
        path indent depth =
        indent ++ key ++ ": " ++ "\n" ++
        (entryCommentLine opts comments cvalue (childPath (childPath path key) ckey) indent
            (depth + 1) ++
          indent ++ ckey ++ ": " ++
          renderValue lib opts comments cvalue (childPath (childPath path key) ckey)
            (indent ++ "  ") (depth + 1 + 1) ++
          renderMap lib opts comments cs (childPath path key) indent (depth + 1)) ++
        renderInlineRest lib opts comments rest path indent depth) ∧
    (∀ (opts : CollapseOptions) (key ckey : String) (cvalue : Value) (cs rest : List orderedEntry)
      (path indent : String) (depth : Int), depth + 1 < opts.MaxDepth →
      renderMap lib opts comments (.mk key (.omap (.mk ckey cvalue :: cs)) :: rest)
        path indent depth =
        entryCommentLine opts comments (.omap (.mk ckey cvalue :: cs)) (childPath path key)
          indent depth ++
        indent ++ key ++ ": " ++ "\n" ++
        (entryCommentLine opts comments cvalue (childPath (childPath path key) ckey)
            (indent ++ "  ") (depth + 1) ++
          (indent ++ "  ") ++ ckey ++ ": " ++
          renderValue lib opts comments cvalue (childPath (childPath path key) ckey)
            (indent ++ "  " ++ "  ") (depth + 1 + 1) ++
          renderMap lib opts comments cs (childPath path key) (indent ++ "  ") (depth + 1)) ++
        renderMap lib opts comments rest path indent depth) := by
  have hq1 := needsQuoting_plain lib "app" (Or.inl rfl) happ
  have hq2 := needsQuoting_plain lib "value" (Or.inr rfl) hvalue
  refine ⟨?_, ?_, ?_⟩
  · have hmax : ¬ ((0 : Nat) : Int) ≥ arrayMaxItems ⟨4, items, true, false⟩
        [.omap [.mk "name" (.scalar (.str "app")),
          .mk "config" (.omap [.mk "nested" (.scalar (.str "value"))])]] := by
      show ¬ ((0 : Nat) : Int) ≥ (if items = 0 then ((1 : Nat) : Int) else items)
      split <;> omega
    simp only [CollapseYAML, hparse, hroot]
    simp only [itemsTree, renderNode, renderMap, renderValue, renderArrayLoop, if_neg hmax]
    simp [Value.isNil, renderArrayLoop,
      renderArrayItem, renderInlineMap, renderInlineRest, renderMap, renderValue,
      entryCommentLine, childPath, renderScalar, formatScalar, hq1, hq2]
    decide
  · intro opts key ckey cvalue cs rest path indent depth hd
    have hd2 : ¬ depth + 1 ≥ opts.MaxDepth := by omega
    simp only [renderInlineRest, renderValue, renderMap, List.length_cons, Nat.add_one_ne_zero,
      if_false, if_neg hd2]
    simp only [String.append_assoc]
  · intro opts key ckey cvalue cs rest path indent depth hd
    have hd2 : ¬ depth + 1 ≥ opts.MaxDepth := by omega
    simp only [renderMap, renderValue, List.length_cons, Nat.add_one_ne_zero,
      if_false, if_neg hd2]
    simp only [String.append_assoc]

/-- The document of `itemsText` at `MaxDepth = 4`. -/
theorem inline_entry_children_not_indented_witness :
    CollapseYAML escapingLib itemsText ⟨4, 3, true, false⟩ =
      ("items: \n  - name: app\n    config: \n    nested: value", true, none) :=
  (inline_entry_children_not_indented escapingLib itemsText ⟨[⟨some itemsBody⟩]⟩ 3
    CommentMap.empty (by decide) rfl rfl rfl rfl).1

/-- C20, counterexample: for the malformed values document of
`TestCollapseYAML_InvalidYAML` the handler returns the error `processing values: ...`,
which is neither a successful result nor the error that names the size and the limit. -/
theorem unparseable_values_error :
    getValues sampleLib "1.0.0" "" invalidText "" ⟨2, 3, true, false⟩ =
      .error "processing values: parsing YAML: syntax error" ∧
    ¬ (∀ (lib : Lib) (version path data schemaStr : String) (opts : CollapseOptions),
      (∃ out, getValues lib version path data schemaStr opts = .ok out ∧
        len out.Values + len out.Schema ≤ MaxResponseBytes) ∨
      (∃ (size : Nat) (depth : Int), getValues lib version path data schemaStr opts =
        .error (sizeErrorText size MaxResponseBytes depth))) := by
  have h1 : getValues sampleLib "1.0.0" "" invalidText "" ⟨2, 3, true, false⟩ =
      .error "processing values: parsing YAML: syntax error" := rfl
  refine ⟨h1, ?_⟩
  intro h
  rcases h sampleLib "1.0.0" "" invalidText "" ⟨2, 3, true, false⟩ with
    ⟨out, hout, _⟩ | ⟨size, depth, herr⟩
  · rw [h1] at hout
    cases hout
  · rw [h1] at herr
    obtain ⟨rest, hrest⟩ := sizeErrorText_data size MaxResponseBytes depth
    have hdata := congrArg String.data (Except.error.inj herr)
    rw [hrest] at hdata
    cases hdata

/-- C20 (amended): whenever the handler returns a successful result, the byte length of
the returned values text plus that of the returned schema is at most `MaxResponseBytes`
(40,000), the schema is returned unchanged, and the text and the flag are the complete
result of one call of `CollapseYAML` on the data, at the requested depth or at a smaller
depth that is at least 1. Otherwise the handler returns either the error
`processing values: ...` of a call of `CollapseYAML` that failed, or, when the output of
the last call exceeds the limit at a depth of at most 1, the error that names the size,
the limit and that depth and suggests the path parameter. -/
theorem getValues_within_budget (lib : Lib) (version path data schemaStr : String)
    (opts : CollapseOptions) :
    (∀ out, getValues lib version path data schemaStr opts = .ok out →
      len out.Values + len out.Schema ≤ MaxResponseBytes ∧
      out.Schema = schemaStr ∧ out.Version = version ∧ out.Path = path ∧
      ∃ d : Int, d ≤ opts.MaxDepth ∧ (d = opts.MaxDepth ∨ 1 ≤ d) ∧
        CollapseYAML lib data { opts with MaxDepth := d } =
          (out.Values, out.Collapsed, none)) ∧
    (∀ msg, getValues lib version path data schemaStr opts = .error msg →
      (∃ (d : Int) (e : String), d ≤ opts.MaxDepth ∧ (d = opts.MaxDepth ∨ 1 ≤ d) ∧
        (CollapseYAML lib data { opts with MaxDepth := d }).2.2 = some e ∧
        msg = "processing values: " ++ e) ∨
      (∃ (d : Int) (text : String) (c : Bool), d ≤ opts.MaxDepth ∧ (d = opts.MaxDepth ∨ d = 1) ∧
        d ≤ 1 ∧ CollapseYAML lib data { opts with MaxDepth := d } = (text, c, none) ∧
        MaxResponseBytes < len text + len schemaStr ∧
        msg = sizeErrorText (len text + len schemaStr) MaxResponseBytes d)) ∧
    MaxResponseBytes = 40000 := by
  refine ⟨?_, ?_, by decide⟩
  · intro out hout
    unfold getValues at hout
    rcases hcall : CollapseYAML lib data opts with ⟨result, collapsed, err⟩
    rw [hcall] at hout
    cases err with
    | some e => simp at hout
    | none =>
      simp only at hout
      rcases reduceDepthLoop_exit lib data schemaStr opts.MaxDepth.toNat opts result collapsed
        (by omega) hcall with ⟨d, e, _, _, _, hres⟩ | ⟨d, r, c, hd1, hd2, hcall2, hexit, hres⟩
      · rw [hres] at hout
        simp at hout
      · rw [hres] at hout
        simp only at hout
        split at hout
        · simp at hout
        · rename_i hsize
          have hout2 := Except.ok.inj hout
          subst hout2
          exact ⟨by simpa using hsize, rfl, rfl, rfl, d, hd1, hd2, hcall2⟩
  · intro msg hmsg
    unfold getValues at hmsg
    rcases hcall : CollapseYAML lib data opts with ⟨result, collapsed, err⟩
    rw [hcall] at hmsg
    cases err with
    | some e =>
      simp only at hmsg
      left
      refine ⟨opts.MaxDepth, e, le_refl _, Or.inl rfl, by rw [hcall], (Except.error.inj hmsg).symm⟩
    | none =>
      simp only at hmsg
      rcases reduceDepthLoop_exit lib data schemaStr opts.MaxDepth.toNat opts result collapsed
        (by omega) hcall with ⟨d, e, hd1, hd2, he, hres⟩ | ⟨d, r, c, hd1, hd2, hcall2, hexit, hres⟩
      · rw [hres] at hmsg
        left
        exact ⟨d, e, hd1, Or.inr hd2, he, (Except.error.inj hmsg).symm⟩
      · rw [hres] at hmsg
        simp only at hmsg
        split at hmsg
        · rename_i hsize
          right
          have hd3 : d ≤ 1 := by
            by_contra hgt
            exact hexit ⟨hsize, by omega⟩
          refine ⟨d, r, c, hd1, ?_, hd3, hcall2, hsize, (Except.error.inj hmsg).symm⟩
          rcases hd2 with h | h
          · exact Or.inl h
          · exact Or.inr (by omega)
        · simp at hmsg

/-! ## Lemmas for the comment, key, host and depth claims -/

theorem isSchemaMarker_empty : isSchemaMarker "" = false := by decide

theorem firstCommentLineLoop_cons (line : String) (rest : List String) (b : Bool) :
    firstCommentLineLoop (line :: rest) b =
      if cleanCommentLine line = "" then firstCommentLineLoop rest b
      else if isSchemaMarker (cleanCommentLine line) = true then firstCommentLineLoop rest (!b)
      else if b = true then firstCommentLineLoop rest b
      else TrimPrefix (cleanCommentLine line) "-- " := by
  rw [firstCommentLineLoop]
  rfl

theorem firstCommentLineLoop_spec :
    ∀ (rest : List String) (b : Bool),
      (∀ i l, (rest.map cleanCommentLine)[i]? = some l →
        isDescriptionLine b (rest.map cleanCommentLine) i = true →
        (∀ j, j < i → isDescriptionLine b (rest.map cleanCommentLine) j = false) →
        firstCommentLineLoop rest b = TrimPrefix l "-- ") ∧
      ((∀ i, isDescriptionLine b (rest.map cleanCommentLine) i = false) →
        firstCommentLineLoop rest b = "")
  | [], b => by
    constructor
    · intro i l hl
      simp at hl
    · intro _
      rfl
  | line :: rest, b => by
    have ih := firstCommentLineLoop_spec rest
    have hstep : ∀ i, isDescriptionLine b ((line :: rest).map cleanCommentLine) (i + 1) =
        isDescriptionLine (if isSchemaMarker (cleanCommentLine line) then !b else b)
          (rest.map cleanCommentLine) i := by
      intro i
      simp [isDescriptionLine, schemaFlag]
    have hzero : isDescriptionLine b ((line :: rest).map cleanCommentLine) 0 =
        (cleanCommentLine line != "" && !isSchemaMarker (cleanCommentLine line) && !b) := by
      simp [isDescriptionLine, schemaFlag]
    have hloop : isDescriptionLine b ((line :: rest).map cleanCommentLine) 0 = false →
        firstCommentLineLoop (line :: rest) b =
          firstCommentLineLoop rest
            (if isSchemaMarker (cleanCommentLine line) then !b else b) := by
      intro h0
      rw [hzero] at h0
      rw [firstCommentLineLoop_cons]
      by_cases hc : cleanCommentLine line = ""
      · rw [if_pos hc, hc, isSchemaMarker_empty]
        simp
      · rw [if_neg hc]
        by_cases hm : isSchemaMarker (cleanCommentLine line) = true
        · rw [if_pos hm, if_pos hm]
        · rw [if_neg hm, if_neg hm]
          have hb : b = true := by
            cases b
            · simp [hc, hm] at h0
            · rfl
          rw [if_pos hb]
    constructor
    · intro i l hl hq hmin
      cases i with
      | zero =>
        rw [hzero] at hq
        simp at hl
        simp at hq
        rw [firstCommentLineLoop_cons, if_neg hq.1.1, if_neg (by simp [hq.1.2]),
          if_neg (by simp [hq.2]), hl]
      | succ i =>
        rw [hloop (hmin 0 (by omega))]
        refine (ih _).1 i l (by simpa using hl) (by rw [← hstep]; exact hq) ?_
        intro j hj
        rw [← hstep]
        exact hmin (j + 1) (by omega)
    · intro hnone
      rw [hloop (hnone 0)]
      refine (ih _).2 ?_
      intro i
      rw [← hstep]
      exact hnone (i + 1)

theorem entryKeys_astToOrderedEntries (vs : List MappingValueNode) :
    entryKeys (astToOrderedEntries vs) = (sourceKeyTexts vs).map unquoteKey := by
  induction vs with
  | nil => simp [astToOrderedEntries, entryKeys, sourceKeyTexts]
  | cons v rest ih =>
    cases v with
    | mk c k val =>
      cases k with
      | none =>
        simp only [astToOrderedEntries]
        rw [ih]
        simp [sourceKeyTexts, MappingValueNode.Key]
      | some k =>
        simp only [astToOrderedEntries]
        have : entryKeys (orderedEntry.mk (unquoteKey k.text) (astToOrdered val) ::
            astToOrderedEntries rest) =
            unquoteKey k.text :: entryKeys (astToOrderedEntries rest) := rfl
        rw [this, ih]
        simp [sourceKeyTexts, MappingValueNode.Key]

theorem digitChar_toNat (k : Nat) (hk : k < 10) :
    (Nat.digitChar k).toNat - 48 = k ∧ Nat.digitChar k ≠ ':' := by
  interval_cases k <;> decide

/-- The number read from a list of decimal digits. -/
theorem toDigitsCore_decode (fuel : Nat) :
    ∀ (n : Nat) (ds : List Char), n < fuel →
      ∃ pre : List Char, Nat.toDigitsCore 10 fuel n ds = pre ++ ds ∧
        pre.foldl (fun a c => 10 * a + (c.toNat - 48)) 0 = n ∧ ∀ c ∈ pre, c ≠ ':' := by
  induction fuel with
  | zero => intro n ds h; omega
  | succ fuel ih =>
    intro n ds hn
    have hd := digitChar_toNat (n % 10) (Nat.mod_lt _ (by decide))
    rw [Nat.toDigitsCore]
    by_cases h0 : n / 10 = 0
    · simp only [h0, if_true]
      refine ⟨[Nat.digitChar (n % 10)], rfl, ?_, ?_⟩
      · simp only [List.foldl]
        rw [hd.1]
        omega
      · intro c hc
        simp at hc
        rw [hc]
        exact hd.2
    · simp only [h0, if_false]
      obtain ⟨pre, hpre, hval, hno⟩ := ih (n / 10) (Nat.digitChar (n % 10) :: ds) (by omega)
      refine ⟨pre ++ [Nat.digitChar (n % 10)], by rw [hpre]; simp, ?_, ?_⟩
      · rw [List.foldl_append, hval]
        simp only [List.foldl]
        rw [hd.1]
        omega
      · intro c hc
        rcases List.mem_append.mp hc with h | h
        · exact hno c h
        · simp at h
          rw [h]
          exact hd.2

theorem natRepr_decode (n : Nat) :
    (Nat.repr n).data.foldl (fun a c => 10 * a + (c.toNat - 48)) 0 = n ∧
      ∀ c ∈ (Nat.repr n).data, c ≠ ':' := by
  obtain ⟨pre, hpre, hval, hno⟩ := toDigitsCore_decode (n + 1) n [] (by omega)
  have : (Nat.repr n).data = pre := by
    show (Nat.toDigits 10 n).asString.data = pre
    rw [Nat.toDigits, hpre]
    simp [List.asString]
  rw [this]
  exact ⟨hval, hno⟩

theorem natRepr_injective (n m : Nat) (h : Nat.repr n = Nat.repr m) : n = m := by
  rw [← (natRepr_decode n).1, ← (natRepr_decode m).1, h]

theorem split_at_separator (sep : Char) :
    ∀ (d1 d2 x1 x2 : List Char), sep ∉ d1 → sep ∉ d2 →
      d1 ++ sep :: x1 = d2 ++ sep :: x2 → d1 = d2 ∧ x1 = x2
  | [], [], x1, x2, _, _, h => by
    simp at h
    exact ⟨rfl, h⟩
  | [], c :: d2, x1, x2, _, h2, h => by
    simp at h
    exact absurd h.1 (by intro hc; exact h2 (by rw [hc]; simp))
  | c :: d1, [], x1, x2, h1, _, h => by
    simp at h
    exact absurd h.1 (by intro hc; exact h1 (by rw [← hc]; simp))
  | c :: d1, e :: d2, x1, x2, h1, h2, h => by
    simp at h
    obtain ⟨hd, htl⟩ := split_at_separator sep d1 d2 x1 x2
      (fun hm => h1 (List.mem_cons_of_mem _ hm)) (fun hm => h2 (List.mem_cons_of_mem _ hm)) h.2
    exact ⟨by rw [h.1, hd], htl⟩

theorem utf8Len_eq_zero (l : List Char) (h : String.utf8Len l = 0) : l = [] := by
  cases l with
  | nil => rfl
  | cons c cs =>
    have := Char.utf8Size_pos c
    simp at h
    omega

theorem split_at_byte_length (r1 r2 : String) (y1 y2 : List Char)
    (hlen : len r1 = len r2) (h : r1.data ++ y1 = r2.data ++ y2) : r1 = r2 ∧ y1 = y2 := by
  have hl : String.utf8Len r1.data = String.utf8Len r2.data := hlen
  rcases List.append_eq_append_iff.mp h with ⟨a, h1, h2⟩ | ⟨a, h1, h2⟩
  · rw [h1, String.utf8Len_append] at hl
    have ha : a = [] := utf8Len_eq_zero a (by omega)
    subst ha
    simp at h1 h2
    exact ⟨String.ext h1.symm, h2⟩
  · rw [h1, String.utf8Len_append] at hl
    have ha : a = [] := utf8Len_eq_zero a (by omega)
    subst ha
    simp at h1 h2
    exact ⟨String.ext h1, h2.symm⟩

theorem makeChartKey_data (r c v : String) :
    (makeChartKey r c v).data =
      (Nat.repr (len r)).data ++ ':' :: (r.data ++
        ((Nat.repr (len c)).data ++ ':' :: (c.data ++ v.data))) := by
  simp [makeChartKey, Itoa_natCast, String.data_append]

theorem hasPrefixChars_iff : ∀ (s p : List Char),
    hasPrefixChars s p = true ↔ ∃ r, s = p ++ r
  | s, [] => by simp [hasPrefixChars]
  | [], p :: ps => by simp [hasPrefixChars]
  | c :: s, p :: ps => by
    simp only [hasPrefixChars, Bool.and_eq_true, beq_iff_eq, List.cons_append, List.cons.injEq,
      hasPrefixChars_iff s ps]
    constructor
    · rintro ⟨h1, r, h2⟩
      exact ⟨r, h1, h2⟩
    · rintro ⟨r, h1, h2⟩
      exact ⟨h1, r, h2⟩

theorem HasSuffix_iff (s t : String) : HasSuffix s t = true ↔ ∃ pre : String, s = pre ++ t := by
  unfold HasSuffix
  rw [hasPrefixChars_iff]
  constructor
  · rintro ⟨r, h⟩
    refine ⟨String.mk r.reverse, String.ext ?_⟩
    have := congrArg List.reverse h
    simpa using this
  · rintro ⟨pre, h⟩
    refine ⟨pre.data.reverse, ?_⟩
    rw [h]
    simp

theorem TrimPrefix_dot (p : String) :
    (HasPrefix p "." = true → p = "." ++ TrimPrefix p ".") ∧
    (HasPrefix p "." = false → TrimPrefix p "." = p) := by
  constructor
  · intro h
    have h2 := h
    unfold HasPrefix at h2
    rw [hasPrefixChars_iff] at h2
    obtain ⟨r, hr⟩ := h2
    unfold TrimPrefix
    rw [if_pos h]
    apply String.ext
    rw [String.data_append, hr]
    simp
  · intro h
    unfold TrimPrefix
    rw [if_neg (by simp [h])]

theorem matchesHostListLoop_iff (lower : String → String) (host : String) :
    ∀ patterns : List String,
      matchesHostListLoop lower host patterns = true ↔
        ∃ p ∈ patterns, patternMatches host (lower (TrimSpace p))
  | [] => by simp [matchesHostListLoop]
  | pattern :: rest => by
    have ih := matchesHostListLoop_iff lower host rest
    have hsuf : ∀ q : String, HasSuffix host ("." ++ q) = true ↔
        ∃ pre : String, host = pre ++ "." ++ q := by
      intro q
      rw [HasSuffix_iff]
      simp only [String.append_assoc]
    have hhead : (matchesHostListLoop lower host (pattern :: rest) = true) ↔
        (patternMatches host (lower (TrimSpace pattern)) ∨
          matchesHostListLoop lower host rest = true) := by
      rw [matchesHostListLoop]
      by_cases h1 : lower (TrimSpace pattern) = ""
      · rw [if_pos h1]
        simp [patternMatches, h1]
      · rw [if_neg h1]
        by_cases h2 : lower (TrimSpace pattern) = "*"
        · rw [if_pos h2]
          simp [patternMatches, h2]
        · rw [if_neg h2]
          by_cases h3 : HasPrefix (lower (TrimSpace pattern)) "." = true
          · rw [if_pos h3]
            have hp := (TrimPrefix_dot (lower (TrimSpace pattern))).1 h3
            have hs : HasSuffix host (lower (TrimSpace pattern)) = true ↔
                ∃ pre : String, host = pre ++ "." ++ TrimPrefix (lower (TrimSpace pattern)) "." := by
              rw [← hsuf, ← hp]
            by_cases h4 : host = TrimPrefix (lower (TrimSpace pattern)) "." ∨
                HasSuffix host (lower (TrimSpace pattern)) = true
            · rw [if_pos h4]
              simp only [true_iff]
              left
              refine ⟨h1, Or.inr ?_⟩
              rcases h4 with h | h
              · exact Or.inl h
              · exact Or.inr (hs.mp h)
            · rw [if_neg h4]
              constructor
              · intro h
                exact Or.inr h
              · rintro (⟨_, h | h | h⟩ | h)
                · exact absurd h h2
                · exact absurd (Or.inl h) h4
                · exact absurd (Or.inr (hs.mpr h)) h4
                · exact h
          · rw [if_neg h3]
            have hp := (TrimPrefix_dot (lower (TrimSpace pattern))).2 (by simpa using h3)
            by_cases h4 : host = lower (TrimSpace pattern) ∨
                HasSuffix host ("." ++ lower (TrimSpace pattern)) = true
            · rw [if_pos h4]
              simp only [true_iff]
              left
              refine ⟨h1, Or.inr ?_⟩
              rw [hp]
              rcases h4 with h | h
              · exact Or.inl h
              · exact Or.inr ((hsuf _).mp h)
            · rw [if_neg h4]
              constructor
              · intro h
                exact Or.inr h
              · rintro (⟨_, h | h | h⟩ | h)
                · exact absurd h h2
                · rw [hp] at h
                  exact absurd (Or.inl h) h4
                · rw [hp] at h
                  exact absurd (Or.inr ((hsuf _).mpr h)) h4
                · exact h
    rw [hhead, ih]
    simp

theorem ToLower_eq_empty (s : String) : ToLower s = "" ↔ s = "" := by
  unfold ToLower
  constructor
  · intro h
    have := congrArg String.data h
    simp at this
    exact String.ext this
  · intro h
    rw [h]
    rfl

theorem collapse_no_error_of_parse (lib : Lib) (data : String) (opts : CollapseOptions)
    (file : File) (hparse : lib.ParseBytes data = .ok file) (hd : opts.MaxDepth ≠ 0) :
    CollapseYAML lib data opts =
      ((CollapseYAML lib data opts).1, (CollapseYAML lib data opts).2.1, none) := by
  rw [collapse_of_parse lib data opts file hd hparse]
  split <;> rfl

theorem collapse_error_of_parse (lib : Lib) (data : String) (opts : CollapseOptions)
    (err : String) (hparse : lib.ParseBytes data = .error err) (hd : opts.MaxDepth ≠ 0) :
    CollapseYAML lib data opts = ("", false, some ("parsing YAML: " ++ err)) := by
  simp [CollapseYAML, hd, hparse]

/-- The depth-reduction loop on a document that parses: it stops at a depth `d` between
1 and the depth it started from, every depth above `d` exceeds the limit, and `d` fits
or is 1. -/
theorem reduceDepthLoop_largest (lib : Lib) (data schemaStr : String) (file : File)
    (hparse : lib.ParseBytes data = .ok file) :
    ∀ (fuel : Nat) (opts : CollapseOptions), 1 ≤ opts.MaxDepth →
      (opts.MaxDepth - 1).toNat ≤ fuel →
      ∃ d : Int, 1 ≤ d ∧ d ≤ opts.MaxDepth ∧
        (∀ d2, d < d2 → d2 ≤ opts.MaxDepth → ¬ fitsAt lib data schemaStr opts d2) ∧
        (fitsAt lib data schemaStr opts d ∨ d = 1) ∧
        reduceDepthLoop lib data schemaStr fuel opts (CollapseYAML lib data opts).1
            (CollapseYAML lib data opts).2.1 =
          .ok ({ opts with MaxDepth := d },
            (CollapseYAML lib data { opts with MaxDepth := d }).1,
            (CollapseYAML lib data { opts with MaxDepth := d }).2.1) := by
  intro fuel
  induction fuel with
  | zero =>
    intro opts h1 hfuel
    have hD : opts.MaxDepth = 1 := by omega
    refine ⟨opts.MaxDepth, h1, le_refl _, fun d2 h2 h3 => by omega, Or.inr hD, rfl⟩
  | succ fuel ih =>
    intro opts h1 hfuel
    by_cases hcond : len (CollapseYAML lib data opts).1 + len schemaStr > MaxResponseBytes ∧
        opts.MaxDepth > 1
    · rw [reduceDepthLoop, if_pos hcond]
      have hcall := collapse_no_error_of_parse lib data
        { opts with MaxDepth := opts.MaxDepth - 1 } file hparse
        (by show opts.MaxDepth - 1 ≠ 0; omega)
      rw [hcall]
      simp only
      obtain ⟨d, hd1, hd2, hd3, hd4, hres⟩ := ih { opts with MaxDepth := opts.MaxDepth - 1 }
        (by show 1 ≤ opts.MaxDepth - 1; omega)
        (by show (opts.MaxDepth - 1 - 1).toNat ≤ fuel; omega)
      have hd2b : d ≤ opts.MaxDepth - 1 := hd2
      refine ⟨d, hd1, by omega, ?_, hd4, hres⟩
      intro d2 h2 h3
      by_cases hlast : d2 = opts.MaxDepth
      · subst hlast
        intro hfit
        have : len (CollapseYAML lib data opts).1 + len schemaStr ≤ MaxResponseBytes := hfit
        omega
      · exact hd3 d2 h2 (by show d2 ≤ opts.MaxDepth - 1; omega)
    · rw [reduceDepthLoop, if_neg hcond]
      refine ⟨opts.MaxDepth, h1, le_refl _, fun d2 h2 h3 => by omega, ?_, rfl⟩
      by_cases hD : opts.MaxDepth = 1
      · exact Or.inr hD
      · left
        show len (CollapseYAML lib data opts).1 + len schemaStr ≤ MaxResponseBytes
        have : ¬ len (CollapseYAML lib data opts).1 + len schemaStr > MaxResponseBytes := by
          intro h
          exact hcond ⟨h, by omega⟩
        omega

/-- More fuel than `MaxDepth - 1` does not change the result of the depth-reduction loop:
the loop runs its body at most `MaxDepth - 1` times. -/
theorem reduceDepthLoop_fuel (lib : Lib) (data schemaStr : String) :
    ∀ (fuel : Nat) (opts : CollapseOptions) (result : String) (collapsed : Bool),
      (opts.MaxDepth - 1).toNat ≤ fuel →
      reduceDepthLoop lib data schemaStr fuel opts result collapsed =
        reduceDepthLoop lib data schemaStr (opts.MaxDepth - 1).toNat opts result collapsed := by
  intro fuel
  induction fuel with
  | zero =>
    intro opts result collapsed h
    have : (opts.MaxDepth - 1).toNat = 0 := by omega
    rw [this]
  | succ fuel ih =>
    intro opts result collapsed h
    by_cases hcond : len result + len schemaStr > MaxResponseBytes ∧ opts.MaxDepth > 1
    · obtain ⟨k, hk⟩ : ∃ k, (opts.MaxDepth - 1).toNat = k + 1 := ⟨(opts.MaxDepth - 2).toNat, by omega⟩
      rw [hk, reduceDepthLoop, reduceDepthLoop, if_pos hcond, if_pos hcond]
      rcases hcall : CollapseYAML lib data { opts with MaxDepth := opts.MaxDepth - 1 } with
        ⟨r, c, err⟩
      cases err with
      | some e => rfl
      | none =>
        simp only
        have hk2 : ((opts.MaxDepth - 1) - 1).toNat = k := by omega
        rw [ih { opts with MaxDepth := opts.MaxDepth - 1 } r c
          (by show (opts.MaxDepth - 1 - 1).toNat ≤ fuel; omega)]
        show reduceDepthLoop lib data schemaStr (opts.MaxDepth - 1 - 1).toNat _ r c = _
        rw [hk2]
    · cases hf : (opts.MaxDepth - 1).toNat with
      | zero => simp only [reduceDepthLoop, if_neg hcond]
      | succ k => simp only [reduceDepthLoop, if_neg hcond]

theorem index_path_ne_empty (path : String) (i : Nat) :
    (path ++ "[" ++ Itoa (i : Int) ++ "]" : String) ≠ "" := by
  intro h
  have hdata := congrArg String.data h
  simp only [String.append_assoc, String.data_append] at hdata
  simp at hdata

theorem childPath_index_ne (path key : String) (i : Nat) :
    childPath (path ++ "[" ++ Itoa i ++ "]") key ≠ childPath path key := by
  unfold childPath
  rw [if_pos (index_path_ne_empty path i)]
  by_cases hp : path = ""
  · subst hp
    rw [if_neg (by simp)]
    intro h
    have hlen := congrArg String.length h
    simp only [String.length_append] at hlen
    have h2 : ("[" : String).length = 1 := rfl
    omega
  · rw [if_pos hp]
    intro h
    have hdata := congrArg String.data h
    simp only [String.append_assoc, String.data_append, List.append_cancel_left_eq] at hdata
    simp at hdata

theorem summarizeOrderedMap_head (es : List orderedEntry) :
    ∃ rest, (summarizeOrderedMap es).data = 'o' :: rest := by
  unfold summarizeOrderedMap
  split
  · exact ⟨_, rfl⟩
  · exact ⟨_, rfl⟩
  · simp only [String.append_assoc, String.data_append]
    exact ⟨_, rfl⟩

theorem summarizeArray_head (xs : List Value) :
    ∃ rest, (summarizeArray xs).data = 'a' :: rest := by
  unfold summarizeArray
  split
  · exact ⟨_, rfl⟩
  · exact ⟨_, rfl⟩
  · simp only [String.append_assoc, String.data_append]
    exact ⟨_, rfl⟩

mutual
/-- The renderer of a value and of a sequence item does not fail. -/
theorem checked_value (lib : Lib) (opts : CollapseOptions) (comments : CommentMap) :
    ∀ (v : Value) (path indent : String) (d : Int),
      renderValueChecked lib opts comments v path indent d =
        some (renderValue lib opts comments v path indent d) ∧
      renderArrayItemChecked lib opts comments v path indent d =
        some (renderArrayItem lib opts comments v path indent d)
  | .scalar s, path, indent, d => by
    simp [renderValueChecked, renderArrayItemChecked, renderValue, renderArrayItem]
  | .omap es, path, indent, d => by
    have ih := checked_entries lib opts comments es
    simp only [renderValueChecked, renderArrayItemChecked, renderValue, renderArrayItem]
    constructor
    · split
      · rfl
      · split
        · rfl
        · rw [(ih path indent d).1]
    · split
      · rfl
      · rename_i hlen
        split
        · rfl
        · exact (ih path (indent ++ "  ") d).2.2 (by intro h; rw [h] at hlen; exact hlen rfl)
  | .slice xs, path, indent, d => by
    have ih := checked_items lib opts comments xs
    simp only [renderValueChecked, renderArrayItemChecked, renderValue, renderArrayItem]
    constructor
    · split
      · rfl
      · split
        · rfl
        · rw [ih]
    · split
      · rfl
      · split
        · rfl
        · rw [ih]
/-- The renderer of the entries of a mapping does not fail; the inline form does not
fail on a mapping that has an entry. -/
theorem checked_entries (lib : Lib) (opts : CollapseOptions) (comments : CommentMap) :
    ∀ (es : List orderedEntry) (path indent : String) (d : Int),
      renderMapChecked lib opts comments es path indent d =
        some (renderMap lib opts comments es path indent d) ∧
      renderInlineRestChecked lib opts comments es path indent d =
        some (renderInlineRest lib opts comments es path indent d) ∧
      (es ≠ [] → renderInlineMapChecked lib opts comments es path indent d =
        some (renderInlineMap lib opts comments es path indent d))
  | [], path, indent, d => by
    simp [renderMapChecked, renderInlineRestChecked, renderMap, renderInlineRest]
  | .mk k v :: rest, path, indent, d => by
    have ihr := checked_entries lib opts comments rest path indent d
    have ihv := checked_value lib opts comments v
    simp only [renderMapChecked, renderInlineRestChecked, renderInlineMapChecked, renderMap,
      renderInlineRest, renderInlineMap]
    refine ⟨?_, ?_, fun _ => ?_⟩
    · rw [(ihv _ _ _).1, ihr.1]
    · rw [(ihv _ _ _).1, ihr.2.1]
    · rw [(ihv _ _ _).1, ihr.2.1]
/-- The renderer of the items of a sequence does not fail. -/
theorem checked_items (lib : Lib) (opts : CollapseOptions) (comments : CommentMap) :
    ∀ (xs : List Value) (maxItems : Int) (len i : Nat) (path indent : String) (d : Int),
      renderArrayLoopChecked lib opts comments maxItems len xs i path indent d =
        some (renderArrayLoop lib opts comments maxItems len xs i path indent d)
  | [], maxItems, len, i, path, indent, d => by
    simp [renderArrayLoopChecked, renderArrayLoop]
  | v :: rest, maxItems, len, i, path, indent, d => by
    have ihr := checked_items lib opts comments rest maxItems len (i + 1) path indent d
    have ihv := checked_value lib opts comments v
    simp only [renderArrayLoopChecked, renderArrayLoop]
    split
    · rfl
    · rw [(ihv _ _ _).2, ihr]
end

theorem lineBreaks_append (a b : String) :
    lineBreaks (a ++ b) = lineBreaks a + lineBreaks b := by
  simp [lineBreaks, String.data_append]

theorem lineBreaks_of_noLineBreak (s : String) (h : NoLineBreak s) : lineBreaks s = 0 := by
  unfold lineBreaks
  exact List.count_eq_zero.mpr h

theorem lineBreaks_newline : lineBreaks "\n" = 1 := by decide

theorem lineBreaks_entryCommentLine (opts : CollapseOptions) (comments : CommentMap)
    (k1 k2 : Int) (h1 : 1 ≤ k1) (h2 : k1 ≤ k2) (value : Value) (path indent : String)
    (depth : Int) :
    lineBreaks (entryCommentLine { opts with MaxDepth := k1 } comments value path indent depth) ≤
      lineBreaks (entryCommentLine { opts with MaxDepth := k2 } comments value path indent
        depth) := by
  have hw : willCollapse value (depth + 1) { opts with MaxDepth := k2 } = true →
      willCollapse value (depth + 1) { opts with MaxDepth := k1 } = true := by
    have hk1 : k1 ≠ 0 := by omega
    have hk2 : k2 ≠ 0 := by omega
    cases value with
    | scalar s => simp [willCollapse]
    | omap es =>
      simp only [willCollapse, if_neg hk1, if_neg hk2, Bool.and_eq_true, decide_eq_true_eq]
      rintro ⟨ha, hb⟩
      exact ⟨ha, by omega⟩
    | slice xs =>
      simp only [willCollapse, if_neg hk1, if_neg hk2, Bool.and_eq_true, decide_eq_true_eq]
      rintro ⟨ha, hb⟩
      exact ⟨ha, by omega⟩
  unfold entryCommentLine
  show lineBreaks (if (opts.ShowComments && !willCollapse value (depth + 1)
      { opts with MaxDepth := k1 }) = true then _ else _) ≤
    lineBreaks (if (opts.ShowComments && !willCollapse value (depth + 1)
      { opts with MaxDepth := k2 }) = true then _ else _)
  generalize willCollapse value (depth + 1) { opts with MaxDepth := k1 } = w1 at hw
  generalize willCollapse value (depth + 1) { opts with MaxDepth := k2 } = w2 at hw
  generalize opts.ShowComments = sc
  cases sc <;> cases w1 <;> cases w2 <;> simp at hw ⊢
  exact Nat.zero_le _

theorem lineBreaks_render_pos (lib : Lib) (opts : CollapseOptions) (comments : CommentMap)
    (v : Value) (path indent : String) (d : Int) :
    1 ≤ lineBreaks (renderValue lib opts comments v path indent d) ∧
    1 ≤ lineBreaks (renderArrayItem lib opts comments v path indent d) := by
  obtain ⟨⟨r1, h1⟩, ⟨r2, h2⟩⟩ := render_ends_with_line_break lib opts comments v path indent d
  rw [h1, h2, lineBreaks_append, lineBreaks_append, lineBreaks_newline]
  omega

mutual
/-- Fewer levels never give more line breaks: values and sequence items. -/
theorem lineBreaks_value (lib : Lib) (opts : CollapseOptions) (comments : CommentMap)
    (k1 k2 : Int) (h1 : 1 ≤ k1) (h2 : k1 ≤ k2) :
    ∀ (v : Value) (path indent : String) (d : Int),
      lineBreaks (renderValue lib { opts with MaxDepth := k1 } comments v path indent d) ≤
        lineBreaks (renderValue lib { opts with MaxDepth := k2 } comments v path indent d) ∧
      lineBreaks (renderArrayItem lib { opts with MaxDepth := k1 } comments v path indent d) ≤
        lineBreaks (renderArrayItem lib { opts with MaxDepth := k2 } comments v path indent d)
  | .scalar s, path, indent, d => by
    simp [renderValue, renderArrayItem]
  | .omap es, path, indent, d => by
    have ih := lineBreaks_entries lib opts comments k1 k2 h1 h2 es
    have hs := lineBreaks_of_noLineBreak _ (noLineBreak_summarizeOrderedMap es)
    simp only [renderValue, renderArrayItem]
    by_cases hlen : es.length = 0
    · simp [hlen]
    · have hne : es ≠ [] := by intro h; rw [h] at hlen; exact hlen rfl
      simp only [if_neg hlen]
      by_cases hd1 : d ≥ k1
      · rw [if_pos hd1, if_pos hd1]
        by_cases hd2 : d ≥ k2
        · rw [if_pos hd2, if_pos hd2]
          exact ⟨le_refl _, le_refl _⟩
        · rw [if_neg hd2, if_neg hd2]
          simp only [lineBreaks_append, lineBreaks_newline, hs]
          obtain ⟨r, hr⟩ := (renderEntries_end_with_line_break lib
            { opts with MaxDepth := k2 } comments es path (indent ++ "  ") d).2.2 hne
          constructor
          · omega
          · rw [hr, lineBreaks_append, lineBreaks_newline]
            omega
      · have hd2 : ¬ d ≥ k2 := by omega
        rw [if_neg hd1, if_neg hd1, if_neg hd2, if_neg hd2]
        simp only [lineBreaks_append, lineBreaks_newline]
        constructor
        · have := (ih path indent d).1
          omega
        · exact (ih path (indent ++ "  ") d).2.2
  | .slice xs, path, indent, d => by
    have ih := lineBreaks_items lib opts comments k1 k2 h1 h2 xs
    have hs := lineBreaks_of_noLineBreak _ (noLineBreak_summarizeArray xs)
    have hmax : arrayMaxItems { opts with MaxDepth := k1 } xs =
        arrayMaxItems { opts with MaxDepth := k2 } xs := rfl
    simp only [renderValue, renderArrayItem]
    by_cases hlen : xs.length = 0
    · simp [hlen]
    · simp only [if_neg hlen]
      by_cases hd1 : d ≥ k1
      · rw [if_pos hd1, if_pos hd1]
        by_cases hd2 : d ≥ k2
        · rw [if_pos hd2, if_pos hd2]
          exact ⟨le_refl _, le_refl _⟩
        · rw [if_neg hd2, if_neg hd2]
          simp only [lineBreaks_append, lineBreaks_newline, hs]
          constructor <;> omega
      · have hd2 : ¬ d ≥ k2 := by omega
        rw [if_neg hd1, if_neg hd1, if_neg hd2, if_neg hd2]
        simp only [lineBreaks_append, lineBreaks_newline]
        rw [hmax]
        constructor
        · have := ih (arrayMaxItems { opts with MaxDepth := k2 } xs) xs.length 0 path indent d
          omega
        · have := ih (arrayMaxItems { opts with MaxDepth := k2 } xs) xs.length 0 path
            (indent ++ "  ") d
          omega
/-- Fewer levels never give more line breaks: the entries of a mapping. -/
theorem lineBreaks_entries (lib : Lib) (opts : CollapseOptions) (comments : CommentMap)
    (k1 k2 : Int) (h1 : 1 ≤ k1) (h2 : k1 ≤ k2) :
    ∀ (es : List orderedEntry) (path indent : String) (d : Int),
      lineBreaks (renderMap lib { opts with MaxDepth := k1 } comments es path indent d) ≤
        lineBreaks (renderMap lib { opts with MaxDepth := k2 } comments es path indent d) ∧
      lineBreaks (renderInlineRest lib { opts with MaxDepth := k1 } comments es path indent d) ≤
        lineBreaks (renderInlineRest lib { opts with MaxDepth := k2 } comments es path indent
          d) ∧
      lineBreaks (renderInlineMap lib { opts with MaxDepth := k1 } comments es path indent d) ≤
        lineBreaks (renderInlineMap lib { opts with MaxDepth := k2 } comments es path indent d)
  | [], path, indent, d => by
    simp [renderMap, renderInlineRest, renderInlineMap]
  | .mk k v :: rest, path, indent, d => by
    have ihr := lineBreaks_entries lib opts comments k1 k2 h1 h2 rest path indent d
    have ihv := lineBreaks_value lib opts comments k1 k2 h1 h2 v
    have hc := lineBreaks_entryCommentLine opts comments k1 k2 h1 h2 v (childPath path k)
      indent d
    simp only [renderMap, renderInlineRest, renderInlineMap, lineBreaks_append]
    refine ⟨?_, ?_, ?_⟩
    · have := (ihv (childPath path k) (indent ++ "  ") (d + 1)).1
      have := ihr.1
      omega
    · have := (ihv (childPath path k) indent (d + 1)).1
      have := ihr.2.1
      omega
    · have := (ihv (childPath path k) indent (d + 1)).1
      have := ihr.2.1
      omega
/-- Fewer levels never give more line breaks: the items of a sequence. -/
theorem lineBreaks_items (lib : Lib) (opts : CollapseOptions) (comments : CommentMap)
    (k1 k2 : Int) (h1 : 1 ≤ k1) (h2 : k1 ≤ k2) :
    ∀ (xs : List Value) (maxItems : Int) (len i : Nat) (path indent : String) (d : Int),
      lineBreaks (renderArrayLoop lib { opts with MaxDepth := k1 } comments maxItems len xs i
          path indent d) ≤
        lineBreaks (renderArrayLoop lib { opts with MaxDepth := k2 } comments maxItems len xs i
          path indent d)
  | [], maxItems, len, i, path, indent, d => by
    simp [renderArrayLoop]
  | v :: rest, maxItems, len, i, path, indent, d => by
    have ihr := lineBreaks_items lib opts comments k1 k2 h1 h2 rest maxItems len (i + 1) path
      indent d
    have ihv := lineBreaks_value lib opts comments k1 k2 h1 h2 v
    simp only [renderArrayLoop]
    split
    · exact le_refl _
    · simp only [lineBreaks_append]
      have := (ihv path indent (d + 1)).2
      omega
end

theorem lineBreaks_TrimSuffix (t : String) (h : t = "" ∨ ∃ r, t = r ++ "\n") :
    lineBreaks (TrimSuffix t "\n") = lineBreaks t - 1 := by
  rcases h with h | ⟨r, h⟩
  · rw [h]
    decide
  · rw [h, TrimSuffix_append_newline, lineBreaks_append, lineBreaks_newline]
    omega

/-! ## The claims on comments, keys, hosts and depth -/

/-- C21: `extractFirstCommentLine` returns the first description line of the raw comment
(a line that, cleaned of whitespace and leading `#`, is not blank, is not an `@schema`
marker line and does not lie inside a schema block) with one leading `-- ` removed; it
returns the empty text when there is no description line, as for a schema block that is
opened and never followed by a description; and its result holds no line break. -/
theorem extractFirstCommentLine_first_description (raw : String) :
    (∀ i l, ((SplitLines raw).map cleanCommentLine)[i]? = some l →
      isDescriptionLine false ((SplitLines raw).map cleanCommentLine) i = true →
      (∀ j, j < i → isDescriptionLine false ((SplitLines raw).map cleanCommentLine) j = false) →
      extractFirstCommentLine raw = TrimPrefix l "-- ") ∧
    ((∀ i, isDescriptionLine false ((SplitLines raw).map cleanCommentLine) i = false) →
      extractFirstCommentLine raw = "") ∧
    NoLineBreak (extractFirstCommentLine raw) ∧
    extractFirstCommentLine "# @schema\n# type: string" = "" ∧
    extractFirstCommentLine "# @schema\n# type: object\n# @schema\n# -- Description" =
      "Description" :=
  ⟨(firstCommentLineLoop_spec (SplitLines raw) false).1,
   (firstCommentLineLoop_spec (SplitLines raw) false).2,
   noLineBreak_extractFirstCommentLine raw, by decide, by decide⟩

/-- C22, counterexample: for the mapping written `"a\\b": 1`, `a\\b: 2`, whose two
keys have different values and different texts, the ordered mapping has two entries
with the key `a\\b`: `unquoteKey` maps the two texts to the same string, and the keys of
the ordered mapping are not pairwise distinct. -/
theorem escaped_twin_keys_repeat :
    astToOrderedNode escapedTwinBody =
      .omap [.mk "a\\\\b" (.scalar (.uint64 1)), .mk "a\\\\b" (.scalar (.uint64 2))] ∧
    sourceKeyTexts escapedTwinValues = ["\"a\\\\b\"", "a\\\\b"] ∧
    (sourceKeyTexts escapedTwinValues).Nodup ∧
    unquoteKey "\"a\\\\b\"" = unquoteKey "a\\\\b" ∧
    entryKeys (astToOrderedEntries escapedTwinValues) = ["a\\\\b", "a\\\\b"] ∧
    ¬ (entryKeys (astToOrderedEntries escapedTwinValues)).Nodup := by
  refine ⟨rfl, by decide, by decide, by decide, by decide, by decide⟩

/-- C22 (amended): for every mapping node, the ordered mapping built by `astToOrdered` has
one entry for each source entry with a non-nil key, in source order; its key is the
source key text with one pair of surrounding quotes removed and its value is the tree of
the source value. No entry is dropped for its key: the keys are pairwise distinct
exactly when the source key texts are pairwise distinct and no two of them are mapped
to the same string by `unquoteKey`. -/
theorem astToOrdered_mapping_entries (c : Option String) (vs : List MappingValueNode) :
    astToOrderedNode (.MappingNode c vs) = .omap (astToOrderedEntries vs) ∧
    astToOrderedEntries vs =
      vs.filterMap (fun v => v.Key.map (fun k =>
        orderedEntry.mk (unquoteKey k.text) (astToOrdered v.Value))) ∧
    entryKeys (astToOrderedEntries vs) = (sourceKeyTexts vs).map unquoteKey ∧
    ((entryKeys (astToOrderedEntries vs)).Nodup ↔
      (sourceKeyTexts vs).Nodup ∧
        ∀ s ∈ sourceKeyTexts vs, ∀ t ∈ sourceKeyTexts vs, unquoteKey s = unquoteKey t → s = t) := by
  refine ⟨by simp [astToOrderedNode], astToOrderedEntries_eq vs,
    entryKeys_astToOrderedEntries vs, ?_⟩
  rw [entryKeys_astToOrderedEntries]
  constructor
  · intro h
    have hn : (sourceKeyTexts vs).Nodup := List.Nodup.of_map unquoteKey h
    exact ⟨hn, (List.nodup_map_iff_inj_on hn).mp h⟩
  · rintro ⟨hn, hinj⟩
    exact (List.nodup_map_iff_inj_on hn).mpr hinj

/-- C23: `makeChartKey` is injective: two triples of repository, chart and version have
the same key only when they are equal, whatever runes the texts hold; the pairs of
`TestMakeChartKey_NoCollision` have different keys. -/
theorem makeChartKey_injective (r c v r2 c2 v2 : String) :
    (makeChartKey r c v = makeChartKey r2 c2 v2 ↔ r = r2 ∧ c = c2 ∧ v = v2) ∧
    makeChartKey "repo" "chart\x00" "1.0.0" ≠ makeChartKey "repo" "chart" "\x001.0.0" ∧
    makeChartKey "repo" "abc" "def" ≠ makeChartKey "repo" "ab" "cdef" ∧
    makeChartKey "repo-a" "chart" "1.0.0" ≠ makeChartKey "repo" "a-chart" "1.0.0" ∧
    makeChartKey "repo" "" "v1" ≠ makeChartKey "repo" "v" "1" ∧
    makeChartKey "1:" "2" "3" ≠ makeChartKey "1" ":2" "3" := by
  refine ⟨⟨?_, ?_⟩, by decide, by decide, by decide, by decide, by decide⟩
  · intro h
    have hdata := congrArg String.data h
    rw [makeChartKey_data, makeChartKey_data] at hdata
    obtain ⟨hd1, hrest1⟩ := split_at_separator ':' _ _ _ _
      (fun hm => (natRepr_decode (len r)).2 _ hm rfl)
      (fun hm => (natRepr_decode (len r2)).2 _ hm rfl) hdata
    have hlen1 : len r = len r2 := natRepr_injective _ _ (String.ext hd1)
    obtain ⟨hr, hrest2⟩ := split_at_byte_length r r2 _ _ hlen1 hrest1
    obtain ⟨hd2, hrest3⟩ := split_at_separator ':' _ _ _ _
      (fun hm => (natRepr_decode (len c)).2 _ hm rfl)
      (fun hm => (natRepr_decode (len c2)).2 _ hm rfl) hrest2
    have hlen2 : len c = len c2 := natRepr_injective _ _ (String.ext hd2)
    obtain ⟨hc, hrest4⟩ := split_at_byte_length c c2 _ _ hlen2 hrest3
    exact ⟨hr, hc, String.ext hrest4⟩
  · rintro ⟨rfl, rfl, rfl⟩
    rfl

/-- C24: `matchesHostList(host, patterns)` is true exactly when the host is not empty and
some pattern, trimmed and lower-cased, is not empty and is `*` or, with one leading `.`
removed to give `q`, the lower-cased host is `q` or ends with `.` followed by `q`. So the
match ignores case, blank patterns are ignored, subdomains match, and a host that ends
with the letters of a pattern without a label boundary does not match. -/
theorem matchesHostList_iff (lower : String → String) (host : String) (patterns : List String)
    (hlower : ∀ s, lower s = "" ↔ s = "") :
    (matchesHostList lower host patterns = true ↔
      host ≠ "" ∧ ∃ p ∈ patterns, patternMatches (lower host) (lower (TrimSpace p))) ∧
    matchesHostList ToLower "EXAMPLE.COM" ["example.com"] = true ∧
    matchesHostList ToLower "example.com" ["  ", "Example.Com "] = true ∧
    matchesHostList ToLower "a.b.c.example.com" ["example.com"] = true ∧
    matchesHostList ToLower "sub.example.com" [".example.com"] = true ∧
    matchesHostList ToLower "example.com" [".example.com"] = true ∧
    matchesHostList ToLower "anything.com" ["*"] = true ∧
    matchesHostList ToLower "notexample.com" ["example.com"] = false ∧
    matchesHostList ToLower "notexample.com" [".example.com"] = false ∧
    matchesHostList ToLower "" ["example.com", "*"] = false ∧
    matchesHostList ToLower "example.com" [] = false := by
  refine ⟨?_, by decide, by decide, by decide, by decide, by decide, by decide, by decide,
    by decide, by decide, by decide⟩
  unfold matchesHostList
  by_cases h : lower host = ""
  · rw [if_pos h]
    simp [(hlower host).mp h]
  · rw [if_neg h, matchesHostListLoop_iff]
    have : host ≠ "" := fun h2 => h ((hlower host).mpr h2)
    simp [this]

/-- C24, witness: the lower-casing of ASCII letters maps only the empty text to the empty
text, and with it `Sub.Example.COM` matches the pattern ` example.com`. -/
theorem matchesHostList_iff_witness :
    matchesHostList ToLower "Sub.Example.COM" [" example.com"] = true ∧
    "Sub.Example.COM" ≠ "" ∧ ∃ p ∈ [" example.com"],
      patternMatches (ToLower "Sub.Example.COM") (ToLower (TrimSpace p)) :=
  ⟨by decide,
   (matchesHostList_iff ToLower "Sub.Example.COM" [" example.com"] ToLower_eq_empty).1.mp
     (by decide)⟩

/-- C25, counterexample: for the malformed document of `TestCollapseYAML_InvalidYAML`
(no path, depth 3) the handler returns the error `processing values: ...`: it returns no
rendering, although the empty text of every depth is within the limit, and it does not
return the error that names the size and the limit. -/
theorem unparseable_values_no_rendering :
    getValues sampleLib "2.1.0" "" invalidText "" ⟨3, 3, true, false⟩ =
      .error "processing values: parsing YAML: syntax error" ∧
    (∀ d : Int, fitsAt sampleLib invalidText "" ⟨3, 3, true, false⟩ d) ∧
    (∀ d : Int, getValues sampleLib "2.1.0" "" invalidText "" ⟨3, 3, true, false⟩ ≠
      .ok (outputAt sampleLib "2.1.0" "" invalidText "" ⟨3, 3, true, false⟩ d)) ∧
    (∀ (size : Nat) (depth : Int),
      getValues sampleLib "2.1.0" "" invalidText "" ⟨3, 3, true, false⟩ ≠
        .error (sizeErrorText size MaxResponseBytes depth)) := by
  have h1 : getValues sampleLib "2.1.0" "" invalidText "" ⟨3, 3, true, false⟩ =
      .error "processing values: parsing YAML: syntax error" := rfl
  refine ⟨h1, ?_, ?_, ?_⟩
  · intro d
    unfold fitsAt
    by_cases hd : d = 0
    · subst hd
      decide
    · have : CollapseYAML sampleLib invalidText
          { (⟨3, 3, true, false⟩ : CollapseOptions) with MaxDepth := d } =
          ("", false, some ("parsing YAML: " ++ "syntax error")) :=
        collapse_error_of_parse sampleLib invalidText _ "syntax error" rfl hd
      rw [this]
      decide
  · intro d h
    rw [h1] at h
    cases h
  · intro size depth h
    rw [h1] at h
    obtain ⟨rest, hrest⟩ := sizeErrorText_data size MaxResponseBytes depth
    have hdata := congrArg String.data (Except.error.inj h)
    rw [hrest] at hdata
    cases hdata

/-- C25 (amended): for a requested depth `D >= 1`, on a document that the parser rejects
the handler returns the error `processing values: parsing YAML: ...`; on a document that
the parser accepts there is a depth `d` with `1 <= d <= D` such that no depth above `d`
and up to `D` fits the limit and either `d` fits and the handler returns the rendering
at `d` (the largest depth that fits), or `d = 1` does not fit and the handler returns
the error that names the size, the limit and the depth 1. So on such a document the
handler returns that error exactly when no depth from 1 to `D` fits. The loop runs its
body at most `D - 1` times: more fuel than that does not change its result. -/
theorem getValues_largest_fitting_depth (lib : Lib) (version path data schemaStr : String)
    (opts : CollapseOptions) (hD : 1 ≤ opts.MaxDepth) :
    (match lib.ParseBytes data with
      | .error err =>
        getValues lib version path data schemaStr opts =
          .error ("processing values: " ++ ("parsing YAML: " ++ err))
      | .ok _ =>
        (∃ d : Int, 1 ≤ d ∧ d ≤ opts.MaxDepth ∧
          (∀ d2, d < d2 → d2 ≤ opts.MaxDepth → ¬ fitsAt lib data schemaStr opts d2) ∧
          ((fitsAt lib data schemaStr opts d ∧
              getValues lib version path data schemaStr opts =
                .ok (outputAt lib version path data schemaStr opts d)) ∨
            (¬ fitsAt lib data schemaStr opts d ∧ d = 1 ∧
              getValues lib version path data schemaStr opts =
                .error (sizeErrorText
                  (len (CollapseYAML lib data { opts with MaxDepth := 1 }).1 + len schemaStr)
                  MaxResponseBytes 1)))) ∧
        ((∃ (size : Nat) (depth : Int), getValues lib version path data schemaStr opts =
            .error (sizeErrorText size MaxResponseBytes depth)) ↔
          ∀ d : Int, 1 ≤ d → d ≤ opts.MaxDepth → ¬ fitsAt lib data schemaStr opts d)) ∧
    (∀ (fuel : Nat) (result : String) (collapsed : Bool), (opts.MaxDepth - 1).toNat ≤ fuel →
      reduceDepthLoop lib data schemaStr fuel opts result collapsed =
        reduceDepthLoop lib data schemaStr (opts.MaxDepth - 1).toNat opts result collapsed) := by
  refine ⟨?_, fun fuel result collapsed h =>
    reduceDepthLoop_fuel lib data schemaStr fuel opts result collapsed h⟩
  have hne : opts.MaxDepth ≠ 0 := by omega
  cases hparse : lib.ParseBytes data with
  | error err =>
    simp only
    unfold getValues
    rw [collapse_error_of_parse lib data opts err hparse hne]
  | ok file =>
    simp only
    obtain ⟨d, hd1, hd2, hd3, hd4, hres⟩ :=
      reduceDepthLoop_largest lib data schemaStr file hparse opts.MaxDepth.toNat opts hD
        (by omega)
    have hget : getValues lib version path data schemaStr opts =
        if len (CollapseYAML lib data { opts with MaxDepth := d }).1 + len schemaStr >
            MaxResponseBytes then
          .error (sizeErrorText
            (len (CollapseYAML lib data { opts with MaxDepth := d }).1 + len schemaStr)
            MaxResponseBytes d)
        else .ok (outputAt lib version path data schemaStr opts d) := by
      unfold getValues
      rw [collapse_no_error_of_parse lib data opts file hparse hne]
      simp only
      rw [hres]
      rfl
    have hmain : (fitsAt lib data schemaStr opts d ∧
          getValues lib version path data schemaStr opts =
            .ok (outputAt lib version path data schemaStr opts d)) ∨
        (¬ fitsAt lib data schemaStr opts d ∧ d = 1 ∧
          getValues lib version path data schemaStr opts =
            .error (sizeErrorText
              (len (CollapseYAML lib data { opts with MaxDepth := 1 }).1 + len schemaStr)
              MaxResponseBytes 1)) := by
      by_cases hfit : fitsAt lib data schemaStr opts d
      · left
        refine ⟨hfit, ?_⟩
        rw [hget, if_neg]
        have : len (CollapseYAML lib data { opts with MaxDepth := d }).1 + len schemaStr ≤
            MaxResponseBytes := hfit
        omega
      · right
        have hd5 : d = 1 := by
          rcases hd4 with h | h
          · exact absurd h hfit
          · exact h
        refine ⟨hfit, hd5, ?_⟩
        rw [hget, if_pos]
        · rw [hd5]
        · have : ¬ len (CollapseYAML lib data { opts with MaxDepth := d }).1 + len schemaStr ≤
              MaxResponseBytes := hfit
          omega
    refine ⟨⟨d, hd1, hd2, hd3, hmain⟩, ?_⟩
    constructor
    · rintro ⟨size, depth, herr⟩ d2 h1 h2 hfit2
      rcases hmain with ⟨hfit, hok⟩ | ⟨hfit, hd5, _⟩
      · rw [hok] at herr
        cases herr
      · by_cases hlt : d < d2
        · exact hd3 d2 hlt h2 hfit2
        · have : d2 = d := by omega
          rw [this] at hfit2
          exact hfit hfit2
    · intro hnone
      rcases hmain with ⟨hfit, _⟩ | ⟨_, _, herr⟩
      · exact absurd hfit (hnone d hd1 hd2)
      · exact ⟨_, _, herr⟩

/-- C25, witness: the document `a: {b: {c: value}}` at the requested depth 3; the
rendering at depth 3 fits and is returned. -/
theorem getValues_largest_fitting_depth_witness :
    getValues sampleLib "1.0.0" "" nestedText "" ⟨3, 3, true, false⟩ =
      .ok ⟨"1.0.0", "a: \n  b: \n    c: value", "", true, ""⟩ ∧
    ∀ (fuel : Nat) (result : String) (collapsed : Bool), ((3 : Int) - 1).toNat ≤ fuel →
      reduceDepthLoop sampleLib nestedText "" fuel ⟨3, 3, true, false⟩ result collapsed =
        reduceDepthLoop sampleLib nestedText "" ((3 : Int) - 1).toNat ⟨3, 3, true, false⟩
          result collapsed :=
  ⟨rfl, (getValues_largest_fitting_depth sampleLib "1.0.0" "" nestedText ""
    ⟨3, 3, true, false⟩ (by decide)).2⟩

/-- C26: the path under which a comment of an entry below a sequence element is stored
differs from the path under which the renderer looks it up: the extractor extends the
path of the sequence with `[index]`, the renderer does not. For the document
`commentedItemsText` the comments of `image` and `nested` are stored under
`items[0].image` and `items[0].config.nested`, nothing is stored under `items.image` and
`items.config.nested`, and the rendering with comments at depth 4 holds no comment
line. -/
theorem sequence_entry_comments_not_shown :
    (∀ (path key : String) (i : Nat),
      childPath (path ++ "[" ++ Itoa i ++ "]") key ≠ childPath path key) ∧
    extractComments ⟨[⟨some commentedItemsBody⟩]⟩ "items[0].image" = some "The image" ∧
    extractComments ⟨[⟨some commentedItemsBody⟩]⟩ "items[0].config.nested" =
      some "The nested value" ∧
    extractComments ⟨[⟨some commentedItemsBody⟩]⟩ "items.image" = none ∧
    extractComments ⟨[⟨some commentedItemsBody⟩]⟩ "items.config.nested" = none ∧
    CollapseYAML commentLib commentedItemsText ⟨4, 3, true, true⟩ =
      ("items: \n  - name: app\n    image: nginx\n    config: \n    nested: value",
        true, none) := by
  refine ⟨childPath_index_ne, by decide, by decide, by decide, by decide, by decide⟩

/-- C27: two distinct mapping entries can be stored under the same path. In the document
`dottedKeyText` the child `b` of the mapping `a` and the top-level key written `"a.b"`
both have the path `a.b`; the comment of the child is the only comment of the document,
and the rendering with comments writes it before the child and before the top-level
entry `a.b` as well. -/
theorem dotted_key_comment_collision :
    childPath (childPath "" "a") "b" = childPath "" (unquoteKey "\"a.b\"") ∧
    extractComments ⟨[⟨some dottedKeyBody⟩]⟩ "a.b" = some "Inner setting" ∧
    CollapseYAML commentLib dottedKeyText ⟨3, 3, true, true⟩ =
      ("a: \n  # Inner setting\n  b: 1\n# Inner setting\na.b: 2", true, none) := by
  refine ⟨by decide, by decide, by decide⟩

/-- C28, counterexample: at `MaxDepth = 0` the helper `willCollapse` is false for the
non-empty mapping `enabled: true` at depth 0, while `renderValue` with the same value,
depth and options writes the summary `object (1 key)`. -/
theorem willCollapse_differs_at_unlimited_depth :
    willCollapse flatTree 0 ⟨0, 3, true, false⟩ = false ∧
    renderValue sampleLib ⟨0, 3, true, false⟩ CommentMap.empty flatTree "" "" 0 =
      "object (1 key)\n" ∧
    isSummaryLine flatTree "object (1 key)\n" := by
  refine ⟨by decide, by decide, ?_⟩
  exact ⟨by simp, by decide⟩

/-- C28 (amended): `willCollapse(value, depth, opts)` is true exactly when `MaxDepth` is
not 0 and `renderValue`, called on that value at that depth with those options, writes
the one-line counted summary of the value instead of its content. At `MaxDepth = 0` it
is false for every value, as `TestWillCollapse` asks for, while `renderValue` writes the
summary of every non-empty mapping or sequence at every depth that is not negative. -/
theorem willCollapse_iff_summary (lib : Lib) (opts : CollapseOptions) (comments : CommentMap)
    (value : Value) (path indent : String) (depth : Int) :
    (willCollapse value depth opts = true ↔
      opts.MaxDepth ≠ 0 ∧
        isSummaryLine value (renderValue lib opts comments value path indent depth)) ∧
    (opts.MaxDepth = 0 → willCollapse value depth opts = false) ∧
    (opts.MaxDepth = 0 → 0 ≤ depth →
      (∀ es, value = .omap es → es ≠ [] →
        renderValue lib opts comments value path indent depth =
          summarizeOrderedMap es ++ "\n") ∧
      (∀ xs, value = .slice xs → xs ≠ [] →
        renderValue lib opts comments value path indent depth = summarizeArray xs ++ "\n")) := by
  refine ⟨?_, ?_, ?_⟩
  · by_cases h0 : opts.MaxDepth = 0
    · simp [willCollapse, h0]
    · cases value with
      | scalar s => simp [willCollapse, isSummaryLine, h0]
      | omap es =>
        simp only [willCollapse, if_neg h0, isSummaryLine, renderValue, Bool.and_eq_true,
          decide_eq_true_eq]
        by_cases hes : es = []
        · subst hes
          simp
        · have hlen : ¬ es.length = 0 := by
            intro h
            exact hes (List.length_eq_zero.mp h)
          rw [if_neg hlen]
          by_cases hd : depth ≥ opts.MaxDepth
          · rw [if_pos hd]
            simp [h0, hes, hd]
            omega
          · rw [if_neg hd]
            constructor
            · rintro ⟨_, h⟩
              exact absurd h hd
            · rintro ⟨_, _, h⟩
              obtain ⟨rest, hrest⟩ := summarizeOrderedMap_head es
              have hdata := congrArg String.data h
              rw [String.data_append, String.data_append, hrest] at hdata
              have : ("\n" : String).data = ['\n'] := rfl
              rw [this] at hdata
              simp at hdata
      | slice xs =>
        simp only [willCollapse, if_neg h0, isSummaryLine, renderValue, Bool.and_eq_true,
          decide_eq_true_eq]
        by_cases hxs : xs = []
        · subst hxs
          simp
        · have hlen : ¬ xs.length = 0 := by
            intro h
            exact hxs (List.length_eq_zero.mp h)
          rw [if_neg hlen]
          by_cases hd : depth ≥ opts.MaxDepth
          · rw [if_pos hd]
            simp [h0, hxs, hd]
            omega
          · rw [if_neg hd]
            constructor
            · rintro ⟨_, h⟩
              exact absurd h hd
            · rintro ⟨_, _, h⟩
              obtain ⟨rest, hrest⟩ := summarizeArray_head xs
              have hdata := congrArg String.data h
              rw [String.data_append, String.data_append, hrest] at hdata
              have : ("\n" : String).data = ['\n'] := rfl
              rw [this] at hdata
              simp at hdata
  · intro h0
    simp [willCollapse, h0]
  · intro h0 hd
    constructor
    · intro es hv hes
      subst hv
      have hlen : ¬ es.length = 0 := fun h => hes (List.length_eq_zero.mp h)
      simp only [renderValue]
      rw [if_neg hlen, if_pos (by omega)]
    · intro xs hv hxs
      subst hv
      have hlen : ¬ xs.length = 0 := fun h => hxs (List.length_eq_zero.mp h)
      simp only [renderValue]
      rw [if_neg hlen, if_pos (by omega)]

/-- C29: the tree builder, the comment extractor and the renderer are functions defined
by recursion on the structure of the AST and of the ordered tree, so they return on
every parsed document. An alias node becomes the scalar that holds its token and the
extractor passes it by; nothing below an alias is visited, also when the alias refers to
the anchor that encloses it. The renderer has no failure path: on every tree, and so on
the tree of every parsed document, the renderer with its index expression checked
returns the text of `renderNode`. -/
theorem renderer_returns_on_every_tree (lib : Lib) (opts : CollapseOptions)
    (comments : CommentMap) (node : Value) (path indent : String) (depth : Int)
    (file : File) (c : Option String) (text : String) :
    renderNodeChecked lib opts comments node path indent depth =
      some (renderNode lib opts comments node path indent depth) ∧
    renderNodeChecked lib opts (extractComments file) (documentRoot file) "" "" 0 =
      some (renderNode lib opts (extractComments file) (documentRoot file) "" "" 0) ∧
    astToOrderedNode (.AliasNode c text) = .scalar (.str text) ∧
    extractCommentsFromNodeSwitch (.AliasNode c text) path comments = comments ∧
    astToOrderedNode selfAliasBody = .omap [.mk "a" (.omap [.mk "b" (.scalar (.str "*x"))])] ∧
    renderNode escapingLib ⟨3, 3, true, true⟩ (extractComments ⟨[⟨some selfAliasBody⟩]⟩)
      (astToOrderedNode selfAliasBody) "" "" 0 = "a: \n  b: \"*x\"\n" := by
  have hnode : ∀ (comments : CommentMap) (node : Value) (path indent : String) (depth : Int),
      renderNodeChecked lib opts comments node path indent depth =
        some (renderNode lib opts comments node path indent depth) := by
    intro comments node path indent depth
    cases node with
    | omap es => exact (checked_entries lib opts comments es path indent depth).1
    | slice xs =>
      exact checked_items lib opts comments xs (arrayMaxItems opts xs) xs.length 0 path indent
        depth
    | scalar s => rfl
  refine ⟨hnode comments node path indent depth, hnode _ _ _ _ _, ?_, ?_, rfl, by decide⟩
  · simp [astToOrderedNode]
  · simp [extractCommentsFromNodeSwitch]

/-- C30, counterexample: the document `x: {a: 1}` renders as 17 bytes at `MaxDepth = 1`
and as 10 bytes at `MaxDepth = 2`; lowering the depth from 2 to 1 makes the rendering
longer, because the summary `object (1 key)` is longer than the content it stands for. -/
theorem lower_depth_longer_output :
    CollapseYAML commentLib shortText ⟨1, 3, true, false⟩ = ("x: object (1 key)", true, none) ∧
    CollapseYAML commentLib shortText ⟨2, 3, true, false⟩ = ("x: \n  a: 1", true, none) ∧
    len (CollapseYAML commentLib shortText ⟨1, 3, true, false⟩).1 = 17 ∧
    len (CollapseYAML commentLib shortText ⟨2, 3, true, false⟩).1 = 10 ∧
    ¬ (len (CollapseYAML commentLib shortText ⟨1, 3, true, false⟩).1 ≤
      len (CollapseYAML commentLib shortText ⟨1 + 1, 3, true, false⟩).1) := by
  refine ⟨by decide, by decide, by decide, by decide, by decide⟩

/-- C30 (amended): for every document, every `k >= 1` and every fixed choice of the other
options, the output of `CollapseYAML` at `MaxDepth = k` has at most as many line breaks
as its output at `MaxDepth = k + 1`: lowering the depth by one never adds a line. Its
byte length can grow. -/
theorem lower_depth_no_more_lines (lib : Lib) (data : String) (opts : CollapseOptions)
    (k : Int) (hk : 1 ≤ k) :
    lineBreaks (CollapseYAML lib data { opts with MaxDepth := k }).1 ≤
      lineBreaks (CollapseYAML lib data { opts with MaxDepth := k + 1 }).1 := by
  cases hparse : lib.ParseBytes data with
  | error err =>
    rw [collapse_error_of_parse lib data _ err hparse (by show k ≠ 0; omega),
      collapse_error_of_parse lib data _ err hparse (by show k + 1 ≠ 0; omega)]
  | ok file =>
    rw [collapse_of_parse lib data _ file (by show k ≠ 0; omega) hparse,
      collapse_of_parse lib data _ file (by show k + 1 ≠ 0; omega) hparse]
    by_cases hnil : (documentRoot file).isNil = true
    · rw [if_pos hnil, if_pos hnil]
    · rw [if_neg hnil, if_neg hnil]
      show lineBreaks (TrimSuffix (renderNode lib { opts with MaxDepth := k }
          (if opts.ShowComments then extractComments file else CommentMap.empty)
          (documentRoot file) "" "" 0) "\n") ≤
        lineBreaks (TrimSuffix (renderNode lib { opts with MaxDepth := k + 1 }
          (if opts.ShowComments then extractComments file else CommentMap.empty)
          (documentRoot file) "" "" 0) "\n")
      generalize (if opts.ShowComments then extractComments file else CommentMap.empty) =
        comments
      cases documentRoot file with
      | scalar s => exact le_refl _
      | omap es =>
        simp only [renderNode]
        rw [lineBreaks_TrimSuffix _ (renderEntries_end_with_line_break lib _ comments es
            "" "" 0).1,
          lineBreaks_TrimSuffix _ (renderEntries_end_with_line_break lib _ comments es
            "" "" 0).1]
        have := (lineBreaks_entries lib opts comments k (k + 1) hk (by omega) es "" "" 0).1
        omega
      | slice xs =>
        simp only [renderNode, renderArray]
        rw [lineBreaks_TrimSuffix _ (renderItems_end_with_line_break lib _ comments xs
            _ _ _ _ _ _),
          lineBreaks_TrimSuffix _ (renderItems_end_with_line_break lib _ comments xs
            _ _ _ _ _ _)]
        have := lineBreaks_items lib opts comments k (k + 1) hk (by omega) xs
          (arrayMaxItems { opts with MaxDepth := k + 1 } xs) xs.length 0 "" "" 0
        exact Nat.sub_le_sub_right this 1

/-- C30, witness: the document `a: {b: {c: value}}` at the depths 2 and 3. -/
theorem lower_depth_no_more_lines_witness :
    lineBreaks (CollapseYAML sampleLib nestedText ⟨2, 3, true, false⟩).1 ≤
      lineBreaks (CollapseYAML sampleLib nestedText ⟨2 + 1, 3, true, false⟩).1 :=
  lower_depth_no_more_lines sampleLib nestedText ⟨2, 3, true, false⟩ 2 (by decide)

end McpHelm
